import Mathlib

/-!
Verification of the Dulmage–Mendelsohn decomposition engine.

Shallow embedding of `src/modules/dulmage_mendelsohn_decomposition.py` and
`src/modules/strongly_connected_components.py`.  Matrices are lists of rows of
integers (an edge (r,c) exists iff the entry is nonzero), a matching is a list
of (row, col) pairs.  A Python `set` is modelled as a duplicate-free
`List Nat`: every `add` in the source is guarded by a not-member test, so a
guarded cons is an exact model; `sorted(list(s))` becomes an insertion sort
after `dedup`.  The Python recursion / while-loops are modelled with an
explicit fuel argument, returning `none` when the fuel runs out (adequacy
lemmas show the chosen fuel never runs out, matching the unbounded Python
loops).  A Python exception (e.g. a `KeyError` on a malformed matching) is
likewise modelled as `none`.
-/

namespace DM

/-- Matrix entry access: `matrix[r][c]`, 0 outside the carried rows/cols
(only used in-range along executions mirroring the source). -/
def entry (mat : List (List Int)) (r c : Nat) : Int := (mat.getD r []).getD c 0

/-- Insertion into a sorted list (used to model Python's `sorted`). -/
def insertSorted (x : Nat) : List Nat → List Nat
  | [] => [x]
  | y :: ys => if x ≤ y then x :: y :: ys else y :: insertSorted x ys

/-- Python `sorted(...)` on a list of naturals (insertion sort, structurally
recursive so that the kernel can evaluate it). -/
def sortNat (l : List Nat) : List Nat := l.foldr insertSorted []

/-- Python `sorted(list(set(...)))`. -/
def sortedSet (l : List Nat) : List Nat := sortNat l.dedup

/-- `self.dM_rows = set(r for r, _ in matching)` (membership view). -/
def matchedRows (matching : List (Nat × Nat)) : List Nat := matching.map Prod.fst

/-- `self.dM_cols = set(c for _, c in matching)` (membership view). -/
def matchedCols (matching : List (Nat × Nat)) : List Nat := matching.map Prod.snd

/-! ### `_find_Vinf`: alternating reachability from unmatched rows -/

/-- Rows pushed when column `c` first enters `vinf_cols`:
`for r, mc in self.matching: if mc == c and r not in vinf_rows: stack.append(r)`. -/
def vinfPushes (matching : List (Nat × Nat)) (rows : List Nat) (c : Nat) : List Nat :=
  (matching.filter (fun p => p.2 = c ∧ p.1 ∉ rows)).map Prod.fst

/-- Inner loop of `_find_Vinf` over `for c in range(self.m)` for a fresh row `v`.
`rows` (= `vinf_rows`, already containing `v`) is fixed during the scan;
`cols` and the stack grow.  The stack is a list whose head is the top
(Python appends to the end and pops from the end). -/
def vinfScan (mat : List (List Int)) (matching : List (Nat × Nat)) (rows : List Nat)
    (v : Nat) : List Nat → List Nat → List Nat → List Nat × List Nat
  | [], cols, stk => (cols, stk)
  | c :: cs, cols, stk =>
    if entry mat v c ≠ 0 ∧ (v, c) ∉ matching ∧ c ∉ cols then
      vinfScan mat matching rows v cs (c :: cols)
        ((vinfPushes matching rows c).reverse ++ stk)
    else
      vinfScan mat matching rows v cs cols stk

/-- The `while stack:` loop of `_find_Vinf`. -/
def vinfLoop (mat : List (List Int)) (matching : List (Nat × Nat)) (m : Nat) :
    Nat → List Nat → List Nat → List Nat → Option (List Nat × List Nat)
  | 0, _, _, _ => none
  | _ + 1, [], rows, cols => some (rows, cols)
  | fuel + 1, v :: stk, rows, cols =>
    if v ∈ rows then
      vinfLoop mat matching m fuel stk rows cols
    else
      let res := vinfScan mat matching (v :: rows) v (List.range m) cols stk
      vinfLoop mat matching m fuel res.2 (v :: rows) res.1

/-- Fuel sufficient for `vinfLoop` (proved adequate below). -/
def vinfFuel (mat : List (List Int)) (matching : List (Nat × Nat)) : Nat :=
  let n := mat.length
  let m := (mat.headD []).length
  (n + matching.length + 1) * (m * matching.length + 2) + n + 2

/-- `_find_Vinf`: the initial stack enumerates `set(range(n)) - dM_rows`. -/
def findVinf (mat : List (List Int)) (matching : List (Nat × Nat)) :
    Option (List Nat × List Nat) :=
  let n := mat.length
  let m := (mat.headD []).length
  vinfLoop mat matching m (vinfFuel mat matching)
    ((List.range n).filter (fun r => r ∉ matchedRows matching)) [] []

/-! ### `_find_V0`: alternating reachability from unmatched columns -/

/-- Columns pushed when row `r` first enters `v0_rows`:
`for mr, c2 in self.matching: if mr == r and c2 not in v0_cols: stack.append(c2)`. -/
def v0Pushes (matching : List (Nat × Nat)) (cols : List Nat) (r : Nat) : List Nat :=
  (matching.filter (fun p => p.1 = r ∧ p.2 ∉ cols)).map Prod.snd

/-- Inner loop of `_find_V0` over `for r in range(self.n)` for a fresh column `c`. -/
def v0Scan (mat : List (List Int)) (matching : List (Nat × Nat)) (cols : List Nat)
    (c : Nat) : List Nat → List Nat → List Nat → List Nat × List Nat
  | [], rows, stk => (rows, stk)
  | r :: rs, rows, stk =>
    if entry mat r c ≠ 0 ∧ (r, c) ∉ matching ∧ r ∉ rows then
      v0Scan mat matching cols c rs (r :: rows)
        ((v0Pushes matching cols r).reverse ++ stk)
    else
      v0Scan mat matching cols c rs rows stk

/-- The `while stack:` loop of `_find_V0`; returns `(v0_rows, v0_cols)`. -/
def v0Loop (mat : List (List Int)) (matching : List (Nat × Nat)) (n : Nat) :
    Nat → List Nat → List Nat → List Nat → Option (List Nat × List Nat)
  | 0, _, _, _ => none
  | _ + 1, [], rows, cols => some (rows, cols)
  | fuel + 1, c :: stk, rows, cols =>
    if c ∈ cols then
      v0Loop mat matching n fuel stk rows cols
    else
      let res := v0Scan mat matching (c :: cols) c (List.range n) rows stk
      v0Loop mat matching n fuel res.2 res.1 (c :: cols)

/-- Fuel sufficient for `v0Loop` (proved adequate below). -/
def v0Fuel (mat : List (List Int)) (matching : List (Nat × Nat)) : Nat :=
  let n := mat.length
  let m := (mat.headD []).length
  (m + matching.length + 1) * (n * matching.length + 2) + m + 2

/-- `_find_V0`: the initial stack enumerates `set(range(m)) - dM_cols`. -/
def findV0 (mat : List (List Int)) (matching : List (Nat × Nat)) :
    Option (List Nat × List Nat) :=
  let n := mat.length
  let m := (mat.headD []).length
  v0Loop mat matching n (v0Fuel mat matching)
    ((List.range m).filter (fun c => c ∉ matchedCols matching)) [] []

/-! ### Spec-side reachability predicates (for the refinement claims) -/

/-- Modelled from the spec: V∞ is "the set of rows and columns reachable from
unmatched rows by paths that alternate non-matching edges (row→col) with
matching edges (col→row)".  `Sum.inl` are rows, `Sum.inr` are columns. -/
inductive VinfReach (mat : List (List Int)) (matching : List (Nat × Nat)) :
    Nat ⊕ Nat → Prop
  | seed (r : Nat) : r < mat.length → r ∉ matchedRows matching →
      VinfReach mat matching (Sum.inl r)
  | col (r c : Nat) : VinfReach mat matching (Sum.inl r) → entry mat r c ≠ 0 →
      (r, c) ∉ matching → VinfReach mat matching (Sum.inr c)
  | row (c r : Nat) : VinfReach mat matching (Sum.inr c) → (r, c) ∈ matching →
      VinfReach mat matching (Sum.inl r)

/-- Modelled from the spec: V0 is the symmetric construction "seeded from
unmatched columns, alternating non-matching edges (col→row) with matching
edges (row→col)". -/
inductive V0Reach (mat : List (List Int)) (matching : List (Nat × Nat)) :
    Nat ⊕ Nat → Prop
  | seed (c : Nat) : c < (mat.headD []).length → c ∉ matchedCols matching →
      V0Reach mat matching (Sum.inr c)
  | row (c r : Nat) : V0Reach mat matching (Sum.inr c) → entry mat r c ≠ 0 →
      (r, c) ∉ matching → V0Reach mat matching (Sum.inl r)
  | col (r c : Nat) : V0Reach mat matching (Sum.inl r) → (r, c) ∈ matching →
      V0Reach mat matching (Sum.inr c)

/-- The matrix is rectangular (`numpy` shape), as in every real input. -/
def Rect (mat : List (List Int)) : Prop :=
  ∀ row ∈ mat, row.length = (mat.headD []).length

/-- The data-model well-formedness of a matching: in-range endpoints and no
row or column used twice. -/
def ValidMatching (mat : List (List Int)) (matching : List (Nat × Nat)) : Prop :=
  (∀ p ∈ matching, p.1 < mat.length ∧ p.2 < (mat.headD []).length) ∧
    (matching.map Prod.fst).Nodup ∧ (matching.map Prod.snd).Nodup

/-- Loop invariant of the `_find_Vinf` worklist. -/
def VinfInv (mat : List (List Int)) (matching : List (Nat × Nat))
    (stack rows cols : List Nat) : Prop :=
  (∀ v ∈ stack, VinfReach mat matching (Sum.inl v)) ∧
  (∀ v ∈ stack, v < mat.length) ∧
  (∀ r ∈ rows, VinfReach mat matching (Sum.inl r)) ∧
  (∀ r ∈ rows, r < mat.length) ∧
  (∀ c ∈ cols, VinfReach mat matching (Sum.inr c)) ∧
  (∀ r ∈ rows, ∀ c, entry mat r c ≠ 0 → (r, c) ∉ matching → c ∈ cols) ∧
  (∀ c ∈ cols, ∀ p ∈ matching, p.2 = c → p.1 ∈ rows ∨ p.1 ∈ stack) ∧
  (∀ r, r < mat.length → r ∉ matchedRows matching → r ∈ rows ∨ r ∈ stack)

/-- Termination measure for `vinfLoop`. -/
def vinfMeasure (matching : List (Nat × Nat)) (n m : Nat)
    (stack rows : List Nat) : Nat :=
  ((Finset.range n ∪ (matching.map Prod.fst).toFinset) \ rows.toFinset).card *
      (m * matching.length + 1) + stack.length

/-- The resulting `(vinf_rows, vinf_cols)` pair is exactly alternating
reachability (statement reused for arbitrary seed orders). -/
def VinfPost (mat : List (List Int)) (matching : List (Nat × Nat))
    (R C : List Nat) : Prop :=
  (∀ r, r ∈ R ↔ VinfReach mat matching (Sum.inl r)) ∧
    (∀ c, c ∈ C ↔ VinfReach mat matching (Sum.inr c))

/-- Loop invariant of the `_find_V0` worklist. -/
def V0Inv (mat : List (List Int)) (matching : List (Nat × Nat))
    (stack rows cols : List Nat) : Prop :=
  (∀ v ∈ stack, V0Reach mat matching (Sum.inr v)) ∧
  (∀ v ∈ stack, v < (mat.headD []).length) ∧
  (∀ c ∈ cols, V0Reach mat matching (Sum.inr c)) ∧
  (∀ c ∈ cols, c < (mat.headD []).length) ∧
  (∀ r ∈ rows, V0Reach mat matching (Sum.inl r)) ∧
  (∀ c ∈ cols, ∀ r, entry mat r c ≠ 0 → (r, c) ∉ matching → r ∈ rows) ∧
  (∀ r ∈ rows, ∀ p ∈ matching, p.1 = r → p.2 ∈ cols ∨ p.2 ∈ stack) ∧
  (∀ c, c < (mat.headD []).length → c ∉ matchedCols matching →
    c ∈ cols ∨ c ∈ stack)

/-- Termination measure for `v0Loop`. -/
def v0Measure (matching : List (Nat × Nat)) (n m : Nat)
    (stack cols : List Nat) : Nat :=
  ((Finset.range m ∪ (matching.map Prod.snd).toFinset) \ cols.toFinset).card *
      (n * matching.length + 1) + stack.length

/-- The resulting `(v0_rows, v0_cols)` pair is exactly alternating
reachability from unmatched columns. -/
def V0Post (mat : List (List Int)) (matching : List (Nat × Nat))
    (R C : List Nat) : Prop :=
  (∀ r, r ∈ R ↔ V0Reach mat matching (Sum.inl r)) ∧
    (∀ c, c ∈ C ↔ V0Reach mat matching (Sum.inr c))

/-! ### The `StronglyConnectedComponents` class -/

/-- A decomposition block: sorted row ids and sorted column ids. -/
abbrev Block := List Nat × List Nat

/-- `_create_adjacency_list`: matching edges give both `r → c+n` and `c+n → r`,
non-matching matrix edges give `r → c+n` only; appends happen in that order. -/
def sccAdj (mat : List (List Int)) (ve : List (Nat × Nat)) (n m : Nat) (v : Nat) :
    List Nat :=
  if v < n then
    ((ve.filter (fun p => p.1 = v)).map (fun p => p.2 + n)) ++
      (((List.range m).filter
          (fun c => entry mat v c ≠ 0 ∧ (v, c) ∉ ve)).map (fun c => c + n))
  else if v < n + m then
    (ve.filter (fun p => p.2 + n = v)).map Prod.fst
  else []

/-- Tarjan traversal state (`self.index`, `self.stack`, `self.on_stack`,
`self.indices`, `self.lowlink`, `self.sccs`); `indices[v] == -1` is modelled
as `ids v = none`, `lowlink` cells are only read after being written. -/
structure TjSt where
  idx : Nat
  stk : List Nat
  onStk : Nat → Bool
  ids : Nat → Option Nat
  low : Nat → Nat
  comps : List Block

def tjInit : TjSt :=
  { idx := 0, stk := [], onStk := fun _ => false, ids := fun _ => none,
    low := fun _ => 0, comps := [] }

/-- The component-popping loop `while True: w = stack.pop(); ...; if w == v: break`:
returns (popped segment, remaining stack). -/
def popUntil (v : Nat) : List Nat → List Nat × List Nat
  | [] => ([], [])
  | w :: rest =>
    if w = v then ([w], rest)
    else
      let pr := popUntil v rest
      (w :: pr.1, pr.2)

/-- Building one SCC record from the popped vertices:
rows are popped ids `< n`, cols are popped ids `≥ n` shifted by `n`,
both as `sorted(list(set(...)))`. -/
def mkComp (n : Nat) (popped : List Nat) : Block :=
  (sortedSet (popped.filter (fun w => w < n)),
   sortedSet ((popped.filter (fun w => ¬ w < n)).map (fun w => w - n)))

/-- The `if self.lowlink[v] == self.indices[v]` component closing. -/
def tjClose (n v : Nat) (s : TjSt) : TjSt :=
  let pr := popUntil v s.stk
  let comp := mkComp n pr.1
  { s with
    stk := pr.2,
    onStk := fun x => if x ∈ pr.1 then false else s.onStk x,
    comps := if comp.1 = [] ∧ comp.2 = [] then s.comps else s.comps ++ [comp] }

/-- The `for w in self.graph[v]` loop of `_strong_connect`, parameterised by the
recursive call `rsc` (which carries one unit of fuel less, so the whole
recursion is structural in fuel and kernel-evaluable). -/
def tjVisitF (rsc : Nat → TjSt → Option TjSt) (v : Nat) :
    List Nat → TjSt → Option TjSt
  | [], s => some s
  | w :: ws, s =>
    if s.ids w = none then
      match rsc w s with
      | none => none
      | some t =>
        tjVisitF rsc v ws
          { t with low := fun x => if x = v then min (t.low v) (t.low w) else t.low x }
    else if s.onStk w then
      tjVisitF rsc v ws
        { s with
          low := fun x =>
            if x = v then min (s.low v) ((s.ids w).getD 0) else s.low x }
    else
      tjVisitF rsc v ws s

/-- `_strong_connect` with fuel (the Python version recurses on the call stack;
one fuel unit is consumed per nested recursive call, and the adequacy lemma
shows `#unvisited` fuel always suffices). -/
def tjSC (g : Nat → List Nat) (n : Nat) : Nat → Nat → TjSt → Option TjSt
  | 0, _, _ => none
  | fuel + 1, v, s =>
    let s1 : TjSt :=
      { idx := s.idx + 1, stk := v :: s.stk,
        onStk := fun x => if x = v then true else s.onStk x,
        ids := fun x => if x = v then some s.idx else s.ids x,
        low := fun x => if x = v then s.idx else s.low x,
        comps := s.comps }
    match tjVisitF (tjSC g n fuel) v (g v) s1 with
    | none => none
    | some s2 =>
      if s2.low v = (s2.ids v).getD 0 then some (tjClose n v s2) else some s2

/-- The top loop of `find_sccs`: `for v in range(self.total_vertices): if
self.indices[v] == -1: self._strong_connect(v)`. -/
def tjLoop (g : Nat → List Nat) (n N : Nat) : List Nat → TjSt → Option TjSt
  | [], s => some s
  | v :: vs, s =>
    if s.ids v = none then
      match tjSC g n (N + 1) v s with
      | none => none
      | some t => tjLoop g n N vs t
    else tjLoop g n N vs s

/-! ### `_create_scc_graph` and `_topological_sort_sccs` -/

/-- Vertex membership in a recorded block (rows are stored directly, a column
`j` stands for vertex `j + n`). -/
def inComp (n : Nat) (b : Block) (x : Nat) : Prop :=
  x ∈ b.1 ∨ (n ≤ x ∧ x - n ∈ b.2)

instance (n : Nat) (b : Block) (x : Nat) : Decidable (inComp n b x) := by
  unfold inComp; infer_instance

/-- `vertex_to_scc`: dict built by ascending scc id, so a duplicated vertex
gets the last (largest) id; `none` when the vertex is in no block. -/
def v2s (n : Nat) (comps : List Block) (x : Nat) : Option Nat :=
  ((List.range comps.length).filter
      (fun k => inComp n (comps.getD k ([], [])) x)).getLast?

/-- The cross-component edges discovered from the vertex graph
(one entry per discovery; `_create_scc_graph` dedups via a set). -/
def sccEdges (g : Nat → List Nat) (n N : Nat) (comps : List Block) :
    List (Nat × Nat) :=
  (List.range N).flatMap (fun v =>
    match v2s n comps v with
    | none => []
    | some a =>
      (g v).filterMap (fun w =>
        match v2s n comps w with
        | none => none
        | some b => if a ≠ b then some (a, b) else none))

/-- `scc_graph[a]`: the set of successor component ids, iterated in ascending
order (a Python set of small ints). -/
def sccSuccs (g : Nat → List Nat) (n N : Nat) (comps : List Block) (a : Nat) :
    List Nat :=
  sortedSet (((sccEdges g n N comps).filter (fun p => p.1 = a)).map Prod.snd)

/-- `in_degree[v]` after the counting loop (a Python `int`, modelled as `Int`
since the Kahn loop decrements it). -/
def indeg0 (sccG : Nat → List Nat) (K v : Nat) : Int :=
  (((List.range K).filter (fun u => v ∈ sccG u)).length : Int)

/-- Kahn's loop: `u = queue.pop(0)`; successors are visited in ascending order. -/
def kahnLoop (sccG : Nat → List Nat) :
    Nat → List Nat → List Nat → (Nat → Int) → Option (List Nat)
  | 0, _, _, _ => none
  | _ + 1, [], out, _ => some out
  | fuel + 1, u :: q, out, ind =>
    let step :=
      (sccG u).foldl
        (fun (p : (Nat → Int) × List Nat) v =>
          let dv := p.1 v - 1
          (fun x => if x = v then dv else p.1 x,
           if dv = 0 then p.2 ++ [v] else p.2))
        (ind, [])
    kahnLoop sccG fuel (q ++ step.2) (out ++ [u]) step.1

/-- `_topological_sort_sccs`: Kahn's algorithm on the condensation, then
`self.sccs = [self.sccs[i] for i in sorted_sccs]` (silently dropping any
component whose in-degree never reaches zero). -/
def topoSortSccs (g : Nat → List Nat) (n N : Nat) (comps : List Block) :
    Option (List Block) :=
  let K := comps.length
  let sccG := sccSuccs g n N comps
  let ind := fun v => indeg0 sccG K v
  let queue0 := (List.range K).filter (fun i => ind i = 0)
  match kahnLoop sccG (K + 1) queue0 [] ind with
  | none => none
  | some order => some (order.map (fun i => comps.getD i ([], [])))

/-- `find_sccs` for an abstract adjacency function on `n + m` vertices. -/
def tjFindSccs (g : Nat → List Nat) (n m : Nat) : Option (List Block) :=
  let N := n + m
  match tjLoop g n N (List.range N) tjInit with
  | none => none
  | some s => topoSortSccs g n N s.comps

/-- `StronglyConnectedComponents(matrix, valid_edges).find_sccs()`;
`n`, `m` are the shape of the (sub)matrix. -/
def findSccs (mat : List (List Int)) (ve : List (Nat × Nat)) (n m : Nat) :
    Option (List Block) :=
  tjFindSccs (sccAdj mat ve n m) n m

/-! ### Tarjan invariants -/

/-- Number of unvisited vertices (drives the fuel adequacy). -/
def unvis (N : Nat) (s : TjSt) : Nat :=
  ((List.range N).filter (fun x => s.ids x = none)).length

/-- Vertex membership in some recorded block. -/
def compsMem (n : Nat) (comps : List Block) (x : Nat) : Prop :=
  ∃ k, k < comps.length ∧ inComp n (comps.getD k ([], [])) x

/-- Well-formedness of a recorded block: row ids below `n`, column ids
translating back below `N`, both duplicate-free. -/
def BlockWF (n N : Nat) (b : Block) : Prop :=
  (∀ x ∈ b.1, x < n) ∧ (∀ j ∈ b.2, j + n < N) ∧ b.1.Nodup ∧ b.2.Nodup

/-- Global Tarjan state invariant. -/
def TjGI (g : Nat → List Nat) (n N : Nat) (s : TjSt) : Prop :=
  (∀ x, (s.ids x).isSome → x < N) ∧
  s.stk.Nodup ∧
  (∀ x, s.onStk x = true ↔ x ∈ s.stk) ∧
  (∀ x ∈ s.stk, (s.ids x).isSome) ∧
  (∀ x, (s.ids x).isSome → s.low x ≤ (s.ids x).getD 0) ∧
  (∀ x, (s.ids x).isSome → (s.ids x).getD 0 < s.idx) ∧
  (∀ k, k < s.comps.length → ∀ x, inComp n (s.comps.getD k ([], [])) x →
    (s.ids x).isSome ∧ x ∉ s.stk ∧
      ∀ j, j < s.comps.length → inComp n (s.comps.getD j ([], [])) x → j = k) ∧
  (∀ x, (s.ids x).isSome → x ∈ s.stk ∨ compsMem n s.comps x) ∧
  (∀ k, k < s.comps.length → ∀ x, inComp n (s.comps.getD k ([], [])) x →
    ∀ y ∈ g x, ∃ j, j ≤ k ∧ j < s.comps.length ∧
      inComp n (s.comps.getD j ([], [])) y) ∧
  (∀ k, k < s.comps.length → BlockWF n N (s.comps.getD k ([], [])))

/-- A fully scanned vertex: every neighbour is visited, and every neighbour
still on the stack bounds the lowlink. -/
def TjCapt (g : Nat → List Nat) (s : TjSt) (x : Nat) : Prop :=
  ∀ y ∈ g x, (s.ids y).isSome ∧ (y ∈ s.stk → s.low x ≤ (s.ids y).getD 0)

/-- Postcondition of `_strong_connect(v)` run from state `s` to `s'`. -/
def TjPost (g : Nat → List Nat) (n N : Nat) (v : Nat) (s s' : TjSt) : Prop :=
  TjGI g n N s' ∧
  (∀ x, (s.ids x).isSome → s'.ids x = s.ids x) ∧
  (∀ x, (s.ids x).isSome → s'.low x = s.low x) ∧
  (∀ x, (s.ids x).isSome → x ∈ s'.stk → x ∈ s.stk) ∧
  (∀ x, ¬ (s.ids x).isSome → (s'.ids x).isSome → s.idx ≤ (s'.ids x).getD 0) ∧
  s.idx < s'.idx ∧
  (s'.ids v).isSome ∧ (s'.ids v).getD 0 = s.idx ∧
  (∃ tail, s'.comps = s.comps ++ tail) ∧
  (∃ news, s'.stk = news ++ s.stk ∧ ∀ x ∈ news, ¬ (s.ids x).isSome) ∧
  ((s'.stk = s.stk ∧ s'.low v = s.idx) ∨
    (∃ news, s'.stk = news ++ s.stk ∧ v ∈ news ∧ s'.low v < s.idx ∧
      ∀ x ∈ news, TjCapt g s' x ∧ s'.low v ≤ s'.low x)) ∧
  (∀ B, (∀ x ∈ s.stk, B ≤ (s.ids x).getD 0) → B ≤ s.idx → B ≤ s'.low v)

/-- Postcondition of the neighbour loop of `_strong_connect(v)` over the
remaining neighbour list `ws`, run from state `s` to `s'`. -/
def TjVPost (g : Nat → List Nat) (n N : Nat) (v : Nat) (ws : List Nat)
    (s s' : TjSt) : Prop :=
  TjGI g n N s' ∧
  (∀ x, (s.ids x).isSome → s'.ids x = s.ids x) ∧
  (∀ x, x ≠ v → (s.ids x).isSome → s'.low x = s.low x) ∧
  s'.low v ≤ s.low v ∧
  (∀ x, (s.ids x).isSome → x ∈ s'.stk → x ∈ s.stk) ∧
  (∀ x, ¬ (s.ids x).isSome → (s'.ids x).isSome → s.idx ≤ (s'.ids x).getD 0) ∧
  s.idx ≤ s'.idx ∧
  (∃ tail, s'.comps = s.comps ++ tail) ∧
  (∃ news, s'.stk = news ++ s.stk ∧ ∀ x ∈ news, ¬ (s.ids x).isSome ∧
    TjCapt g s' x ∧ s'.low v ≤ s'.low x) ∧
  (∀ w ∈ ws, (s'.ids w).isSome ∧
    (w ∈ s'.stk → s'.low v ≤ (s'.ids w).getD 0)) ∧
  (∀ B, (∀ x ∈ s.stk, B ≤ (s.ids x).getD 0) → B ≤ s.low v → B ≤ s'.low v)

/-- Kahn-loop invariant (`_topological_sort_sccs`): processed and queued
components are distinct and in range, `ind` counts the in-edges from
not-yet-output components, membership is equivalent to all predecessors
having been output, and output positions respect the edges. -/
def KahnInv (succs : Nat → List Nat) (K : Nat) (queue out : List Nat)
    (ind : Nat → Int) : Prop :=
  (out ++ queue).Nodup ∧
  (∀ v ∈ out ++ queue, v < K) ∧
  (∀ v, v < K → ind v = indeg0 succs K v -
    ((out.filter (fun u => v ∈ succs u)).length : Int)) ∧
  (∀ v, v < K → (v ∈ out ++ queue ↔ ∀ u, u < K → v ∈ succs u → u ∈ out)) ∧
  (∀ j, j < out.length → ∀ u, u < K → out.getD j 0 ∈ succs u →
    ∃ i, i < j ∧ out.getD i 0 = u)

/-! ### The `DulmageMendelsohnDecomposition` class -/

/-- Object state: the constructor-held inputs plus the three fields `solve`
mutates (`self.decomposition`, `self.has_v0`, `self.has_vinf`). -/
structure DMState where
  matrix : List (List Int)
  matching : List (Nat × Nat)
  decomposition : Option (List Block)
  has_v0 : Bool
  has_vinf : Bool
deriving DecidableEq

/-- `__init__(matrix, matching)`. -/
def dmInit (mat : List (List Int)) (matching : List (Nat × Nat)) : DMState :=
  { matrix := mat, matching := matching, decomposition := none,
    has_v0 := false, has_vinf := false }

/-- Restriction and re-indexing of the matching
(`remaining_matching.append((row_map[r], col_map[c]))`); a missing key
(possible only for an out-of-range matching) is a `KeyError`, i.e. `none`. -/
def reindexMatching (matching : List (Nat × Nat)) (removeRows removeCols : List Nat)
    (remRows remCols : List Nat) : Option (List (Nat × Nat)) :=
  matching.foldl
    (fun acc p =>
      match acc with
      | none => none
      | some l =>
        if p.1 ∉ removeRows ∧ p.2 ∉ removeCols then
          match remRows.findIdx? (fun x => x = p.1),
              remCols.findIdx? (fun x => x = p.2) with
          | some a, some b => some (l ++ [(a, b)])
          | _, _ => none
        else some l)
    (some [])

/-- `solve()`: returns the updated object state and the decomposition. -/
def dmSolve (st : DMState) : Option (DMState × List Block) :=
  let n := st.matrix.length
  let m := (st.matrix.headD []).length
  match findV0 st.matrix st.matching with
  | none => none
  | some v0 =>
    match findVinf st.matrix st.matching with
    | none => none
    | some vinf =>
      let hasV0 := decide (v0.1 ≠ [] ∨ v0.2 ≠ [])
      let hasVinf := decide (vinf.1 ≠ [] ∨ vinf.2 ≠ [])
      let removeRows := v0.1 ++ vinf.1
      let removeCols := v0.2 ++ vinf.2
      let remRows := (List.range n).filter (fun r => r ∉ removeRows)
      let remCols := (List.range m).filter (fun c => c ∉ removeCols)
      let remMat := remRows.map (fun r => remCols.map (fun c => entry st.matrix r c))
      match reindexMatching st.matching removeRows removeCols remRows remCols with
      | none => none
      | some remMatch =>
        let sccPart :=
          if remMatch ≠ [] then
            match findSccs remMat remMatch remRows.length remCols.length with
            | none => none
            | some comps =>
              some (comps.map (fun b =>
                (b.1.map (fun r => remRows.getD r 0),
                 b.2.map (fun c => remCols.getD c 0))))
          else some ([] : List Block)
        match sccPart with
        | none => none
        | some sccBlocks =>
          let dec :=
            (if hasV0 then [((sortedSet v0.1, sortedSet v0.2) : Block)] else [])
              ++ sccBlocks ++
              (if hasVinf then [((sortedSet vinf.1, sortedSet vinf.2) : Block)] else [])
          some ({ st with
                    decomposition := some dec
                    has_v0 := hasV0
                    has_vinf := hasVinf }, dec)

/-- `remaining_rows = sorted(set(range(n)) - remove_rows)`: filtering the
range keeps it sorted and duplicate-free. -/
def dmRemRows (mat : List (List Int)) (v0R vinfR : List Nat) : List Nat :=
  (List.range mat.length).filter (fun r => r ∉ v0R ++ vinfR)

/-- `remaining_cols = sorted(set(range(m)) - remove_cols)`. -/
def dmRemCols (mat : List (List Int)) (v0C vinfC : List Nat) : List Nat :=
  (List.range (mat.headD []).length).filter (fun c => c ∉ v0C ++ vinfC)

/-- `remaining_matrix = matrix[np.ix_(remaining_rows, remaining_cols)]`. -/
def dmRemMat (mat : List (List Int)) (remRows remCols : List Nat) :
    List (List Int) :=
  remRows.map (fun r => remCols.map (fun c => entry mat r c))

/-- Mapping a core block back to the original indices
(`[remaining_rows[r] for r in comp_rows]`, same for columns). -/
def dmSccMap (remRows remCols : List Nat) (b : Block) : Block :=
  (b.1.map (fun r => remRows.getD r 0), b.2.map (fun c => remCols.getD c 0))

/-- How many times row index `r` occurs across the row lists of a
decomposition (the partition claims say this is `1` on `{0..n-1}`). -/
def rowCountD (dec : List Block) (r : Nat) : Nat :=
  (dec.map (fun b => b.1.count r)).sum

/-- How many times column index `c` occurs across the column lists. -/
def colCountD (dec : List Block) (c : Nat) : Nat :=
  (dec.map (fun b => b.2.count c)).sum

/-! ### The presentation methods -/

/-- The notice printed when `solve` has not run yet. -/
def notSolvedMsg : String :=
  "まだDM分解が実行されていません。solve()を先に実行してください。"

def sepEq : String := String.join (List.replicate 50 "=")

def sepDash : String := String.join (List.replicate 30 "-")

/-- The label computed for block `i` of `len` blocks. -/
def blockLabel (hasV0 hasVinf : Bool) (len i : Nat) (compact : Bool) : String :=
  if i = 0 ∧ hasV0 then (if compact then "V0" else "V0 (垂直成分)")
  else if i = len - 1 ∧ hasVinf then (if compact then "Vinf" else "Vinf (無限成分)")
  else
    let sccNumber := if hasV0 then i else i + 1
    if compact then "V" ++ toString sccNumber
    else "V" ++ toString sccNumber ++ " (強連結成分)"

/-- `print_summary`: the list of printed lines; never raises (`some` always). -/
def printSummary (st : DMState) : Option (List String) :=
  match st.decomposition with
  | none => some [notSolvedMsg]
  | some dec =>
    let blockLines := (List.range dec.length).flatMap (fun i =>
      let b := dec.getD i ([], [])
      ["\n" ++ blockLabel st.has_v0 st.has_vinf dec.length i false ++ ":",
       sepDash,
       "行集合 R = " ++ toString (b.1.map (fun r => r + 1)),
       "列集合 C = " ++ toString (b.2.map (fun c => c + 1))] ++
        (if b.1 ≠ [] ∨ b.2 ≠ [] then
          ["サイズ  : |R| = " ++ toString b.1.length ++
            ", |C| = " ++ toString b.2.length]
        else []))
    let totalRows := (dec.map (fun b => b.1.length)).sum
    let totalCols := (dec.map (fun b => b.2.length)).sum
    some (["\nDulmage-Mendelsohn分解の結果:", sepEq] ++ blockLines ++
      ["\n" ++ sepEq, "\n統計情報:",
       "総頂点数: " ++ toString (totalRows + totalCols),
       "総成分数: " ++ toString dec.length,
       "マッチングサイズ: " ++ toString st.matching.length])

/-- `print_compact`: the list of printed lines; never raises. -/
def printCompact (st : DMState) : Option (List String) :=
  match st.decomposition with
  | none => some [notSolvedMsg]
  | some dec =>
    some ("\nDM分解:" :: (List.range dec.length).map (fun i =>
      let b := dec.getD i ([], [])
      blockLabel st.has_v0 st.has_vinf dec.length i true ++ ": R=" ++
        toString (b.1.map (fun r => r + 1)) ++ ", C=" ++
        toString (b.2.map (fun c => c + 1))))

/-! ## Proof development -/

/-! ### Generic list/entry lemmas -/

theorem count_insertSorted (x y : Nat) (l : List Nat) :
    (insertSorted y l).count x = l.count x + if y = x then 1 else 0 := by
  induction l with
  | nil => by_cases h : y = x <;> simp [insertSorted, List.count_cons, h]
  | cons a l ih =>
    by_cases h : y ≤ a
    · rw [insertSorted, if_pos h, List.count_cons, List.count_cons]
      by_cases hyx : y = x <;> simp [hyx]
    · rw [insertSorted, if_neg h, List.count_cons, ih, List.count_cons]
      omega

theorem count_sortNat (x : Nat) (l : List Nat) : (sortNat l).count x = l.count x := by
  induction l with
  | nil => rfl
  | cons a l ih =>
    show (insertSorted a (sortNat l)).count x = _
    rw [count_insertSorted, ih, List.count_cons]
    by_cases hax : a = x <;> simp [hax]

theorem mem_sortNat (x : Nat) (l : List Nat) : x ∈ sortNat l ↔ x ∈ l := by
  rw [← List.count_pos_iff, ← List.count_pos_iff, count_sortNat]

theorem count_sortedSet (x : Nat) (l : List Nat) :
    (sortedSet l).count x = if x ∈ l then 1 else 0 := by
  rw [sortedSet, count_sortNat]
  by_cases h : x ∈ l
  · simp [h, List.count_eq_one_of_mem l.nodup_dedup (List.mem_dedup.mpr h)]
  · simp [h, List.count_eq_zero.mpr (fun hc => h (List.mem_dedup.mp hc))]

theorem mem_sortedSet (x : Nat) (l : List Nat) : x ∈ sortedSet l ↔ x ∈ l := by
  rw [sortedSet, mem_sortNat, List.mem_dedup]

theorem nodup_sortedSet (l : List Nat) : (sortedSet l).Nodup := by
  rw [List.nodup_iff_count_le_one]
  intro a
  rw [count_sortedSet]
  by_cases h : a ∈ l <;> simp [h]

theorem entry_eq_zero_right (mat : List (List Int)) (r c : Nat) (hRect : Rect mat)
    (hc : (mat.headD []).length ≤ c) : entry mat r c = 0 := by
  unfold entry
  by_cases hr : r < mat.length
  · have hmem : mat.getD r [] ∈ mat := by
      rw [List.getD_eq_getElem mat [] hr]
      exact mat.getElem_mem hr
    exact List.getD_eq_default _ _ ((hRect _ hmem).symm ▸ hc)
  · rw [List.getD_eq_default _ _ (Nat.le_of_not_lt hr)]
    rfl

theorem entry_eq_zero_row (mat : List (List Int)) (r c : Nat)
    (hr : mat.length ≤ r) : entry mat r c = 0 := by
  unfold entry
  rw [List.getD_eq_default _ _ hr]
  rfl

/-! ### `_find_Vinf` is alternating reachability -/

theorem mem_vinfPushes (matching : List (Nat × Nat)) (rows : List Nat) (c x : Nat) :
    x ∈ vinfPushes matching rows c ↔
      ∃ p ∈ matching, p.1 = x ∧ p.2 = c ∧ x ∉ rows := by
  simp only [vinfPushes, List.mem_map, List.mem_filter, decide_eq_true_eq]
  constructor
  · rintro ⟨p, ⟨hp, h2, h1⟩, rfl⟩
    exact ⟨p, hp, rfl, h2, h1⟩
  · rintro ⟨p, hp, rfl, h2, h1⟩
    exact ⟨p, ⟨hp, h2, h1⟩, rfl⟩

theorem vinfPushes_length (matching : List (Nat × Nat)) (rows : List Nat) (c : Nat) :
    (vinfPushes matching rows c).length ≤ matching.length := by
  rw [vinfPushes, List.length_map]
  exact List.length_filter_le _ _

theorem vinfScan_spec (mat : List (List Int)) (matching : List (Nat × Nat))
    (rows : List Nat) (v : Nat) :
    ∀ cs cols stk,
      (∀ c ∈ cols, c ∈ (vinfScan mat matching rows v cs cols stk).1) ∧
      (∀ c ∈ (vinfScan mat matching rows v cs cols stk).1,
        c ∈ cols ∨ (c ∈ cs ∧ entry mat v c ≠ 0 ∧ (v, c) ∉ matching)) ∧
      (∀ c ∈ cs, entry mat v c ≠ 0 → (v, c) ∉ matching →
        c ∈ (vinfScan mat matching rows v cs cols stk).1) ∧
      (∀ x ∈ stk, x ∈ (vinfScan mat matching rows v cs cols stk).2) ∧
      (∀ x ∈ (vinfScan mat matching rows v cs cols stk).2,
        x ∈ stk ∨ ∃ p ∈ matching, p.1 = x ∧
          p.2 ∈ (vinfScan mat matching rows v cs cols stk).1 ∧ x ∉ rows) ∧
      (∀ c ∈ (vinfScan mat matching rows v cs cols stk).1, c ∉ cols →
        ∀ p ∈ matching, p.2 = c → p.1 ∉ rows →
          p.1 ∈ (vinfScan mat matching rows v cs cols stk).2) ∧
      (vinfScan mat matching rows v cs cols stk).2.length ≤
        stk.length + cs.length * matching.length := by
  intro cs
  induction cs with
  | nil =>
    intro cols stk
    refine ⟨fun c hc => hc, fun c hc => Or.inl hc, by simp, fun x hx => hx,
      fun x hx => Or.inl hx, ?_, by simp [vinfScan]⟩
    intro c hc hc' _ _ _ _
    exact absurd hc hc'
  | cons c0 cs ih =>
    intro cols stk
    by_cases hcond : entry mat v c0 ≠ 0 ∧ (v, c0) ∉ matching ∧ c0 ∉ cols
    · have heq : vinfScan mat matching rows v (c0 :: cs) cols stk =
          vinfScan mat matching rows v cs (c0 :: cols)
            ((vinfPushes matching rows c0).reverse ++ stk) := by
        rw [vinfScan, if_pos hcond]
      obtain ⟨S1, S2, S3, S4, S5, S6, S7⟩ :=
        ih (c0 :: cols) ((vinfPushes matching rows c0).reverse ++ stk)
      rw [heq]
      refine ⟨?_, ?_, ?_, ?_, ?_, ?_, ?_⟩
      · exact fun c hc => S1 c (List.mem_cons_of_mem _ hc)
      · intro c hc
        rcases S2 c hc with h | h
        · rcases List.mem_cons.mp h with rfl | h
          · exact Or.inr ⟨List.mem_cons_self _ _, hcond.1, hcond.2.1⟩
          · exact Or.inl h
        · exact Or.inr ⟨List.mem_cons_of_mem _ h.1, h.2⟩
      · intro c hc he hm
        rcases List.mem_cons.mp hc with rfl | hc
        · exact S1 c (List.mem_cons_self _ _)
        · exact S3 c hc he hm
      · exact fun x hx => S4 x (List.mem_append_right _ hx)
      · intro x hx
        rcases S5 x hx with h | h
        · rcases List.mem_append.mp h with h | h
          · refine Or.inr ?_
            rw [List.mem_reverse] at h
            obtain ⟨p, hp, h1, h2, h3⟩ := (mem_vinfPushes _ _ _ _).mp h
            exact ⟨p, hp, h1, h2 ▸ S1 c0 (List.mem_cons_self _ _), h3⟩
          · exact Or.inl h
        · exact Or.inr h
      · intro c hc hcols p hp h2 h1
        by_cases hc0 : c = c0
        · subst hc0
          refine S4 _ (List.mem_append_left _ ?_)
          rw [List.mem_reverse, mem_vinfPushes]
          exact ⟨p, hp, rfl, h2, h1⟩
        · have : c ∉ c0 :: cols := by
            intro h
            rcases List.mem_cons.mp h with h | h
            · exact hc0 h
            · exact hcols h
          exact S6 c hc this p hp h2 h1
      · calc (vinfScan mat matching rows v cs (c0 :: cols)
              ((vinfPushes matching rows c0).reverse ++ stk)).2.length ≤
            ((vinfPushes matching rows c0).reverse ++ stk).length +
              cs.length * matching.length := S7
          _ ≤ stk.length + (c0 :: cs).length * matching.length := by
            rw [List.length_append, List.length_reverse, List.length_cons]
            have := vinfPushes_length matching rows c0
            ring_nf
            omega
    · have heq : vinfScan mat matching rows v (c0 :: cs) cols stk =
          vinfScan mat matching rows v cs cols stk := by
        rw [vinfScan, if_neg hcond]
      obtain ⟨S1, S2, S3, S4, S5, S6, S7⟩ := ih cols stk
      rw [heq]
      refine ⟨S1, ?_, ?_, S4, S5, S6, ?_⟩
      · intro c hc
        rcases S2 c hc with h | h
        · exact Or.inl h
        · exact Or.inr ⟨List.mem_cons_of_mem _ h.1, h.2⟩
      · intro c hc he hm
        rcases List.mem_cons.mp hc with rfl | hc
        · rcases not_and_or.mp hcond with h | h
          · exact absurd he h
          rcases not_and_or.mp h with h | h
          · exact absurd hm h
          · exact S1 c (not_not.mp h)
        · exact S3 c hc he hm
      · calc (vinfScan mat matching rows v cs cols stk).2.length ≤
            stk.length + cs.length * matching.length := S7
          _ ≤ stk.length + (c0 :: cs).length * matching.length := by
            rw [List.length_cons]
            exact Nat.add_le_add_left
              (Nat.mul_le_mul_right _ (Nat.le_succ _)) _

theorem vinfLoop_run (mat : List (List Int)) (matching : List (Nat × Nat))
    (hRect : Rect mat)
    (hRange : ∀ p ∈ matching, p.1 < mat.length ∧ p.2 < (mat.headD []).length) :
    ∀ fuel stack rows cols,
      VinfInv mat matching stack rows cols →
      vinfMeasure matching mat.length (mat.headD []).length stack rows < fuel →
      ∃ R C, vinfLoop mat matching (mat.headD []).length fuel stack rows cols =
          some (R, C) ∧
        (∀ r ∈ rows, r ∈ R) ∧ (∀ c ∈ cols, c ∈ C) ∧
        (∀ r ∈ R, VinfReach mat matching (Sum.inl r)) ∧
        (∀ c ∈ C, VinfReach mat matching (Sum.inr c)) ∧
        (∀ r, r < mat.length → r ∉ matchedRows matching → r ∈ R) ∧
        (∀ r ∈ R, ∀ c, entry mat r c ≠ 0 → (r, c) ∉ matching → c ∈ C) ∧
        (∀ c ∈ C, ∀ p ∈ matching, p.2 = c → p.1 ∈ R) ∧
        (∀ r ∈ R, r < mat.length) := by
  intro fuel
  induction fuel with
  | zero => intro stack rows cols _ h; omega
  | succ fuel ih =>
    intro stack rows cols hinv hfuel
    obtain ⟨i1, i2, i3, i4, i5, i6, i7, i8⟩ := hinv
    cases stack with
    | nil =>
      refine ⟨rows, cols, rfl, fun r hr => hr, fun c hc => hc, i3, i5, ?_, i6, ?_, i4⟩
      · intro r hr hm
        rcases i8 r hr hm with h | h
        · exact h
        · exact absurd h (List.not_mem_nil r)
      · intro c hc p hp h2
        rcases i7 c hc p hp h2 with h | h
        · exact h
        · exact absurd h (List.not_mem_nil _)
    | cons v stk =>
      by_cases hv : v ∈ rows
      · have heq : vinfLoop mat matching (mat.headD []).length (fuel + 1)
            (v :: stk) rows cols =
            vinfLoop mat matching (mat.headD []).length fuel stk rows cols := by
          rw [vinfLoop, if_pos hv]
        rw [heq]
        refine ih stk rows cols
          ⟨fun x hx => i1 x (List.mem_cons_of_mem _ hx),
           fun x hx => i2 x (List.mem_cons_of_mem _ hx), i3, i4, i5, i6, ?_, ?_⟩ ?_
        · intro c hc p hp h2
          rcases i7 c hc p hp h2 with h | h
          · exact Or.inl h
          · rcases List.mem_cons.mp h with h | h
            · exact Or.inl (h ▸ hv)
            · exact Or.inr h
        · intro r hr hm
          rcases i8 r hr hm with h | h
          · exact Or.inl h
          · rcases List.mem_cons.mp h with h | h
            · exact Or.inl (h ▸ hv)
            · exact Or.inr h
        · simp only [vinfMeasure, List.length_cons] at hfuel ⊢
          omega
      · have heq : vinfLoop mat matching (mat.headD []).length (fuel + 1)
            (v :: stk) rows cols =
            vinfLoop mat matching (mat.headD []).length fuel
              (vinfScan mat matching (v :: rows) v
                (List.range (mat.headD []).length) cols stk).2 (v :: rows)
              (vinfScan mat matching (v :: rows) v
                (List.range (mat.headD []).length) cols stk).1 := by
          rw [vinfLoop, if_neg hv]
        rw [heq]
        obtain ⟨S1, S2, S3, S4, S5, S6, S7⟩ :=
          vinfScan_spec mat matching (v :: rows) v
            (List.range (mat.headD []).length) cols stk
        have hvn : v < mat.length := i2 v (List.mem_cons_self _ _)
        have hvreach : VinfReach mat matching (Sum.inl v) :=
          i1 v (List.mem_cons_self _ _)
        have hcols' : ∀ c ∈ (vinfScan mat matching (v :: rows) v
            (List.range (mat.headD []).length) cols stk).1,
            VinfReach mat matching (Sum.inr c) := by
          intro c hc
          rcases S2 c hc with h | h
          · exact i5 c h
          · exact VinfReach.col v c hvreach h.2.1 h.2.2
        have hinv' : VinfInv mat matching
            (vinfScan mat matching (v :: rows) v
              (List.range (mat.headD []).length) cols stk).2 (v :: rows)
            (vinfScan mat matching (v :: rows) v
              (List.range (mat.headD []).length) cols stk).1 := by
          refine ⟨?_, ?_, ?_, ?_, hcols', ?_, ?_, ?_⟩
          · intro x hx
            rcases S5 x hx with h | h
            · exact i1 x (List.mem_cons_of_mem _ h)
            · obtain ⟨p, hp, h1, h2, _⟩ := h
              exact h1 ▸ VinfReach.row p.2 p.1 (hcols' _ h2) hp
          · intro x hx
            rcases S5 x hx with h | h
            · exact i2 x (List.mem_cons_of_mem _ h)
            · obtain ⟨p, hp, h1, _, _⟩ := h
              exact h1 ▸ (hRange p hp).1
          · intro r hr
            rcases List.mem_cons.mp hr with rfl | hr
            · exact hvreach
            · exact i3 r hr
          · intro r hr
            rcases List.mem_cons.mp hr with rfl | hr
            · exact hvn
            · exact i4 r hr
          · intro r hr c he hm
            rcases List.mem_cons.mp hr with rfl | hr
            · by_cases hcm : c < (mat.headD []).length
              · exact S3 c (List.mem_range.mpr hcm) he hm
              · exact absurd (entry_eq_zero_right mat r c hRect
                  (Nat.le_of_not_lt hcm)) he
            · exact S1 c (i6 r hr c he hm)
          · intro c hc p hp h2
            by_cases hcold : c ∈ cols
            · rcases i7 c hcold p hp h2 with h | h
              · exact Or.inl (List.mem_cons_of_mem _ h)
              · rcases List.mem_cons.mp h with h | h
                · exact Or.inl (h ▸ List.mem_cons_self _ _)
                · exact Or.inr (S4 _ h)
            · by_cases hprow : p.1 ∈ v :: rows
              · exact Or.inl hprow
              · exact Or.inr (S6 c hc hcold p hp h2 hprow)
          · intro r hr hm
            rcases i8 r hr hm with h | h
            · exact Or.inl (List.mem_cons_of_mem _ h)
            · rcases List.mem_cons.mp h with h | h
              · exact Or.inl (h ▸ List.mem_cons_self _ _)
              · exact Or.inr (S4 _ h)
        have hvmem : v ∈ (Finset.range mat.length ∪
            (matching.map Prod.fst).toFinset) \ rows.toFinset := by
          rw [Finset.mem_sdiff]
          exact ⟨Finset.mem_union_left _ (Finset.mem_range.mpr hvn),
            fun h => hv (List.mem_toFinset.mp h)⟩
        have hcard : ((Finset.range mat.length ∪
            (matching.map Prod.fst).toFinset) \ (v :: rows).toFinset).card + 1 =
            ((Finset.range mat.length ∪
              (matching.map Prod.fst).toFinset) \ rows.toFinset).card := by
          rw [List.toFinset_cons, Finset.sdiff_insert, Finset.card_erase_of_mem hvmem]
          have hpos : 0 < ((Finset.range mat.length ∪
              (matching.map Prod.fst).toFinset) \ rows.toFinset).card :=
            Finset.card_pos.mpr ⟨v, hvmem⟩
          omega
        have hlen : (vinfScan mat matching (v :: rows) v
            (List.range (mat.headD []).length) cols stk).2.length ≤
            stk.length + (mat.headD []).length * matching.length := by
          have := S7
          rwa [List.length_range] at this
        have hmeas' : vinfMeasure matching mat.length (mat.headD []).length
            (vinfScan mat matching (v :: rows) v
              (List.range (mat.headD []).length) cols stk).2 (v :: rows) < fuel := by
          simp only [vinfMeasure, List.length_cons] at hfuel ⊢
          have hexp : ∀ a b : Nat, (a + 1) * (b + 1) = a * (b + 1) + (b + 1) := by
            intro a b; ring
          generalize hA : ((Finset.range mat.length ∪
              (matching.map Prod.fst).toFinset) \ (v :: rows).toFinset).card = A
          rw [hA] at hcard
          rw [← hcard] at hfuel
          rw [hexp] at hfuel
          omega
        obtain ⟨R, C, hrun, hm1, hm2, hrest⟩ := ih _ _ _ hinv' hmeas'
        exact ⟨R, C, hrun, fun r hr => hm1 r (List.mem_cons_of_mem _ hr),
          fun c hc => hm2 c (S1 c hc), hrest⟩

/-- All reachable vertices land in the result (closure argument). -/
theorem vinfReach_mem (mat : List (List Int)) (matching : List (Nat × Nat))
    (R C : List Nat)
    (hseed : ∀ r, r < mat.length → r ∉ matchedRows matching → r ∈ R)
    (hclosed : ∀ r ∈ R, ∀ c, entry mat r c ≠ 0 → (r, c) ∉ matching → c ∈ C)
    (hpartner : ∀ c ∈ C, ∀ p ∈ matching, p.2 = c → p.1 ∈ R) :
    ∀ x, VinfReach mat matching x → Sum.elim (· ∈ R) (· ∈ C) x := by
  intro x hx
  induction hx with
  | seed r hr hm => exact hseed r hr hm
  | col r c _ he hm ih => exact hclosed r ih c he hm
  | row c r _ hp ih => exact hpartner c ih (r, c) hp rfl

/-- For any seed list that enumerates the unmatched rows (in any order, with
any multiplicity) and any adequate fuel, the worklist computes exactly the
alternating-reachability sets. -/
theorem vinfLoop_seeds (mat : List (List Int)) (matching : List (Nat × Nat))
    (hRect : Rect mat)
    (hRange : ∀ p ∈ matching, p.1 < mat.length ∧ p.2 < (mat.headD []).length)
    (seeds : List Nat)
    (hseeds : ∀ x, x ∈ seeds ↔ x < mat.length ∧ x ∉ matchedRows matching)
    (fuel : Nat)
    (hfuel : vinfMeasure matching mat.length (mat.headD []).length seeds [] < fuel) :
    ∃ R C, vinfLoop mat matching (mat.headD []).length fuel seeds [] [] =
        some (R, C) ∧ VinfPost mat matching R C := by
  have hinv : VinfInv mat matching seeds [] [] := by
    refine ⟨?_, ?_, by simp, by simp, by simp, by simp, by simp, ?_⟩
    · intro v hv
      obtain ⟨h1, h2⟩ := (hseeds v).mp hv
      exact VinfReach.seed v h1 h2
    · exact fun v hv => ((hseeds v).mp hv).1
    · intro r hr hm
      exact Or.inr ((hseeds r).mpr ⟨hr, hm⟩)
  obtain ⟨R, C, hrun, _, _, hRsound, hCsound, hseed, hclosed, hpartner, _⟩ :=
    vinfLoop_run mat matching hRect hRange fuel seeds [] [] hinv hfuel
  refine ⟨R, C, hrun, ?_, ?_⟩
  · intro r
    constructor
    · exact hRsound r
    · intro h
      exact vinfReach_mem mat matching R C hseed hclosed hpartner (Sum.inl r) h
  · intro c
    constructor
    · exact hCsound c
    · intro h
      exact vinfReach_mem mat matching R C hseed hclosed hpartner (Sum.inr c) h

theorem vinfFuel_adequate (mat : List (List Int)) (matching : List (Nat × Nat)) :
    vinfMeasure matching mat.length (mat.headD []).length
      ((List.range mat.length).filter (fun r => r ∉ matchedRows matching)) [] <
      vinfFuel mat matching := by
  rw [vinfMeasure, vinfFuel]
  have hcard : ((Finset.range mat.length ∪
      (matching.map Prod.fst).toFinset) \ ([] : List Nat).toFinset).card ≤
      mat.length + matching.length := by
    calc ((Finset.range mat.length ∪
        (matching.map Prod.fst).toFinset) \ ([] : List Nat).toFinset).card ≤
        (Finset.range mat.length ∪ (matching.map Prod.fst).toFinset).card :=
      Finset.card_le_card (Finset.sdiff_subset)
      _ ≤ (Finset.range mat.length).card + (matching.map Prod.fst).toFinset.card :=
      Finset.card_union_le _ _
      _ ≤ mat.length + matching.length := by
        rw [Finset.card_range]
        exact Nat.add_le_add_left
          (le_trans (matching.map Prod.fst).toFinset_card_le
            (by rw [List.length_map])) _
  have hlen : ((List.range mat.length).filter
      (fun r => r ∉ matchedRows matching)).length ≤ mat.length := by
    calc ((List.range mat.length).filter
        (fun r => r ∉ matchedRows matching)).length ≤
        (List.range mat.length).length := List.length_filter_le _ _
      _ = mat.length := List.length_range _
  set K := (mat.headD []).length * matching.length with hK
  set A := ((Finset.range mat.length ∪
      (matching.map Prod.fst).toFinset) \ ([] : List Nat).toFinset).card with hA
  have h1 : A * (K + 1) ≤ (mat.length + matching.length) * (K + 2) :=
    Nat.mul_le_mul hcard (by omega)
  have h2 : (mat.length + matching.length) * (K + 2) + (K + 2) =
      (mat.length + matching.length + 1) * (K + 2) := by ring
  omega

/-- `_find_Vinf` computes exactly the alternating-reachability sets. -/
theorem findVinf_post (mat : List (List Int)) (matching : List (Nat × Nat))
    (hRect : Rect mat)
    (hRange : ∀ p ∈ matching, p.1 < mat.length ∧ p.2 < (mat.headD []).length) :
    ∃ R C, findVinf mat matching = some (R, C) ∧ VinfPost mat matching R C := by
  refine vinfLoop_seeds mat matching hRect hRange _ ?_ _ (vinfFuel_adequate mat matching)
  intro x
  simp only [List.mem_filter, List.mem_range, decide_eq_true_eq]

/-! ### `_find_V0` is alternating reachability (mirrored development) -/

theorem mem_v0Pushes (matching : List (Nat × Nat)) (cols : List Nat) (r x : Nat) :
    x ∈ v0Pushes matching cols r ↔
      ∃ p ∈ matching, p.2 = x ∧ p.1 = r ∧ x ∉ cols := by
  simp only [v0Pushes, List.mem_map, List.mem_filter, decide_eq_true_eq]
  constructor
  · rintro ⟨p, ⟨hp, h1, h2⟩, rfl⟩
    exact ⟨p, hp, rfl, h1, h2⟩
  · rintro ⟨p, hp, rfl, h1, h2⟩
    exact ⟨p, ⟨hp, h1, h2⟩, rfl⟩

theorem v0Pushes_length (matching : List (Nat × Nat)) (cols : List Nat) (r : Nat) :
    (v0Pushes matching cols r).length ≤ matching.length := by
  rw [v0Pushes, List.length_map]
  exact List.length_filter_le _ _

theorem v0Scan_spec (mat : List (List Int)) (matching : List (Nat × Nat))
    (cols : List Nat) (c : Nat) :
    ∀ rs rows stk,
      (∀ r ∈ rows, r ∈ (v0Scan mat matching cols c rs rows stk).1) ∧
      (∀ r ∈ (v0Scan mat matching cols c rs rows stk).1,
        r ∈ rows ∨ (r ∈ rs ∧ entry mat r c ≠ 0 ∧ (r, c) ∉ matching)) ∧
      (∀ r ∈ rs, entry mat r c ≠ 0 → (r, c) ∉ matching →
        r ∈ (v0Scan mat matching cols c rs rows stk).1) ∧
      (∀ x ∈ stk, x ∈ (v0Scan mat matching cols c rs rows stk).2) ∧
      (∀ x ∈ (v0Scan mat matching cols c rs rows stk).2,
        x ∈ stk ∨ ∃ p ∈ matching, p.2 = x ∧
          p.1 ∈ (v0Scan mat matching cols c rs rows stk).1 ∧ x ∉ cols) ∧
      (∀ r ∈ (v0Scan mat matching cols c rs rows stk).1, r ∉ rows →
        ∀ p ∈ matching, p.1 = r → p.2 ∉ cols →
          p.2 ∈ (v0Scan mat matching cols c rs rows stk).2) ∧
      (v0Scan mat matching cols c rs rows stk).2.length ≤
        stk.length + rs.length * matching.length := by
  intro rs
  induction rs with
  | nil =>
    intro rows stk
    refine ⟨fun r hr => hr, fun r hr => Or.inl hr, by simp, fun x hx => hx,
      fun x hx => Or.inl hx, ?_, by simp [v0Scan]⟩
    intro r hr hr' _ _ _ _
    exact absurd hr hr'
  | cons r0 rs ih =>
    intro rows stk
    by_cases hcond : entry mat r0 c ≠ 0 ∧ (r0, c) ∉ matching ∧ r0 ∉ rows
    · have heq : v0Scan mat matching cols c (r0 :: rs) rows stk =
          v0Scan mat matching cols c rs (r0 :: rows)
            ((v0Pushes matching cols r0).reverse ++ stk) := by
        rw [v0Scan, if_pos hcond]
      obtain ⟨S1, S2, S3, S4, S5, S6, S7⟩ :=
        ih (r0 :: rows) ((v0Pushes matching cols r0).reverse ++ stk)
      rw [heq]
      refine ⟨?_, ?_, ?_, ?_, ?_, ?_, ?_⟩
      · exact fun r hr => S1 r (List.mem_cons_of_mem _ hr)
      · intro r hr
        rcases S2 r hr with h | h
        · rcases List.mem_cons.mp h with rfl | h
          · exact Or.inr ⟨List.mem_cons_self _ _, hcond.1, hcond.2.1⟩
          · exact Or.inl h
        · exact Or.inr ⟨List.mem_cons_of_mem _ h.1, h.2⟩
      · intro r hr he hm
        rcases List.mem_cons.mp hr with rfl | hr
        · exact S1 r (List.mem_cons_self _ _)
        · exact S3 r hr he hm
      · exact fun x hx => S4 x (List.mem_append_right _ hx)
      · intro x hx
        rcases S5 x hx with h | h
        · rcases List.mem_append.mp h with h | h
          · refine Or.inr ?_
            rw [List.mem_reverse] at h
            obtain ⟨p, hp, h1, h2, h3⟩ := (mem_v0Pushes _ _ _ _).mp h
            exact ⟨p, hp, h1, h2 ▸ S1 r0 (List.mem_cons_self _ _), h3⟩
          · exact Or.inl h
        · exact Or.inr h
      · intro r hr hrows p hp h1 h2
        by_cases hr0 : r = r0
        · subst hr0
          refine S4 _ (List.mem_append_left _ ?_)
          rw [List.mem_reverse, mem_v0Pushes]
          exact ⟨p, hp, rfl, h1, h2⟩
        · have : r ∉ r0 :: rows := by
            intro h
            rcases List.mem_cons.mp h with h | h
            · exact hr0 h
            · exact hrows h
          exact S6 r hr this p hp h1 h2
      · calc (v0Scan mat matching cols c rs (r0 :: rows)
              ((v0Pushes matching cols r0).reverse ++ stk)).2.length ≤
            ((v0Pushes matching cols r0).reverse ++ stk).length +
              rs.length * matching.length := S7
          _ ≤ stk.length + (r0 :: rs).length * matching.length := by
            rw [List.length_append, List.length_reverse, List.length_cons]
            have := v0Pushes_length matching cols r0
            ring_nf
            omega
    · have heq : v0Scan mat matching cols c (r0 :: rs) rows stk =
          v0Scan mat matching cols c rs rows stk := by
        rw [v0Scan, if_neg hcond]
      obtain ⟨S1, S2, S3, S4, S5, S6, S7⟩ := ih rows stk
      rw [heq]
      refine ⟨S1, ?_, ?_, S4, S5, S6, ?_⟩
      · intro r hr
        rcases S2 r hr with h | h
        · exact Or.inl h
        · exact Or.inr ⟨List.mem_cons_of_mem _ h.1, h.2⟩
      · intro r hr he hm
        rcases List.mem_cons.mp hr with rfl | hr
        · rcases not_and_or.mp hcond with h | h
          · exact absurd he h
          rcases not_and_or.mp h with h | h
          · exact absurd hm h
          · exact S1 r (not_not.mp h)
        · exact S3 r hr he hm
      · calc (v0Scan mat matching cols c rs rows stk).2.length ≤
            stk.length + rs.length * matching.length := S7
          _ ≤ stk.length + (r0 :: rs).length * matching.length := by
            rw [List.length_cons]
            exact Nat.add_le_add_left
              (Nat.mul_le_mul_right _ (Nat.le_succ _)) _

theorem v0Loop_run (mat : List (List Int)) (matching : List (Nat × Nat))
    (hRange : ∀ p ∈ matching, p.1 < mat.length ∧ p.2 < (mat.headD []).length) :
    ∀ fuel stack rows cols,
      V0Inv mat matching stack rows cols →
      v0Measure matching mat.length (mat.headD []).length stack cols < fuel →
      ∃ R C, v0Loop mat matching mat.length fuel stack rows cols =
          some (R, C) ∧
        (∀ r ∈ rows, r ∈ R) ∧ (∀ c ∈ cols, c ∈ C) ∧
        (∀ r ∈ R, V0Reach mat matching (Sum.inl r)) ∧
        (∀ c ∈ C, V0Reach mat matching (Sum.inr c)) ∧
        (∀ c, c < (mat.headD []).length → c ∉ matchedCols matching → c ∈ C) ∧
        (∀ c ∈ C, ∀ r, entry mat r c ≠ 0 → (r, c) ∉ matching → r ∈ R) ∧
        (∀ r ∈ R, ∀ p ∈ matching, p.1 = r → p.2 ∈ C) ∧
        (∀ c ∈ C, c < (mat.headD []).length) := by
  intro fuel
  induction fuel with
  | zero => intro stack rows cols _ h; omega
  | succ fuel ih =>
    intro stack rows cols hinv hfuel
    obtain ⟨i1, i2, i3, i4, i5, i6, i7, i8⟩ := hinv
    cases stack with
    | nil =>
      refine ⟨rows, cols, rfl, fun r hr => hr, fun c hc => hc, i5, i3, ?_, i6, ?_, i4⟩
      · intro c hc hm
        rcases i8 c hc hm with h | h
        · exact h
        · exact absurd h (List.not_mem_nil c)
      · intro r hr p hp h1
        rcases i7 r hr p hp h1 with h | h
        · exact h
        · exact absurd h (List.not_mem_nil _)
    | cons c stk =>
      by_cases hc : c ∈ cols
      · have heq : v0Loop mat matching mat.length (fuel + 1)
            (c :: stk) rows cols =
            v0Loop mat matching mat.length fuel stk rows cols := by
          rw [v0Loop, if_pos hc]
        rw [heq]
        refine ih stk rows cols
          ⟨fun x hx => i1 x (List.mem_cons_of_mem _ hx),
           fun x hx => i2 x (List.mem_cons_of_mem _ hx), i3, i4, i5, i6, ?_, ?_⟩ ?_
        · intro r hr p hp h1
          rcases i7 r hr p hp h1 with h | h
          · exact Or.inl h
          · rcases List.mem_cons.mp h with h | h
            · exact Or.inl (h ▸ hc)
            · exact Or.inr h
        · intro x hx hm
          rcases i8 x hx hm with h | h
          · exact Or.inl h
          · rcases List.mem_cons.mp h with h | h
            · exact Or.inl (h ▸ hc)
            · exact Or.inr h
        · simp only [v0Measure, List.length_cons] at hfuel ⊢
          omega
      · have heq : v0Loop mat matching mat.length (fuel + 1)
            (c :: stk) rows cols =
            v0Loop mat matching mat.length fuel
              (v0Scan mat matching (c :: cols) c
                (List.range mat.length) rows stk).2
              (v0Scan mat matching (c :: cols) c
                (List.range mat.length) rows stk).1 (c :: cols) := by
          rw [v0Loop, if_neg hc]
        rw [heq]
        obtain ⟨S1, S2, S3, S4, S5, S6, S7⟩ :=
          v0Scan_spec mat matching (c :: cols) c (List.range mat.length) rows stk
        have hcm : c < (mat.headD []).length := i2 c (List.mem_cons_self _ _)
        have hcreach : V0Reach mat matching (Sum.inr c) :=
          i1 c (List.mem_cons_self _ _)
        have hrows' : ∀ r ∈ (v0Scan mat matching (c :: cols) c
            (List.range mat.length) rows stk).1,
            V0Reach mat matching (Sum.inl r) := by
          intro r hr
          rcases S2 r hr with h | h
          · exact i5 r h
          · exact V0Reach.row c r hcreach h.2.1 h.2.2
        have hinv' : V0Inv mat matching
            (v0Scan mat matching (c :: cols) c
              (List.range mat.length) rows stk).2
            (v0Scan mat matching (c :: cols) c
              (List.range mat.length) rows stk).1 (c :: cols) := by
          refine ⟨?_, ?_, ?_, ?_, hrows', ?_, ?_, ?_⟩
          · intro x hx
            rcases S5 x hx with h | h
            · exact i1 x (List.mem_cons_of_mem _ h)
            · obtain ⟨p, hp, h1, h2, _⟩ := h
              exact h1 ▸ V0Reach.col p.1 p.2 (hrows' _ h2) hp
          · intro x hx
            rcases S5 x hx with h | h
            · exact i2 x (List.mem_cons_of_mem _ h)
            · obtain ⟨p, hp, h1, _, _⟩ := h
              exact h1 ▸ (hRange p hp).2
          · intro c' hc'
            rcases List.mem_cons.mp hc' with rfl | hc'
            · exact hcreach
            · exact i3 c' hc'
          · intro c' hc'
            rcases List.mem_cons.mp hc' with rfl | hc'
            · exact hcm
            · exact i4 c' hc'
          · intro c' hc' r he hm
            rcases List.mem_cons.mp hc' with rfl | hc'
            · by_cases hrn : r < mat.length
              · exact S3 r (List.mem_range.mpr hrn) he hm
              · exact absurd (entry_eq_zero_row mat r c' (Nat.le_of_not_lt hrn)) he
            · exact S1 r (i6 c' hc' r he hm)
          · intro r hr p hp h1
            by_cases hrold : r ∈ rows
            · rcases i7 r hrold p hp h1 with h | h
              · exact Or.inl (List.mem_cons_of_mem _ h)
              · rcases List.mem_cons.mp h with h | h
                · exact Or.inl (h ▸ List.mem_cons_self _ _)
                · exact Or.inr (S4 _ h)
            · by_cases hpcol : p.2 ∈ c :: cols
              · exact Or.inl hpcol
              · exact Or.inr (S6 r hr hrold p hp h1 hpcol)
          · intro x hx hm
            rcases i8 x hx hm with h | h
            · exact Or.inl (List.mem_cons_of_mem _ h)
            · rcases List.mem_cons.mp h with h | h
              · exact Or.inl (h ▸ List.mem_cons_self _ _)
              · exact Or.inr (S4 _ h)
        have hvmem : c ∈ (Finset.range (mat.headD []).length ∪
            (matching.map Prod.snd).toFinset) \ cols.toFinset := by
          rw [Finset.mem_sdiff]
          exact ⟨Finset.mem_union_left _ (Finset.mem_range.mpr hcm),
            fun h => hc (List.mem_toFinset.mp h)⟩
        have hcard : ((Finset.range (mat.headD []).length ∪
            (matching.map Prod.snd).toFinset) \ (c :: cols).toFinset).card + 1 =
            ((Finset.range (mat.headD []).length ∪
              (matching.map Prod.snd).toFinset) \ cols.toFinset).card := by
          rw [List.toFinset_cons, Finset.sdiff_insert, Finset.card_erase_of_mem hvmem]
          have hpos : 0 < ((Finset.range (mat.headD []).length ∪
              (matching.map Prod.snd).toFinset) \ cols.toFinset).card :=
            Finset.card_pos.mpr ⟨c, hvmem⟩
          omega
        have hlen : (v0Scan mat matching (c :: cols) c
            (List.range mat.length) rows stk).2.length ≤
            stk.length + mat.length * matching.length := by
          have := S7
          rwa [List.length_range] at this
        have hmeas' : v0Measure matching mat.length (mat.headD []).length
            (v0Scan mat matching (c :: cols) c
              (List.range mat.length) rows stk).2 (c :: cols) < fuel := by
          simp only [v0Measure, List.length_cons] at hfuel ⊢
          have hexp : ∀ a b : Nat, (a + 1) * (b + 1) = a * (b + 1) + (b + 1) := by
            intro a b; ring
          generalize hA : ((Finset.range (mat.headD []).length ∪
              (matching.map Prod.snd).toFinset) \ (c :: cols).toFinset).card = A
          rw [hA] at hcard
          rw [← hcard] at hfuel
          rw [hexp] at hfuel
          omega
        obtain ⟨R, C, hrun, hm1, hm2, hrest⟩ := ih _ _ _ hinv' hmeas'
        exact ⟨R, C, hrun, fun r hr => hm1 r (S1 r hr),
          fun c' hc' => hm2 c' (List.mem_cons_of_mem _ hc'), hrest⟩

/-- All V0-reachable vertices land in the result (closure argument). -/
theorem v0Reach_mem (mat : List (List Int)) (matching : List (Nat × Nat))
    (R C : List Nat)
    (hseed : ∀ c, c < (mat.headD []).length → c ∉ matchedCols matching → c ∈ C)
    (hclosed : ∀ c ∈ C, ∀ r, entry mat r c ≠ 0 → (r, c) ∉ matching → r ∈ R)
    (hpartner : ∀ r ∈ R, ∀ p ∈ matching, p.1 = r → p.2 ∈ C) :
    ∀ x, V0Reach mat matching x → Sum.elim (· ∈ R) (· ∈ C) x := by
  intro x hx
  induction hx with
  | seed c hc hm => exact hseed c hc hm
  | row c r _ he hm ih => exact hclosed c ih r he hm
  | col r c _ hp ih => exact hpartner r ih (r, c) hp rfl

theorem v0Loop_seeds (mat : List (List Int)) (matching : List (Nat × Nat))
    (hRange : ∀ p ∈ matching, p.1 < mat.length ∧ p.2 < (mat.headD []).length)
    (seeds : List Nat)
    (hseeds : ∀ x, x ∈ seeds ↔ x < (mat.headD []).length ∧
      x ∉ matchedCols matching)
    (fuel : Nat)
    (hfuel : v0Measure matching mat.length (mat.headD []).length seeds [] < fuel) :
    ∃ R C, v0Loop mat matching mat.length fuel seeds [] [] =
        some (R, C) ∧ V0Post mat matching R C := by
  have hinv : V0Inv mat matching seeds [] [] := by
    refine ⟨?_, ?_, by simp, by simp, by simp, by simp, by simp, ?_⟩
    · intro v hv
      obtain ⟨h1, h2⟩ := (hseeds v).mp hv
      exact V0Reach.seed v h1 h2
    · exact fun v hv => ((hseeds v).mp hv).1
    · intro x hx hm
      exact Or.inr ((hseeds x).mpr ⟨hx, hm⟩)
  obtain ⟨R, C, hrun, _, _, hRsound, hCsound, hseed, hclosed, hpartner, _⟩ :=
    v0Loop_run mat matching hRange fuel seeds [] [] hinv hfuel
  refine ⟨R, C, hrun, ?_, ?_⟩
  · intro r
    constructor
    · exact hRsound r
    · intro h
      exact v0Reach_mem mat matching R C hseed hclosed hpartner (Sum.inl r) h
  · intro c
    constructor
    · exact hCsound c
    · intro h
      exact v0Reach_mem mat matching R C hseed hclosed hpartner (Sum.inr c) h

theorem v0Fuel_adequate (mat : List (List Int)) (matching : List (Nat × Nat)) :
    v0Measure matching mat.length (mat.headD []).length
      ((List.range (mat.headD []).length).filter
        (fun c => c ∉ matchedCols matching)) [] < v0Fuel mat matching := by
  rw [v0Measure, v0Fuel]
  have hcard : ((Finset.range (mat.headD []).length ∪
      (matching.map Prod.snd).toFinset) \ ([] : List Nat).toFinset).card ≤
      (mat.headD []).length + matching.length := by
    calc ((Finset.range (mat.headD []).length ∪
        (matching.map Prod.snd).toFinset) \ ([] : List Nat).toFinset).card ≤
        (Finset.range (mat.headD []).length ∪
          (matching.map Prod.snd).toFinset).card :=
      Finset.card_le_card (Finset.sdiff_subset)
      _ ≤ (Finset.range (mat.headD []).length).card +
          (matching.map Prod.snd).toFinset.card :=
      Finset.card_union_le _ _
      _ ≤ (mat.headD []).length + matching.length := by
        rw [Finset.card_range]
        exact Nat.add_le_add_left
          (le_trans (matching.map Prod.snd).toFinset_card_le
            (by rw [List.length_map])) _
  have hlen : ((List.range (mat.headD []).length).filter
      (fun c => c ∉ matchedCols matching)).length ≤ (mat.headD []).length := by
    calc ((List.range (mat.headD []).length).filter
        (fun c => c ∉ matchedCols matching)).length ≤
        (List.range (mat.headD []).length).length := List.length_filter_le _ _
      _ = (mat.headD []).length := List.length_range _
  set K := mat.length * matching.length with hK
  set A := ((Finset.range (mat.headD []).length ∪
      (matching.map Prod.snd).toFinset) \ ([] : List Nat).toFinset).card with hA
  have h1 : A * (K + 1) ≤ ((mat.headD []).length + matching.length) * (K + 2) :=
    Nat.mul_le_mul hcard (by omega)
  have h2 : ((mat.headD []).length + matching.length) * (K + 2) + (K + 2) =
      ((mat.headD []).length + matching.length + 1) * (K + 2) := by ring
  omega

/-- `_find_V0` computes exactly the alternating-reachability sets. -/
theorem findV0_post (mat : List (List Int)) (matching : List (Nat × Nat))
    (hRange : ∀ p ∈ matching, p.1 < mat.length ∧ p.2 < (mat.headD []).length) :
    ∃ R C, findV0 mat matching = some (R, C) ∧ V0Post mat matching R C := by
  refine v0Loop_seeds mat matching hRange _ ?_ _ (v0Fuel_adequate mat matching)
  intro x
  simp only [List.mem_filter, List.mem_range, decide_eq_true_eq]

/-! ### Tarjan: helper lemmas -/

theorem countP_lt_aux (p q : Nat → Bool) :
    ∀ (l : List Nat) (v : Nat), v ∈ l → p v = true → q v = false →
      (∀ x, q x = true → p x = true) → l.countP q < l.countP p := by
  intro l
  induction l with
  | nil => intro v hv; exact absurd hv (List.not_mem_nil v)
  | cons a l ih =>
    intro v hv hp hq himp
    rw [List.countP_cons, List.countP_cons]
    rcases List.mem_cons.mp hv with rfl | hv
    · rw [hp, hq, if_pos rfl, if_neg Bool.false_ne_true]
      have : l.countP q ≤ l.countP p :=
        List.countP_mono_left (fun x _ hx => himp x hx)
      omega
    · have h := ih v hv hp hq himp
      by_cases hqa : q a = true
      · rw [hqa, himp a hqa]
        omega
      · rw [Bool.not_eq_true] at hqa
        rw [hqa, if_neg Bool.false_ne_true]
        by_cases hpa : p a = true
        · rw [hpa, if_pos rfl]
          omega
        · rw [Bool.not_eq_true] at hpa
          rw [hpa, if_neg Bool.false_ne_true]
          omega

theorem unvis_mono (N : Nat) (s s' : TjSt)
    (h : ∀ x, (s.ids x).isSome → (s'.ids x).isSome) :
    unvis N s' ≤ unvis N s := by
  rw [unvis, unvis, ← List.countP_eq_length_filter, ← List.countP_eq_length_filter]
  refine List.countP_mono_left (fun x _ hx => ?_)
  rw [decide_eq_true_eq] at hx ⊢
  by_contra hc
  have := h x (Option.isSome_iff_ne_none.mpr hc)
  rw [hx] at this
  exact (Bool.false_ne_true this)

theorem unvis_lt_of_mark (N : Nat) (s s1 : TjSt) (v : Nat) (hv : v < N)
    (hnone : s.ids v = none) (hsome : (s1.ids v).isSome)
    (h : ∀ x, (s.ids x).isSome → (s1.ids x).isSome) :
    unvis N s1 < unvis N s := by
  rw [unvis, unvis, ← List.countP_eq_length_filter, ← List.countP_eq_length_filter]
  refine countP_lt_aux _ _ (List.range N) v (List.mem_range.mpr hv) ?_ ?_ ?_
  · rw [decide_eq_true_eq]
    exact hnone
  · rw [decide_eq_false_iff_not]
    exact Option.isSome_iff_ne_none.mp hsome
  · intro x hx
    rw [decide_eq_true_eq] at hx ⊢
    by_contra hc
    have := h x (Option.isSome_iff_ne_none.mpr hc)
    rw [hx] at this
    exact (Bool.false_ne_true this)

theorem popUntil_eq (v : Nat) :
    ∀ (A B : List Nat), v ∉ A → popUntil v (A ++ v :: B) = (A ++ [v], B) := by
  intro A
  induction A with
  | nil =>
    intro B _
    simp [popUntil]
  | cons a A ih =>
    intro B hv
    have hav : ¬ a = v := fun h =>
      hv (h ▸ List.mem_cons_self a A)
    have hv' : v ∉ A := fun h => hv (List.mem_cons_of_mem _ h)
    have hstep : popUntil v ((a :: A) ++ v :: B) =
        (a :: (popUntil v (A ++ v :: B)).1, (popUntil v (A ++ v :: B)).2) := by
      rw [List.cons_append, popUntil, if_neg hav]
    rw [hstep, ih B hv', List.cons_append]

theorem inComp_mkComp (n : Nat) (popped : List Nat) (x : Nat) :
    inComp n (mkComp n popped) x ↔ x ∈ popped := by
  unfold inComp mkComp
  simp only [mem_sortedSet, List.mem_filter, List.mem_map, decide_eq_true_eq]
  constructor
  · rintro (⟨hx, _⟩ | ⟨hnx, w, ⟨hw, hwn⟩, hwx⟩)
    · exact hx
    · have : w = x := by omega
      exact this ▸ hw
  · intro hx
    by_cases hxn : x < n
    · exact Or.inl ⟨hx, hxn⟩
    · exact Or.inr ⟨Nat.le_of_not_lt hxn, x, ⟨hx, hxn⟩, rfl⟩

theorem tjCapt_stable (g : Nat → List Nat) (s1 s2 : TjSt) (x : Nat)
    (hids : ∀ y, (s1.ids y).isSome → s2.ids y = s1.ids y)
    (hlow : s2.low x = s1.low x)
    (hpush : ∀ y, (s1.ids y).isSome → y ∈ s2.stk → y ∈ s1.stk)
    (hc : TjCapt g s1 x) : TjCapt g s2 x := by
  intro y hy
  obtain ⟨hsome, hbound⟩ := hc y hy
  refine ⟨by rw [hids y hsome]; exact hsome, fun hmem => ?_⟩
  rw [hlow, hids y hsome]
  exact hbound (hpush y hsome hmem)

theorem tjGI_push (g : Nat → List Nat) (n N : Nat) (s s1 : TjSt) (v : Nat)
    (hGI : TjGI g n N s) (hnone : s.ids v = none) (hvN : v < N)
    (hidx : s1.idx = s.idx + 1) (hstk : s1.stk = v :: s.stk)
    (honk : ∀ x, s1.onStk x = if x = v then true else s.onStk x)
    (hids : ∀ x, s1.ids x = if x = v then some s.idx else s.ids x)
    (hlow : ∀ x, s1.low x = if x = v then s.idx else s.low x)
    (hcomps : s1.comps = s.comps) : TjGI g n N s1 := by
  obtain ⟨g0, g1, g2, g3, g5, g6, g8, g8c, g9, g10⟩ := hGI
  have hvstk : v ∉ s.stk := fun h => by
    have := g3 v h
    rw [hnone] at this
    exact Bool.false_ne_true this
  refine ⟨?_, ?_, ?_, ?_, ?_, ?_, ?_, ?_, ?_, ?_⟩
  · intro x hx
    rw [hids x] at hx
    by_cases h : x = v
    · exact h ▸ hvN
    · rw [if_neg h] at hx
      exact g0 x hx
  · rw [hstk]
    exact List.nodup_cons.mpr ⟨hvstk, g1⟩
  · intro x
    rw [honk x, hstk]
    by_cases h : x = v
    · subst h
      simp
    · rw [if_neg h, g2 x, List.mem_cons]
      constructor
      · exact Or.inr
      · rintro (rfl | hx)
        · exact absurd rfl h
        · exact hx
  · intro x hx
    rw [hstk] at hx
    rw [hids x]
    rcases List.mem_cons.mp hx with rfl | hx
    · simp
    · by_cases h : x = v
      · simp [h]
      · rw [if_neg h]
        exact g3 x hx
  · intro x hx
    rw [hids x] at hx ⊢
    rw [hlow x]
    by_cases h : x = v
    · simp [h]
    · rw [if_neg h] at hx ⊢
      rw [if_neg h]
      exact g5 x hx
  · intro x hx
    rw [hids x] at hx ⊢
    rw [hidx]
    by_cases h : x = v
    · simp [h]
    · rw [if_neg h] at hx ⊢
      exact Nat.lt_succ_of_lt (g6 x hx)
  · intro k hk x hx
    rw [hcomps] at hk hx ⊢
    obtain ⟨h1, h2, h3⟩ := g8 k hk x hx
    have hxv : ¬ x = v := fun h => by
      rw [h, hnone] at h1
      exact Bool.false_ne_true h1
    refine ⟨by rw [hids x, if_neg hxv]; exact h1, ?_, h3⟩
    rw [hstk]
    intro hmem
    rcases List.mem_cons.mp hmem with h | h
    · exact hxv h
    · exact h2 h
  · intro x hx
    rw [hids x] at hx
    rw [hstk, hcomps]
    by_cases h : x = v
    · exact Or.inl (h ▸ List.mem_cons_self _ _)
    · rw [if_neg h] at hx
      rcases g8c x hx with hs | hc
      · exact Or.inl (List.mem_cons_of_mem _ hs)
      · exact Or.inr hc
  · rw [hcomps]
    exact g9
  · rw [hcomps]
    exact g10

/-! ### Tarjan: unfolding lemmas -/

theorem tjVisitF_cons_rec (rsc : Nat → TjSt → Option TjSt) (v w : Nat)
    (ws : List Nat) (s t : TjSt) (hw : s.ids w = none) (ht : rsc w s = some t) :
    tjVisitF rsc v (w :: ws) s = tjVisitF rsc v ws
      { t with low := fun x => if x = v then min (t.low v) (t.low w)
          else t.low x } := by
  rw [tjVisitF, if_pos hw, ht]

theorem tjVisitF_cons_onstk (rsc : Nat → TjSt → Option TjSt) (v w : Nat)
    (ws : List Nat) (s : TjSt) (hw : ¬ s.ids w = none) (hstk : s.onStk w = true) :
    tjVisitF rsc v (w :: ws) s = tjVisitF rsc v ws
      { s with low := fun x => if x = v then min (s.low v) ((s.ids w).getD 0)
          else s.low x } := by
  rw [tjVisitF, if_neg hw, if_pos hstk]

theorem tjVisitF_cons_skip (rsc : Nat → TjSt → Option TjSt) (v w : Nat)
    (ws : List Nat) (s : TjSt) (hw : ¬ s.ids w = none)
    (hstk : ¬ s.onStk w = true) :
    tjVisitF rsc v (w :: ws) s = tjVisitF rsc v ws s := by
  rw [tjVisitF, if_neg hw, if_neg hstk]

theorem tjSC_succ (g : Nat → List Nat) (n fuel v : Nat) (s : TjSt) :
    tjSC g n (fuel + 1) v s =
      match tjVisitF (tjSC g n fuel) v (g v)
        { idx := s.idx + 1, stk := v :: s.stk,
          onStk := fun x => if x = v then true else s.onStk x,
          ids := fun x => if x = v then some s.idx else s.ids x,
          low := fun x => if x = v then s.idx else s.low x,
          comps := s.comps } with
      | none => none
      | some s2 =>
        if s2.low v = (s2.ids v).getD 0 then some (tjClose n v s2) else some s2 := by
  rw [tjSC]

/-- The global invariant is stable under decreasing the lowlink of one vertex. -/
theorem tjGI_setlow (g : Nat → List Nat) (n N : Nat) (s s' : TjSt) (v : Nat)
    (hGI : TjGI g n N s)
    (hidx : s'.idx = s.idx) (hstk : s'.stk = s.stk)
    (honk : ∀ x, s'.onStk x = s.onStk x) (hids : ∀ x, s'.ids x = s.ids x)
    (hcomps : s'.comps = s.comps)
    (hlow : ∀ x, x ≠ v → s'.low x = s.low x) (hlv : s'.low v ≤ s.low v) :
    TjGI g n N s' := by
  obtain ⟨g0, g1, g2, g3, g5, g6, g8, g8c, g9, g10⟩ := hGI
  refine ⟨?_, ?_, ?_, ?_, ?_, ?_, ?_, ?_, ?_, ?_⟩
  · intro x hx
    rw [hids x] at hx
    exact g0 x hx
  · rw [hstk]; exact g1
  · intro x
    rw [honk x, hstk]
    exact g2 x
  · intro x hx
    rw [hstk] at hx
    rw [hids x]
    exact g3 x hx
  · intro x hx
    rw [hids x] at hx ⊢
    by_cases h : x = v
    · subst h
      exact le_trans hlv (g5 x hx)
    · rw [hlow x h]
      exact g5 x hx
  · intro x hx
    rw [hids x] at hx ⊢
    rw [hidx]
    exact g6 x hx
  · intro k hk x hx
    rw [hcomps] at hk hx ⊢
    obtain ⟨h1, h2, h3⟩ := g8 k hk x hx
    rw [hids x, hstk]
    exact ⟨h1, h2, h3⟩
  · intro x hx
    rw [hids x] at hx
    rw [hstk, hcomps]
    exact g8c x hx
  · rw [hcomps]; exact g9
  · rw [hcomps]; exact g10

/-- Main specification of the neighbour loop of `_strong_connect`. -/
theorem tjVisitF_spec (g : Nat → List Nat) (n N : Nat)
    (rsc : Nat → TjSt → Option TjSt) (fuel0 : Nat)
    (hrsc : ∀ w s, TjGI g n N s → s.ids w = none → w < N → unvis N s ≤ fuel0 →
      ∃ s', rsc w s = some s' ∧ TjPost g n N w s s') :
    ∀ ws v s, TjGI g n N s → v ∈ s.stk → (s.ids v).isSome →
      (∀ w ∈ ws, w < N) → unvis N s ≤ fuel0 →
      ∃ s', tjVisitF rsc v ws s = some s' ∧ TjVPost g n N v ws s s' := by
  intro ws
  induction ws with
  | nil =>
    intro v s hGI hvstk hvsome _ _
    exact ⟨s, rfl, hGI, fun x _ => rfl, fun x _ _ => rfl, le_refl _,
      fun x _ hx => hx, fun x hx hx' => absurd hx' hx, le_refl _,
      ⟨[], by simp⟩, ⟨[], by simp, by simp⟩, by simp, fun B _ hB => hB⟩
  | cons w ws ih =>
    intro v s hGI hvstk hvsome hwsN hfuel
    have hGIc := hGI
    obtain ⟨g0, g1, g2, g3, g5, g6, g8, g8c, g9, g10⟩ := hGIc
    have hwN : w < N := hwsN w (List.mem_cons_self _ _)
    by_cases hw : s.ids w = none
    · -- the neighbour is unvisited: recursive call
      obtain ⟨t, hteq, hpost⟩ := hrsc w s hGI hw hwN hfuel
      obtain ⟨tGI, tidsF, tlowF, tpush, tnew, tidx, twsome, twid,
        ⟨tail, tcomps⟩, ⟨news0, tstk, tnews0⟩, tdich, tL⟩ := hpost
      have hvw : v ≠ w := fun h => by
        rw [h, hw] at hvsome
        exact Bool.false_ne_true hvsome
      set sm : TjSt :=
        { t with low := fun x => if x = v then min (t.low v) (t.low w)
            else t.low x } with hsm
      have hmids : ∀ x, sm.ids x = t.ids x := fun x => rfl
      have hmlow : ∀ x, x ≠ v → sm.low x = t.low x := by
        intro x hx
        show (if x = v then _ else t.low x) = t.low x
        rw [if_neg hx]
      have hmlowv : sm.low v = min (t.low v) (t.low w) := by
        show (if v = v then _ else _) = _
        rw [if_pos rfl]
      have htlowv : t.low v = s.low v := tlowF v hvsome
      have hmGI : TjGI g n N sm :=
        tjGI_setlow g n N t sm v tGI rfl rfl (fun _ => rfl) (fun _ => rfl) rfl
          hmlow (by rw [hmlowv]; exact min_le_left _ _)
      have hvsome' : (sm.ids v).isSome := by
        rw [hmids v, tidsF v hvsome]
        exact hvsome
      have hvstk' : v ∈ sm.stk := by
        show v ∈ t.stk
        rw [tstk]
        exact List.mem_append_right _ hvstk
      have hvis_mono : ∀ x, (s.ids x).isSome → (sm.ids x).isSome := by
        intro x hx
        rw [hmids x, tidsF x hx]
        exact hx
      have hfuel' : unvis N sm ≤ fuel0 := by
        have : unvis N sm ≤ unvis N s := unvis_mono N s sm hvis_mono
        omega
      obtain ⟨s', hrun, pGI, pidsF, plowF, plowv, ppush, pnew, pidx,
        ⟨tail2, pcomps⟩, ⟨news2, pstk, pnews2⟩, pscan, pL⟩ :=
        ih v sm hmGI hvstk' hvsome' (fun x hx => hwsN x (List.mem_cons_of_mem _ hx))
          hfuel'
      have heq : tjVisitF rsc v (w :: ws) s = tjVisitF rsc v ws sm :=
        tjVisitF_cons_rec rsc v w ws s t hw hteq
      have hBlt : ∀ x, (s.ids x).isSome → s'.ids x = s.ids x := by
        intro x hx
        rw [pidsF x (hvis_mono x hx), hmids x, tidsF x hx]
      have hlowF2 : ∀ x, x ≠ v → (s.ids x).isSome → s'.low x = s.low x := by
        intro x hx hvx
        rw [plowF x hx (hvis_mono x hvx), hmlow x hx, tlowF x hvx]
      have hpush2 : ∀ x, (s.ids x).isSome → x ∈ s'.stk → x ∈ s.stk := by
        intro x hx hmem
        have h1 : x ∈ sm.stk := ppush x (hvis_mono x hx) hmem
        have h2 : x ∈ t.stk := h1
        exact tpush x hx h2
      have hlowv2 : s'.low v ≤ s.low v := by
        calc s'.low v ≤ sm.low v := plowv
          _ ≤ t.low v := by rw [hmlowv]; exact min_le_left _ _
          _ = s.low v := htlowv
      have hlowvw : s'.low v ≤ t.low w := by
        calc s'.low v ≤ sm.low v := plowv
          _ ≤ t.low w := by rw [hmlowv]; exact min_le_right _ _
      refine ⟨s', heq ▸ hrun, pGI, hBlt, hlowF2, hlowv2, hpush2, ?_, ?_, ?_, ?_, ?_, ?_⟩
      · -- new ids are at least s.idx
        intro x hx hx'
        by_cases hxt : (t.ids x).isSome
        · rw [pidsF x hxt]
          exact tnew x hx hxt
        · have := pnew x (by rw [hmids x]; exact hxt) hx'
          have hm : sm.idx = t.idx := rfl
          omega
      · have hm : sm.idx = t.idx := rfl
        omega
      · refine ⟨tail ++ tail2, ?_⟩
        rw [pcomps]
        show t.comps ++ tail2 = s.comps ++ (tail ++ tail2)
        rw [tcomps, List.append_assoc]
      · -- accumulated news with capture facts
        refine ⟨news2 ++ news0, ?_, ?_⟩
        · rw [pstk]
          show news2 ++ sm.stk = news2 ++ news0 ++ s.stk
          rw [List.append_assoc]
          show news2 ++ sm.stk = news2 ++ (news0 ++ s.stk)
          rw [show sm.stk = t.stk from rfl, tstk]
        · intro x hx
          rcases List.mem_append.mp hx with hx2 | hx0
          · obtain ⟨hxnone, hcap, hchain⟩ := pnews2 x hx2
            refine ⟨?_, hcap, hchain⟩
            intro hxs
            exact hxnone (hvis_mono x hxs)
          · have hxnone : ¬ (s.ids x).isSome := tnews0 x hx0
            have hxvisT : (t.ids x).isSome := by
              have hxstk : x ∈ t.stk := by
                rw [tstk]
                exact List.mem_append_left _ hx0
              exact tGI.2.2.2.1 x hxstk
            have hxv : x ≠ v := by
              intro h
              rw [h] at hxnone
              exact hxnone hvsome
            -- capture comes from the dichotomy (case (a) is impossible here)
            rcases tdich with ⟨hstkA, _⟩ | ⟨newsB, tstkB, _, _, hcapB⟩
            · exfalso
              have : news0 ++ s.stk = s.stk := by rw [← tstk, hstkA]
              have hlen := congrArg List.length this
              rw [List.length_append] at hlen
              have : news0 = [] := List.eq_nil_of_length_eq_zero (by omega)
              rw [this] at hx0
              exact absurd hx0 (List.not_mem_nil x)
            · have hnewsEq : newsB = news0 := by
                have : newsB ++ s.stk = news0 ++ s.stk := by rw [← tstkB, tstk]
                exact List.append_cancel_right this
              obtain ⟨hcapX, hchainX⟩ := hcapB x (hnewsEq ▸ hx0)
              have hcapSm : TjCapt g sm x :=
                tjCapt_stable g t sm x (fun y _ => rfl) (hmlow x hxv)
                  (fun y _ hy => hy) hcapX
              have hcapS' : TjCapt g s' x :=
                tjCapt_stable g sm s' x pidsF
                  (plowF x hxv (by rw [hmids x]; exact hxvisT)) ppush hcapSm
              refine ⟨hxnone, hcapS', ?_⟩
              calc s'.low v ≤ t.low w := hlowvw
                _ ≤ t.low x := hchainX
                _ = sm.low x := (hmlow x hxv).symm
                _ = s'.low x := (plowF x hxv (by rw [hmids x]; exact hxvisT)).symm
      · -- scanned neighbours
        intro w' hw'
        rcases List.mem_cons.mp hw' with rfl | hw'
        · constructor
          · rw [pidsF w' (by rw [hmids w']; exact twsome)]
            exact twsome
          · intro hmem
            have hwt : w' ∈ t.stk := ppush w' (by rw [hmids w']; exact twsome) hmem
            have hg5t : t.low w' ≤ (t.ids w').getD 0 := tGI.2.2.2.2.1 w' twsome
            calc s'.low v ≤ t.low w' := hlowvw
              _ ≤ (t.ids w').getD 0 := hg5t
              _ = (s'.ids w').getD 0 := by
                rw [pidsF w' (by rw [hmids w']; exact twsome)]
        · exact pscan w' hw'
      · -- lower bound on the lowlink
        intro B hB hBv
        have hBidx : B < s.idx := by
          have h1 : s.low v ≤ (s.ids v).getD 0 := g5 v hvsome
          have h2 : (s.ids v).getD 0 < s.idx := g6 v hvsome
          omega
        have hBw : B ≤ t.low w := tL B hB (le_of_lt hBidx)
        have hBsm : B ≤ sm.low v := by
          rw [hmlowv, htlowv]
          exact le_min hBv hBw
        refine pL B ?_ hBsm
        intro x hx
        have hxTstk : x ∈ t.stk := hx
        rw [tstk] at hxTstk
        rcases List.mem_append.mp hxTstk with hx0 | hxs
        · have hxnone : ¬ (s.ids x).isSome := tnews0 x hx0
          have hxvisT : (sm.ids x).isSome := by
            rw [hmids x]
            exact tGI.2.2.2.1 x (by rw [tstk]; exact List.mem_append_left _ hx0)
          have := tnew x hxnone (by rw [← hmids x]; exact hxvisT)
          have heq2 : (sm.ids x).getD 0 = (t.ids x).getD 0 := by rw [hmids x]
          omega
        · have hxst : (s.ids x).isSome := g3 x hxs
          have : (sm.ids x).getD 0 = (s.ids x).getD 0 := by
            rw [hmids x, tidsF x hxst]
          rw [this]
          exact hB x hxs
    · by_cases hwstk : s.onStk w = true
      · -- the neighbour is visited and on the stack: lowlink update
        have hwsome : (s.ids w).isSome := Option.isSome_iff_ne_none.mpr hw
        set sm : TjSt :=
          { s with low := fun x => if x = v then min (s.low v) ((s.ids w).getD 0)
              else s.low x } with hsm
        have hmlow : ∀ x, x ≠ v → sm.low x = s.low x := by
          intro x hx
          show (if x = v then _ else s.low x) = s.low x
          rw [if_neg hx]
        have hmlowv : sm.low v = min (s.low v) ((s.ids w).getD 0) := by
          show (if v = v then _ else _) = _
          rw [if_pos rfl]
        have hmGI : TjGI g n N sm :=
          tjGI_setlow g n N s sm v hGI rfl rfl (fun _ => rfl) (fun _ => rfl) rfl
            hmlow (by rw [hmlowv]; exact min_le_left _ _)
        obtain ⟨s', hrun, pGI, pidsF, plowF, plowv, ppush, pnew, pidx,
          ⟨tail2, pcomps⟩, ⟨news2, pstk, pnews2⟩, pscan, pL⟩ :=
          ih v sm hmGI hvstk hvsome
            (fun x hx => hwsN x (List.mem_cons_of_mem _ hx)) hfuel
        have heq : tjVisitF rsc v (w :: ws) s = tjVisitF rsc v ws sm :=
          tjVisitF_cons_onstk rsc v w ws s hw hwstk
        refine ⟨s', heq ▸ hrun, pGI, pidsF, ?_, ?_, ppush, pnew, pidx,
          ⟨tail2, pcomps⟩, ?_, ?_, ?_⟩
        · intro x hx hx'
          rw [plowF x hx hx', hmlow x hx]
        · calc s'.low v ≤ sm.low v := plowv
            _ ≤ s.low v := by rw [hmlowv]; exact min_le_left _ _
        · refine ⟨news2, pstk, ?_⟩
          intro x hx
          exact pnews2 x hx
        · intro w' hw'
          rcases List.mem_cons.mp hw' with rfl | hw'
          · refine ⟨by rw [pidsF w' hwsome]; exact hwsome, fun _ => ?_⟩
            calc s'.low v ≤ sm.low v := plowv
              _ ≤ (s.ids w').getD 0 := by rw [hmlowv]; exact min_le_right _ _
              _ = (s'.ids w').getD 0 := by rw [pidsF w' hwsome]
          · exact pscan w' hw'
        · intro B hB hBv
          have hBw : B ≤ (s.ids w).getD 0 := hB w (g2 w |>.mp hwstk)
          refine pL B hB ?_
          rw [hmlowv]
          exact le_min hBv hBw
      · -- the neighbour is visited and off the stack: skipped
        have hwsome : (s.ids w).isSome := Option.isSome_iff_ne_none.mpr hw
        obtain ⟨s', hrun, pGI, pidsF, plowF, plowv, ppush, pnew, pidx,
          ⟨tail2, pcomps⟩, ⟨news2, pstk, pnews2⟩, pscan, pL⟩ :=
          ih v s hGI hvstk hvsome
            (fun x hx => hwsN x (List.mem_cons_of_mem _ hx)) hfuel
        have heq : tjVisitF rsc v (w :: ws) s = tjVisitF rsc v ws s :=
          tjVisitF_cons_skip rsc v w ws s hw hwstk
        refine ⟨s', heq ▸ hrun, pGI, pidsF, plowF, plowv, ppush, pnew, pidx,
          ⟨tail2, pcomps⟩, ⟨news2, pstk, pnews2⟩, ?_, pL⟩
        intro w' hw'
        rcases List.mem_cons.mp hw' with rfl | hw'
        · refine ⟨by rw [pidsF w' hwsome]; exact hwsome, fun hmem => ?_⟩
          exfalso
          have : w' ∈ s.stk := ppush w' hwsome hmem
          rw [← g2 w'] at this
          exact hwstk this
        · exact pscan w' hw'

theorem getD_snoc_lt {α : Type} (l : List α) (c d : α) (k : Nat)
    (h : k < l.length) : (l ++ [c]).getD k d = l.getD k d := by
  rw [List.getD_eq_getElem?_getD, List.getD_eq_getElem?_getD,
    List.getElem?_append_left h]

theorem getD_snoc_len {α : Type} (l : List α) (c d : α) :
    (l ++ [c]).getD l.length d = c := by
  rw [List.getD_eq_getElem?_getD, List.getElem?_append_right (le_refl _)]
  simp

/-- Main specification of `_strong_connect`. -/
theorem tjSC_spec (g : Nat → List Nat) (n N : Nat)
    (Hg : ∀ x, ∀ y ∈ g x, y < N) :
    ∀ fuel v s, TjGI g n N s → s.ids v = none → v < N → unvis N s ≤ fuel →
      ∃ s', tjSC g n fuel v s = some s' ∧ TjPost g n N v s s' := by
  intro fuel
  induction fuel with
  | zero =>
    intro v s _ hv hvN hfuel
    exfalso
    have hpos : 0 < unvis N s := by
      rw [unvis, ← List.countP_eq_length_filter]
      refine List.countP_pos.mpr ⟨v, List.mem_range.mpr hvN, ?_⟩
      rw [decide_eq_true_eq]
      exact hv
    omega
  | succ fuel ih =>
    intro v s hGI hv hvN hfuel
    have hGIc := hGI
    obtain ⟨g0, g1, g2, g3, g5, g6, g8, g8c, g9, g10⟩ := hGIc
    set s1 : TjSt :=
      { idx := s.idx + 1, stk := v :: s.stk,
        onStk := fun x => if x = v then true else s.onStk x,
        ids := fun x => if x = v then some s.idx else s.ids x,
        low := fun x => if x = v then s.idx else s.low x,
        comps := s.comps } with hs1
    have h1GI : TjGI g n N s1 :=
      tjGI_push g n N s s1 v hGI hv hvN rfl rfl (fun _ => rfl) (fun _ => rfl)
        (fun _ => rfl) rfl
    have hids1 : ∀ x, s1.ids x = if x = v then some s.idx else s.ids x :=
      fun _ => rfl
    have hlow1 : ∀ x, s1.low x = if x = v then s.idx else s.low x := fun _ => rfl
    have hv1some : (s1.ids v).isSome := by
      rw [hids1 v, if_pos rfl]
      rfl
    have hv1id : (s1.ids v).getD 0 = s.idx := by
      rw [hids1 v, if_pos rfl]
      rfl
    have hv1low : s1.low v = s.idx := by
      rw [hlow1 v, if_pos rfl]
    have hmono1 : ∀ x, (s.ids x).isSome → (s1.ids x).isSome := by
      intro x hx
      rw [hids1 x]
      by_cases h : x = v
      · rw [if_pos h]; rfl
      · rw [if_neg h]; exact hx
    have hfuel1 : unvis N s1 ≤ fuel := by
      have := unvis_lt_of_mark N s s1 v hvN hv hv1some hmono1
      omega
    obtain ⟨s2, hveq, vGI, vidsF, vlowF, vlowv, vpush, vnew, vidx,
      ⟨tail, vcomps⟩, ⟨news, hstk2, hnews⟩, vscan, vL⟩ :=
      tjVisitF_spec g n N (tjSC g n fuel) fuel ih (g v) v s1 h1GI
        (List.mem_cons_self _ _) hv1some (fun w hw => Hg v w hw) hfuel1
    have hGI2c := vGI
    obtain ⟨q0, q1, q2, q3, q5, q6, q8, q8c, q9, q10⟩ := hGI2c
    have hvid2 : s2.ids v = some s.idx := by
      rw [vidsF v hv1some, hids1 v, if_pos rfl]
    have hvid2' : (s2.ids v).getD 0 = s.idx := by rw [hvid2]; rfl
    have hv2some : (s2.ids v).isSome := by rw [hvid2]; rfl
    have hstkfull : s2.stk = news ++ v :: s.stk := by
      rw [hstk2]
    have hvnews : v ∉ news := by
      intro hmem
      exact (hnews v hmem).1 hv1some
    have hpopped : s2.stk = (news ++ [v]) ++ s.stk := by
      rw [hstkfull, List.append_assoc, List.singleton_append]
    have hpopmem : ∀ x, x ∈ news ++ [v] ↔ x ∈ news ∨ x = v := by
      intro x
      rw [List.mem_append, List.mem_singleton]
    have hpopsub : ∀ x ∈ news ++ [v], x ∈ s2.stk := by
      intro x hx
      rw [hpopped]
      exact List.mem_append_left _ hx
    have hdisj : ∀ x ∈ news ++ [v], x ∉ s.stk := by
      have hnd : ((news ++ [v]) ++ s.stk).Nodup := hpopped ▸ q1
      intro x hx hx'
      exact (List.disjoint_of_nodup_append hnd) hx hx'
    have hnewsS : ∀ x ∈ news, ¬ (s.ids x).isSome := by
      intro x hx hsx
      exact (hnews x hx).1 (hmono1 x hsx)
    have hidsF2 : ∀ x, (s.ids x).isSome → s2.ids x = s.ids x := by
      intro x hx
      have hxv : ¬ x = v := fun h => by
        rw [h, hv] at hx
        exact Bool.false_ne_true hx
      rw [vidsF x (hmono1 x hx), hids1 x, if_neg hxv]
    have hlowF2 : ∀ x, (s.ids x).isSome → s2.low x = s.low x := by
      intro x hx
      have hxv : ¬ x = v := fun h => by
        rw [h, hv] at hx
        exact Bool.false_ne_true hx
      rw [vlowF x hxv (hmono1 x hx), hlow1 x, if_neg hxv]
    have hpush2 : ∀ x, (s.ids x).isSome → x ∈ s2.stk → x ∈ s.stk := by
      intro x hx hmem
      have hxv : ¬ x = v := fun h => by
        rw [h, hv] at hx
        exact Bool.false_ne_true hx
      have := vpush x (hmono1 x hx) hmem
      rcases List.mem_cons.mp this with h | h
      · exact absurd h hxv
      · exact h
    have hnew2 : ∀ x, ¬ (s.ids x).isSome → (s2.ids x).isSome →
        s.idx ≤ (s2.ids x).getD 0 := by
      intro x hx hx'
      by_cases hxv : x = v
      · subst hxv
        rw [hvid2']
      · have h1 : ¬ (s1.ids x).isSome := by
          rw [hids1 x, if_neg hxv]
          exact hx
        have := vnew x h1 hx'
        have hidx1 : s1.idx = s.idx + 1 := rfl
        omega
    have hcapv : (∀ y ∈ g v, (s2.ids y).isSome ∧
        (y ∈ s2.stk → s2.low v ≤ (s2.ids y).getD 0)) := vscan
    have hbound_sstk : ∀ y ∈ s.stk, (s2.ids y).getD 0 < s.idx := by
      intro y hy
      have hys : (s.ids y).isSome := g3 y hy
      rw [hidsF2 y hys]
      exact g6 y hys
    by_cases hclose : s2.low v = (s2.ids v).getD 0
    · -- the component rooted at v closes
      have hpop : popUntil v s2.stk = (news ++ [v], s.stk) := by
        rw [hstkfull]
        exact popUntil_eq v news s.stk hvnews
      set comp : Block := mkComp n (news ++ [v]) with hcompdef
      have hvin : inComp n comp v :=
        (inComp_mkComp n (news ++ [v]) v).mpr
          (List.mem_append_right _ (List.mem_singleton.mpr rfl))
      have hcne : ¬ (comp.1 = [] ∧ comp.2 = []) := by
        rintro ⟨h1, h2⟩
        rcases hvin with h | h
        · rw [h1] at h
          exact absurd h (List.not_mem_nil _)
        · rw [h2] at h
          exact absurd h.2 (List.not_mem_nil _)
      set s3 : TjSt :=
        { s2 with
            stk := s.stk
            onStk := fun x => if x ∈ news ++ [v] then false else s2.onStk x
            comps := s2.comps ++ [comp] } with hs3
      have hclose_eq : tjClose n v s2 = s3 := by
        rw [tjClose]
        simp only [hpop, hs3, hcompdef]
        rw [if_neg hcne]
      have hrun : tjSC g n (fuel + 1) v s = some s3 := by
        rw [tjSC_succ, ← hs1, hveq]
        show (if s2.low v = (s2.ids v).getD 0 then some (tjClose n v s2)
          else some s2) = some s3
        rw [if_pos hclose, hclose_eq]
      have hlowv2 : s2.low v = s.idx := by rw [hclose, hvid2']
      -- membership in the appended block list
      have hmem3 : ∀ k, k < s3.comps.length →
          (k < s2.comps.length ∧ ∀ x, inComp n (s3.comps.getD k ([], [])) x ↔
            inComp n (s2.comps.getD k ([], [])) x) ∨
          (k = s2.comps.length ∧ ∀ x, inComp n (s3.comps.getD k ([], [])) x ↔
            x ∈ news ++ [v]) := by
        intro k hk
        have hk' : k < s2.comps.length + 1 := by
          have : s3.comps.length = s2.comps.length + 1 := by
            show (s2.comps ++ [comp]).length = _
            rw [List.length_append, List.length_singleton]
          omega
        by_cases hkl : k < s2.comps.length
        · refine Or.inl ⟨hkl, fun x => ?_⟩
          show inComp n ((s2.comps ++ [comp]).getD k ([], [])) x ↔ _
          rw [getD_snoc_lt _ _ _ _ hkl]
        · have hkeq : k = s2.comps.length := by omega
          refine Or.inr ⟨hkeq, fun x => ?_⟩
          show inComp n ((s2.comps ++ [comp]).getD k ([], [])) x ↔ _
          rw [hkeq, getD_snoc_len]
          exact inComp_mkComp n (news ++ [v]) x
      have hlen3 : s3.comps.length = s2.comps.length + 1 := by
        show (s2.comps ++ [comp]).length = _
        rw [List.length_append, List.length_singleton]
      -- the no-escape property: a popped vertex has no neighbour left on the stack
      have hnoesc : ∀ x ∈ news ++ [v], ∀ y ∈ g x, y ∉ s.stk := by
        intro x hx y hy hystk
        have hy2stk : y ∈ s2.stk := by
          rw [hpopped]
          exact List.mem_append_right _ hystk
        have hylt : (s2.ids y).getD 0 < s.idx := hbound_sstk y hystk
        rcases (hpopmem x).mp hx with hxn | hxv
        · obtain ⟨_, hcap, hchain⟩ := hnews x hxn
          have hb := (hcap y hy).2 hy2stk
          have : s2.low v ≤ s2.low x := hchain
          omega
        · subst hxv
          have hb := (hcapv y hy).2 hy2stk
          omega
      have h3GI : TjGI g n N s3 := by
        refine ⟨q0, ?_, ?_, ?_, q5, q6, ?_, ?_, ?_, ?_⟩
        · show s.stk.Nodup
          have : ((news ++ [v]) ++ s.stk).Nodup := hpopped ▸ q1
          exact this.of_append_right
        · intro x
          show (if x ∈ news ++ [v] then false else s2.onStk x) = true ↔ x ∈ s.stk
          by_cases hx : x ∈ news ++ [v]
          · rw [if_pos hx]
            exact iff_of_false Bool.false_ne_true (hdisj x hx)
          · rw [if_neg hx, q2 x, hpopped, List.mem_append]
            constructor
            · rintro (h | h)
              · exact absurd h hx
              · exact h
            · exact Or.inr
        · intro x hx
          exact q3 x (by rw [hpopped]; exact List.mem_append_right _ hx)
        · intro k hk x hx
          rcases hmem3 k hk with ⟨hkl, hiff⟩ | ⟨hkeq, hiff⟩
          · obtain ⟨h1, h2, h3⟩ := q8 k hkl x ((hiff x).mp hx)
            refine ⟨h1, ?_, ?_⟩
            · intro hmem
              refine h2 ?_
              rw [hpopped]
              exact List.mem_append_right _ hmem
            intro j hj hjx
            rcases hmem3 j hj with ⟨hjl, hjiff⟩ | ⟨hjeq, hjiff⟩
            · exact h3 j hjl ((hjiff x).mp hjx)
            · exfalso
              exact h2 (hpopsub x ((hjiff x).mp hjx))
          · have hxpop : x ∈ news ++ [v] := (hiff x).mp hx
            refine ⟨q3 x (hpopsub x hxpop), hdisj x hxpop, ?_⟩
            intro j hj hjx
            rcases hmem3 j hj with ⟨hjl, hjiff⟩ | ⟨hjeq, hjiff⟩
            · exfalso
              obtain ⟨_, h2, _⟩ := q8 j hjl x ((hjiff x).mp hjx)
              exact h2 (hpopsub x hxpop)
            · omega
        · intro x hx
          rcases q8c x hx with hstk | ⟨k, hk, hkmem⟩
          · rw [hpopped, List.mem_append] at hstk
            rcases hstk with h | h
            · refine Or.inr ⟨s2.comps.length, by omega, ?_⟩
              have := hmem3 s2.comps.length (by omega)
              rcases this with ⟨hkl, _⟩ | ⟨_, hiff⟩
              · omega
              · exact (hiff x).mpr h
            · exact Or.inl h
          · refine Or.inr ⟨k, by omega, ?_⟩
            rcases hmem3 k (by omega) with ⟨_, hiff⟩ | ⟨hkeq, _⟩
            · exact (hiff x).mpr hkmem
            · omega
        · intro k hk x hx y hy
          rcases hmem3 k hk with ⟨hkl, hiff⟩ | ⟨hkeq, hiff⟩
          · obtain ⟨j, hj1, hj2, hj3⟩ := q9 k hkl x ((hiff x).mp hx) y hy
            refine ⟨j, hj1, by omega, ?_⟩
            rcases hmem3 j (by omega) with ⟨_, hjiff⟩ | ⟨hjeq, _⟩
            · exact (hjiff y).mpr hj3
            · omega
          · have hxpop : x ∈ news ++ [v] := (hiff x).mp hx
            have hysome : (s2.ids y).isSome := by
              rcases (hpopmem x).mp hxpop with hxn | hxv
              · exact ((hnews x hxn).2.1 y hy).1
              · subst hxv
                exact (hcapv y hy).1
            by_cases hy2 : y ∈ s2.stk
            · rw [hpopped, List.mem_append] at hy2
              rcases hy2 with h | h
              · refine ⟨k, le_refl _, hk, (hiff y).mpr h⟩
              · exact absurd h (hnoesc x hxpop y hy)
            · rcases q8c y hysome with h | ⟨j, hj, hjmem⟩
              · exact absurd h hy2
              · refine ⟨j, by omega, by omega, ?_⟩
                rcases hmem3 j (by omega) with ⟨_, hjiff⟩ | ⟨hjeq, _⟩
                · exact (hjiff y).mpr hjmem
                · omega
        · intro k hk
          by_cases hkl : k < s2.comps.length
          · have : (s2.comps ++ [comp]).getD k ([], []) = s2.comps.getD k ([], []) :=
              getD_snoc_lt _ _ _ _ hkl
            show BlockWF n N ((s2.comps ++ [comp]).getD k ([], []))
            rw [this]
            exact q10 k hkl
          · have hkeq : k = s2.comps.length := by
              rw [hlen3] at hk
              omega
            show BlockWF n N ((s2.comps ++ [comp]).getD k ([], []))
            rw [hkeq, getD_snoc_len]
            refine ⟨?_, ?_, ?_, ?_⟩
            · intro x hx
              rw [show comp.1 = sortedSet ((news ++ [v]).filter (fun w => w < n))
                from rfl, mem_sortedSet, List.mem_filter, decide_eq_true_eq] at hx
              exact hx.2
            · intro j hj
              rw [show comp.2 = sortedSet (((news ++ [v]).filter
                  (fun w => ¬ w < n)).map (fun w => w - n)) from rfl,
                mem_sortedSet, List.mem_map] at hj
              obtain ⟨w, hw, hwj⟩ := hj
              rw [List.mem_filter, decide_eq_true_eq] at hw
              have hwstk : w ∈ s2.stk := hpopsub w hw.1
              have hwN : w < N := q0 w (q3 w hwstk)
              omega
            · exact nodup_sortedSet _
            · exact nodup_sortedSet _
      refine ⟨s3, hrun, h3GI, hidsF2, hlowF2, ?_, hnew2, ?_, hv2some, hvid2', ?_,
        ⟨[], by simp, by simp⟩, Or.inl ⟨rfl, ?_⟩, ?_⟩
      · intro x hx _
        exact hpush2 x hx (by rw [hpopped]; exact List.mem_append_right _ (by assumption))
      · have hidx1 : s1.idx = s.idx + 1 := rfl
        have hidx3 : s3.idx = s2.idx := rfl
        omega
      · refine ⟨tail ++ [comp], ?_⟩
        show s2.comps ++ [comp] = s.comps ++ (tail ++ [comp])
        have : s1.comps = s.comps := rfl
        rw [vcomps, this, List.append_assoc]
      · show s2.low v = s.idx
        exact hlowv2
      · intro B _ hB2
        show B ≤ s2.low v
        omega
    · -- the component does not close here: v stays on the stack
      have hrun : tjSC g n (fuel + 1) v s = some s2 := by
        rw [tjSC_succ, ← hs1, hveq]
        show (if s2.low v = (s2.ids v).getD 0 then some (tjClose n v s2)
          else some s2) = some s2
        rw [if_neg hclose]
      have hlowlt : s2.low v < s.idx := by
        have h1 : s2.low v ≤ (s2.ids v).getD 0 := q5 v hv2some
        rw [hvid2'] at h1
        omega
      refine ⟨s2, hrun, vGI, hidsF2, hlowF2, hpush2, hnew2, ?_, hv2some, hvid2',
        ?_, ?_, Or.inr ⟨news ++ [v], hpopped, List.mem_append_right _
          (List.mem_singleton.mpr rfl), hlowlt, ?_⟩, ?_⟩
      · have hidx1 : s1.idx = s.idx + 1 := rfl
        omega
      · refine ⟨tail, ?_⟩
        show s2.comps = s.comps ++ tail
        have : s1.comps = s.comps := rfl
        rw [vcomps, this]
      · refine ⟨news ++ [v], hpopped, ?_⟩
        intro x hx
        rcases (hpopmem x).mp hx with h | h
        · exact hnewsS x h
        · subst h
          intro hc
          rw [hv] at hc
          exact Bool.false_ne_true hc
      · intro x hx
        rcases (hpopmem x).mp hx with h | h
        · obtain ⟨_, hcap, hchain⟩ := hnews x h
          exact ⟨hcap, hchain⟩
        · subst h
          exact ⟨fun y hy => hcapv y hy, le_refl _⟩
      · intro B hB hBidx
        have := vL B ?_ ?_
        · exact this
        · intro x hx
          have hx2 : x = v ∨ x ∈ s.stk := List.mem_cons.mp hx
          rcases hx2 with rfl | hxs
          · rw [hv1id]
            exact hBidx
          · have hxv : ¬ x = v := by
              intro h
              rw [h] at hxs
              have := g3 v hxs
              rw [hv] at this
              exact Bool.false_ne_true this
            rw [hids1 x, if_neg hxv]
            exact hB x hxs
        · rw [hv1low]
          exact hBidx

theorem unvis_le (N : Nat) (s : TjSt) : unvis N s ≤ N := by
  rw [unvis]
  calc ((List.range N).filter (fun x => s.ids x = none)).length ≤
      (List.range N).length := List.length_filter_le _ _
    _ = N := List.length_range N

theorem tjGI_init (g : Nat → List Nat) (n N : Nat) : TjGI g n N tjInit := by
  refine ⟨?_, ?_, ?_, ?_, ?_, ?_, ?_, ?_, ?_, ?_⟩ <;>
    simp [tjInit, compsMem]

theorem tjLoop_spec (g : Nat → List Nat) (n N : Nat)
    (Hg : ∀ x, ∀ y ∈ g x, y < N) :
    ∀ vs s, TjGI g n N s → s.stk = [] → (∀ v ∈ vs, v < N) →
      ∃ s', tjLoop g n N vs s = some s' ∧ TjGI g n N s' ∧ s'.stk = [] ∧
        (∀ x, (s.ids x).isSome → (s'.ids x).isSome) ∧
        (∀ v ∈ vs, (s'.ids v).isSome) := by
  intro vs
  induction vs with
  | nil =>
    intro s hGI hstk _
    exact ⟨s, rfl, hGI, hstk, fun x hx => hx, by simp⟩
  | cons v vs ih =>
    intro s hGI hstk hvsN
    by_cases hv : s.ids v = none
    · obtain ⟨t, hteq, tGI, tidsF, _, _, tnew, _, tvsome, _, _, _, tdich, tL⟩ :=
        tjSC_spec g n N Hg (N + 1) v s hGI hv (hvsN v (List.mem_cons_self _ _))
          (by have := unvis_le N s; omega)
      have htstk : t.stk = [] := by
        rcases tdich with ⟨ha, _⟩ | ⟨news, hb, hvmem, hlt, _⟩
        · rw [ha, hstk]
        · exfalso
          have := tL s.idx (by rw [hstk]; simp) (le_refl _)
          omega
      have hmono : ∀ x, (s.ids x).isSome → (t.ids x).isSome := by
        intro x hx
        rw [tidsF x hx]
        exact hx
      obtain ⟨s', hrun, pGI, pstk, pmono, pvs⟩ :=
        ih t tGI htstk (fun x hx => hvsN x (List.mem_cons_of_mem _ hx))
      have heq : tjLoop g n N (v :: vs) s = tjLoop g n N vs t := by
        rw [tjLoop, if_pos hv, hteq]
      refine ⟨s', heq ▸ hrun, pGI, pstk, fun x hx => pmono x (hmono x hx), ?_⟩
      intro w hw
      rcases List.mem_cons.mp hw with rfl | hw
      · exact pmono w tvsome
      · exact pvs w hw
    · have hsome : (s.ids v).isSome := Option.isSome_iff_ne_none.mpr hv
      obtain ⟨s', hrun, pGI, pstk, pmono, pvs⟩ :=
        ih s hGI hstk (fun x hx => hvsN x (List.mem_cons_of_mem _ hx))
      have heq : tjLoop g n N (v :: vs) s = tjLoop g n N vs s := by
        rw [tjLoop, if_neg hv]
      refine ⟨s', heq ▸ hrun, pGI, pstk, pmono, ?_⟩
      intro w hw
      rcases List.mem_cons.mp hw with rfl | hw
      · exact pmono w hsome
      · exact pvs w hw

/-- The raw Tarjan pass: the recorded blocks partition the vertex set,
cross-block edges point to strictly earlier (close-order) blocks, and every
block is well-formed. -/
theorem tjRun_final (g : Nat → List Nat) (n N : Nat)
    (Hg : ∀ x, ∀ y ∈ g x, y < N) :
    ∃ s', tjLoop g n N (List.range N) tjInit = some s' ∧
      (∀ x, x < N → ∃ k, k < s'.comps.length ∧
        inComp n (s'.comps.getD k ([], [])) x ∧
        ∀ j, j < s'.comps.length → inComp n (s'.comps.getD j ([], [])) x →
          j = k) ∧
      (∀ k, k < s'.comps.length → ∀ x, inComp n (s'.comps.getD k ([], [])) x →
        x < N) ∧
      (∀ k, k < s'.comps.length → ∀ x, inComp n (s'.comps.getD k ([], [])) x →
        ∀ y ∈ g x, ∃ j, j ≤ k ∧ j < s'.comps.length ∧
          inComp n (s'.comps.getD j ([], [])) y) ∧
      (∀ k, k < s'.comps.length → BlockWF n N (s'.comps.getD k ([], []))) := by
  obtain ⟨s', hrun, pGI, pstk, _, pvs⟩ :=
    tjLoop_spec g n N Hg (List.range N) tjInit (tjGI_init g n N) rfl
      (fun v hv => List.mem_range.mp hv)
  obtain ⟨p0, _, _, _, _, _, p8, p8c, p9, p10⟩ := pGI
  refine ⟨s', hrun, ?_, ?_, p9, p10⟩
  · intro x hx
    have hxsome : (s'.ids x).isSome := pvs x (List.mem_range.mpr hx)
    rcases p8c x hxsome with hmem | ⟨k, hk, hkmem⟩
    · rw [pstk] at hmem
      exact absurd hmem (List.not_mem_nil x)
    · exact ⟨k, hk, hkmem, fun j hj hjx => (p8 k hk x hkmem).2.2 j hj hjx⟩
  · intro k hk x hx
    exact p0 x ((p8 k hk x hx).1)

/-! ### Condensation graph lemmas -/

theorem getLast?_all_eq {α : Type} (k : α) :
    ∀ (l : List α), l ≠ [] → (∀ a ∈ l, a = k) → l.getLast? = some k := by
  intro l
  induction l with
  | nil => intro h; exact absurd rfl h
  | cons a l ih =>
    intro _ hall
    cases l with
    | nil =>
      rw [List.getLast?_singleton]
      exact congrArg some (hall a (List.mem_singleton.mpr rfl))
    | cons b l' =>
      rw [List.getLast?_cons_cons]
      exact ih (List.cons_ne_nil _ _)
        (fun x hx => hall x (List.mem_cons_of_mem _ hx))

theorem mem_getD_of_mem (l : List Nat) (u : Nat) (h : u ∈ l) :
    ∃ i, i < l.length ∧ l.getD i 0 = u := by
  obtain ⟨i, hi, hget⟩ := List.getElem_of_mem h
  refine ⟨i, hi, ?_⟩
  rw [List.getD_eq_getElem l 0 hi]
  exact hget

theorem getD_mem_of_lt (l : List Nat) (i : Nat) (h : i < l.length) :
    l.getD i 0 ∈ l := by
  rw [List.getD_eq_getElem l 0 h]
  exact l.getElem_mem h

theorem v2s_eq_some (n : Nat) (comps : List Block) (x k : Nat)
    (hk : k < comps.length) (hmem : inComp n (comps.getD k ([], [])) x)
    (huniq : ∀ j, j < comps.length → inComp n (comps.getD j ([], [])) x → j = k) :
    v2s n comps x = some k := by
  rw [v2s]
  refine getLast?_all_eq k _ ?_ ?_
  · intro hnil
    have : k ∈ (List.range comps.length).filter
        (fun j => inComp n (comps.getD j ([], [])) x) := by
      rw [List.mem_filter, decide_eq_true_eq]
      exact ⟨List.mem_range.mpr hk, hmem⟩
    rw [hnil] at this
    exact absurd this (List.not_mem_nil k)
  · intro j hj
    rw [List.mem_filter, decide_eq_true_eq] at hj
    exact huniq j (List.mem_range.mp hj.1) hj.2

theorem v2s_some_inv (n : Nat) (comps : List Block) (x a : Nat)
    (h : v2s n comps x = some a) :
    a < comps.length ∧ inComp n (comps.getD a ([], [])) x := by
  rw [v2s] at h
  have hmem0 : a ∈ ((List.range comps.length).filter
      (fun j => inComp n (comps.getD j ([], [])) x)).getLast? := h
  obtain ⟨hne, heq⟩ := List.mem_getLast?_eq_getLast hmem0
  have hmem : a ∈ (List.range comps.length).filter
      (fun j => inComp n (comps.getD j ([], [])) x) := by
    rw [heq]
    exact List.getLast_mem hne
  rw [List.mem_filter, decide_eq_true_eq] at hmem
  exact ⟨List.mem_range.mp hmem.1, hmem.2⟩

theorem sccEdges_mem (g : Nat → List Nat) (n N : Nat) (comps : List Block)
    (a b : Nat) :
    (a, b) ∈ sccEdges g n N comps ↔
      ∃ v w, v < N ∧ w ∈ g v ∧ v2s n comps v = some a ∧
        v2s n comps w = some b ∧ a ≠ b := by
  rw [sccEdges, List.mem_flatMap]
  constructor
  · rintro ⟨v, hv, hmem⟩
    rw [List.mem_range] at hv
    rcases hv2s : v2s n comps v with _ | a'
    · rw [hv2s] at hmem
      exact absurd hmem (List.not_mem_nil _)
    · rw [hv2s] at hmem
      have hmem2 : (a, b) ∈ (g v).filterMap (fun w =>
          match v2s n comps w with
          | none => none
          | some b2 => if a' ≠ b2 then some (a', b2) else none) := hmem
      rw [List.mem_filterMap] at hmem2
      obtain ⟨w, hw, hwm⟩ := hmem2
      rcases hw2s : v2s n comps w with _ | b'
      · rw [hw2s] at hwm
        exact absurd hwm (by simp)
      · rw [hw2s] at hwm
        have hwm2 : (if a' ≠ b' then some (a', b') else none) =
            some (a, b) := hwm
        by_cases hab : a' ≠ b'
        · rw [if_pos hab] at hwm2
          have hpair : a' = a ∧ b' = b := by
            have := Option.some.inj hwm2
            exact ⟨congrArg Prod.fst this, congrArg Prod.snd this⟩
          obtain ⟨rfl, rfl⟩ := hpair
          exact ⟨v, w, hv, hw, hv2s, hw2s, hab⟩
        · rw [if_neg hab] at hwm2
          exact absurd hwm2 (by simp)
  · rintro ⟨v, w, hv, hw, hv2s, hw2s, hab⟩
    refine ⟨v, List.mem_range.mpr hv, ?_⟩
    rw [hv2s]
    show (a, b) ∈ (g v).filterMap (fun w =>
      match v2s n comps w with
      | none => none
      | some b2 => if a ≠ b2 then some (a, b2) else none)
    rw [List.mem_filterMap]
    refine ⟨w, hw, ?_⟩
    rw [hw2s]
    show (if a ≠ b then some (a, b) else none) = some (a, b)
    rw [if_pos hab]

theorem sccSuccs_mem (g : Nat → List Nat) (n N : Nat) (comps : List Block)
    (a b : Nat) :
    b ∈ sccSuccs g n N comps a ↔ (a, b) ∈ sccEdges g n N comps := by
  rw [sccSuccs, mem_sortedSet]
  constructor
  · intro h
    rw [List.mem_map] at h
    obtain ⟨p, hp, hpb⟩ := h
    rw [List.mem_filter, decide_eq_true_eq] at hp
    have : p = (a, b) := by
      obtain ⟨hp1, hp2⟩ := hp
      rw [Prod.ext_iff]
      exact ⟨hp2, hpb⟩
    exact this ▸ hp.1
  · intro h
    rw [List.mem_map]
    exact ⟨(a, b), by rw [List.mem_filter, decide_eq_true_eq]; exact ⟨h, rfl⟩, rfl⟩

/-- Under the Tarjan close-order facts, condensation edges decrease. -/
theorem sccEdges_decreasing (g : Nat → List Nat) (n N : Nat) (comps : List Block)
    (hclosure : ∀ k, k < comps.length → ∀ x,
      inComp n (comps.getD k ([], [])) x →
      ∀ y ∈ g x, ∃ j, j ≤ k ∧ j < comps.length ∧
        inComp n (comps.getD j ([], [])) y)
    (huniq : ∀ x, ∀ k j, k < comps.length → j < comps.length →
      inComp n (comps.getD k ([], [])) x → inComp n (comps.getD j ([], [])) x →
      j = k)
    (a b : Nat) (h : (a, b) ∈ sccEdges g n N comps) : b < a := by
  obtain ⟨v, w, _, hw, hv2s, hw2s, hab⟩ := (sccEdges_mem g n N comps a b).mp h
  obtain ⟨ha, hamem⟩ := v2s_some_inv n comps v a hv2s
  obtain ⟨hb, hbmem⟩ := v2s_some_inv n comps w b hw2s
  obtain ⟨j, hj1, hj2, hj3⟩ := hclosure a ha v hamem w hw
  have : j = b := huniq w b j hb hj2 hbmem hj3
  omega

/-! ### Kahn's algorithm -/

theorem kahnFold_spec :
    ∀ (vs : List Nat), vs.Nodup → ∀ (ind : Nat → Int) (acc : List Nat),
      (∀ x, (vs.foldl (fun (p : (Nat → Int) × List Nat) v =>
        let dv := p.1 v - 1
        (fun x => if x = v then dv else p.1 x,
         if dv = 0 then p.2 ++ [v] else p.2)) (ind, acc)).1 x =
        if x ∈ vs then ind x - 1 else ind x) ∧
      (vs.foldl (fun (p : (Nat → Int) × List Nat) v =>
        let dv := p.1 v - 1
        (fun x => if x = v then dv else p.1 x,
         if dv = 0 then p.2 ++ [v] else p.2)) (ind, acc)).2 =
        acc ++ vs.filter (fun v => ind v - 1 = 0) := by
  intro vs
  induction vs with
  | nil =>
    intro _ ind acc
    exact ⟨fun x => by simp, by simp⟩
  | cons v vs ih =>
    intro hnd ind acc
    have hvnotin : v ∉ vs := (List.nodup_cons.mp hnd).1
    have hnd2 : vs.Nodup := (List.nodup_cons.mp hnd).2
    have hstep : ((v :: vs).foldl (fun (p : (Nat → Int) × List Nat) v =>
        let dv := p.1 v - 1
        (fun x => if x = v then dv else p.1 x,
         if dv = 0 then p.2 ++ [v] else p.2)) (ind, acc)) =
        (vs.foldl (fun (p : (Nat → Int) × List Nat) v =>
        let dv := p.1 v - 1
        (fun x => if x = v then dv else p.1 x,
         if dv = 0 then p.2 ++ [v] else p.2))
          (fun x => if x = v then ind v - 1 else ind x,
           if ind v - 1 = 0 then acc ++ [v] else acc)) := rfl
    obtain ⟨ih1, ih2⟩ := ih hnd2 (fun x => if x = v then ind v - 1 else ind x)
      (if ind v - 1 = 0 then acc ++ [v] else acc)
    constructor
    · intro x
      rw [hstep, ih1 x]
      by_cases hxv : x = v
      · subst hxv
        rw [if_neg hvnotin, if_pos rfl, if_pos (List.mem_cons_self _ _)]
      · by_cases hxvs : x ∈ vs
        · rw [if_pos hxvs, if_neg hxv, if_pos (List.mem_cons_of_mem _ hxvs)]
        · rw [if_neg hxvs, if_neg hxv,
            if_neg (fun h => (List.mem_cons.mp h).elim hxv hxvs)]
    · rw [hstep, ih2]
      have hfc : vs.filter (fun w =>
          decide ((if w = v then ind v - 1 else ind w) - 1 = 0)) =
          vs.filter (fun w => decide (ind w - 1 = 0)) := by
        refine List.filter_congr ?_
        intro w hw
        have hwv : ¬ w = v := fun h => hvnotin (h ▸ hw)
        rw [if_neg hwv]
      rw [hfc, List.filter_cons]
      by_cases hzero : ind v - 1 = 0
      · rw [if_pos hzero]
        have : (decide (ind v - 1 = 0)) = true := decide_eq_true hzero
        rw [this]
        simp
      · rw [if_neg hzero]
        have : (decide (ind v - 1 = 0)) = false :=
          decide_eq_false hzero
        rw [this]
        simp

theorem nodup_length_le (l : List Nat) (K : Nat) (hnd : l.Nodup)
    (hr : ∀ v ∈ l, v < K) : l.length ≤ K := by
  have h1 : l.toFinset.card = l.length := List.toFinset_card_of_nodup hnd
  have h2 : l.toFinset ⊆ Finset.range K := by
    intro x hx
    exact Finset.mem_range.mpr (hr x (List.mem_toFinset.mp hx))
  have := Finset.card_le_card h2
  rw [Finset.card_range] at this
  omega

/-- The in-degree counting argument: the processed in-neighbours of `v`
number one less than all of them iff `u0` is the only unprocessed one. -/
theorem inNbr_count (succs : Nat → List Nat) (K : Nat) (out : List Nat)
    (v u0 : Nat) (hnd : out.Nodup) (hsub : ∀ u ∈ out, u < K) (hu0K : u0 < K)
    (hu0out : u0 ∉ out) (hu0nbr : v ∈ succs u0) :
    ((out.filter (fun u => v ∈ succs u)).length : Int) =
        indeg0 succs K v - 1 ↔
      ∀ u, u < K → v ∈ succs u → u = u0 ∨ u ∈ out := by
  have hlen1 : (out.filter (fun u => v ∈ succs u)).length =
      (out.toFinset.filter (fun u => v ∈ succs u)).card := by
    rw [← List.toFinset_card_of_nodup (hnd.filter _)]
    congr 1
    ext x
    simp [List.mem_filter]
  have hlen2 : indeg0 succs K v =
      (((Finset.range K).filter (fun u => v ∈ succs u)).card : Int) := by
    rw [indeg0]
    have h : ((List.range K).filter (fun u => v ∈ succs u)).length =
        ((Finset.range K).filter (fun u => v ∈ succs u)).card := by
      rw [← List.toFinset_card_of_nodup ((List.nodup_range K).filter _)]
      congr 1
      ext x
      simp [List.mem_filter, List.mem_range]
    rw [h]
  set B := out.toFinset.filter (fun u => v ∈ succs u) with hB
  set A := (Finset.range K).filter (fun u => v ∈ succs u) with hA
  have hBA : B ⊆ A := by
    intro u hu
    rw [hB, Finset.mem_filter, List.mem_toFinset] at hu
    rw [hA, Finset.mem_filter, Finset.mem_range]
    exact ⟨hsub u hu.1, hu.2⟩
  have hu0A : u0 ∈ A := by
    rw [hA, Finset.mem_filter, Finset.mem_range]
    exact ⟨hu0K, hu0nbr⟩
  have hu0B : u0 ∉ B := by
    rw [hB, Finset.mem_filter, List.mem_toFinset]
    exact fun h => hu0out h.1
  constructor
  · intro hcard u huK hunbr
    have hcard2 : B.card = A.card - 1 := by
      have hpos : 0 < A.card := Finset.card_pos.mpr ⟨u0, hu0A⟩
      rw [hlen1, hlen2] at hcard
      omega
    have hins : insert u0 B ⊆ A := by
      intro x hx
      rcases Finset.mem_insert.mp hx with rfl | hx
      · exact hu0A
      · exact hBA hx
    have hcardins : (insert u0 B).card = A.card := by
      rw [Finset.card_insert_of_not_mem hu0B, hcard2]
      have hpos : 0 < A.card := Finset.card_pos.mpr ⟨u0, hu0A⟩
      omega
    have hAeq : A = insert u0 B :=
      (Finset.eq_of_subset_of_card_le hins hcardins.ge).symm
    have huA : u ∈ A := by
      rw [hA, Finset.mem_filter, Finset.mem_range]
      exact ⟨huK, hunbr⟩
    rw [hAeq] at huA
    rcases Finset.mem_insert.mp huA with rfl | huB
    · exact Or.inl rfl
    · rw [hB, Finset.mem_filter, List.mem_toFinset] at huB
      exact Or.inr huB.1
  · intro hall
    have hsub2 : A ⊆ insert u0 B := by
      intro x hx
      rw [hA, Finset.mem_filter, Finset.mem_range] at hx
      rcases hall x hx.1 hx.2 with rfl | hout
      · exact Finset.mem_insert_self _ _
      · refine Finset.mem_insert_of_mem ?_
        rw [hB, Finset.mem_filter, List.mem_toFinset]
        exact ⟨hout, hx.2⟩
    have hsub3 : B ⊆ A.erase u0 := by
      intro x hx
      rw [Finset.mem_erase]
      exact ⟨fun h => hu0B (h ▸ hx), hBA hx⟩
    have h1 : A.card ≤ B.card + 1 := by
      have := Finset.card_le_card hsub2
      rw [Finset.card_insert_of_not_mem hu0B] at this
      omega
    have h2 : B.card ≤ A.card - 1 := by
      have := Finset.card_le_card hsub3
      rw [Finset.card_erase_of_mem hu0A] at this
      omega
    have hpos : 0 < A.card := Finset.card_pos.mpr ⟨u0, hu0A⟩
    rw [hlen1, hlen2]
    omega

theorem kahnLoop_spec (succs : Nat → List Nat) (K : Nat)
    (hnd : ∀ u, (succs u).Nodup) (hrange : ∀ u, ∀ v ∈ succs u, v < K) :
    ∀ fuel queue out ind, KahnInv succs K queue out ind →
      K + 1 ≤ fuel + out.length →
      ∃ res ind2, kahnLoop succs fuel queue out ind = some res ∧
        (∃ ext, res = out ++ ext) ∧ KahnInv succs K [] res ind2 := by
  intro fuel
  induction fuel with
  | zero =>
    intro queue out ind hinv hfuel
    exfalso
    obtain ⟨k1, k2, _, _, _⟩ := hinv
    have := nodup_length_le out K (k1.of_append_left)
      (fun v hv => k2 v (List.mem_append_left _ hv))
    omega
  | succ fuel ih =>
    intro queue out ind hinv hfuel
    obtain ⟨k1, k2, k3, k4, k5⟩ := hinv
    cases queue with
    | nil =>
      refine ⟨out, ind, rfl, ⟨[], (List.append_nil out).symm⟩, k1, k2, k3, k4, k5⟩
    | cons u0 q =>
      have hu0mem : u0 ∈ out ++ u0 :: q :=
        List.mem_append_right _ (List.mem_cons_self _ _)
      have hu0K : u0 < K := k2 u0 hu0mem
      have hu0out : u0 ∉ out := by
        intro h
        have hd := List.disjoint_of_nodup_append k1
        exact hd h (List.mem_cons_self _ _)
      obtain ⟨hf1, hf2⟩ := kahnFold_spec (succs u0) (hnd u0) ind []
      set appended := (succs u0).filter (fun v => ind v - 1 = 0) with happ
      set ind2 := fun x => if x ∈ succs u0 then ind x - 1 else ind x with hind2
      have hstep1 : ((succs u0).foldl (fun (p : (Nat → Int) × List Nat) v =>
          let dv := p.1 v - 1
          (fun x => if x = v then dv else p.1 x,
           if dv = 0 then p.2 ++ [v] else p.2)) (ind, [])).1 = ind2 :=
        funext hf1
      have hstep2 : ((succs u0).foldl (fun (p : (Nat → Int) × List Nat) v =>
          let dv := p.1 v - 1
          (fun x => if x = v then dv else p.1 x,
           if dv = 0 then p.2 ++ [v] else p.2)) (ind, [])).2 = appended := by
        rw [hf2]
        simp [happ]
      have heq : kahnLoop succs (fuel + 1) (u0 :: q) out ind =
          kahnLoop succs fuel (q ++ appended) (out ++ [u0]) ind2 := by
        rw [kahnLoop, hstep1, hstep2]
      -- freshness of the newly enqueued components
      have hfresh : ∀ a ∈ appended, a ∉ out ++ u0 :: q := by
        intro a ha hmem
        rw [happ, List.mem_filter, decide_eq_true_eq] at ha
        have haK : a < K := hrange u0 a ha.1
        have := (k4 a haK).mp hmem u0 hu0K ha.1
        exact hu0out this
      have happnd : appended.Nodup := (hnd u0).filter _
      have hreshape : out ++ u0 :: q = (out ++ [u0]) ++ q := by
        rw [List.append_assoc, List.singleton_append]
      have hk1' : ((out ++ [u0]) ++ (q ++ appended)).Nodup := by
        rw [← List.append_assoc, ← hreshape]
        rw [List.nodup_append]
        refine ⟨k1, happnd, ?_⟩
        intro a ha ha'
        exact hfresh a ha' ha
      have hmemsplit : ∀ x, x ∈ (out ++ [u0]) ++ (q ++ appended) ↔
          x ∈ out ++ u0 :: q ∨ x ∈ appended := by
        intro x
        rw [hreshape]
        simp only [List.mem_append]
        tauto
      have hinv' : KahnInv succs K (q ++ appended) (out ++ [u0]) ind2 := by
        refine ⟨hk1', ?_, ?_, ?_, ?_⟩
        · intro x hx
          rcases (hmemsplit x).mp hx with h | h
          · exact k2 x h
          · rw [happ, List.mem_filter, decide_eq_true_eq] at h
            exact hrange u0 x h.1
        · intro x hxK
          have hind2x : ind2 x = if x ∈ succs u0 then ind x - 1 else ind x := rfl
          have hfl : ((out ++ [u0]).filter (fun u => x ∈ succs u)).length =
              (out.filter (fun u => x ∈ succs u)).length +
                (if x ∈ succs u0 then 1 else 0) := by
            rw [List.filter_append, List.length_append]
            by_cases hx : x ∈ succs u0 <;> simp [hx]
          rw [hind2x, hfl, k3 x hxK]
          by_cases hx : x ∈ succs u0 <;> simp [hx] <;> push_cast <;> omega
        · intro v hvK
          constructor
          · intro hv u huK hunbr
            rcases (hmemsplit v).mp hv with h | h
            · have := (k4 v hvK).mp h u huK hunbr
              exact List.mem_append_left _ this
            · rw [happ, List.mem_filter, decide_eq_true_eq] at h
              have hcnt : ((out.filter (fun u => v ∈ succs u)).length : Int) =
                  indeg0 succs K v - 1 := by
                have := k3 v hvK
                omega
              have := (inNbr_count succs K out v u0 k1.of_append_left
                (fun u hu => k2 u (List.mem_append_left _ hu)) hu0K hu0out
                  h.1).mp hcnt u huK hunbr
              rcases this with rfl | hout
              · exact List.mem_append_right _ (List.mem_singleton.mpr rfl)
              · exact List.mem_append_left _ hout
          · intro hall
            by_cases hcase : ∀ u, u < K → v ∈ succs u → u ∈ out
            · have := (k4 v hvK).mpr hcase
              rw [hmemsplit v]
              left
              exact this
            · push_neg at hcase
              obtain ⟨u, huK, hunbr, hunotout⟩ := hcase
              have hu : u = u0 := by
                have := hall u huK hunbr
                rcases List.mem_append.mp this with h | h
                · exact absurd h hunotout
                · exact List.mem_singleton.mp h
              subst hu
              have hallu0 : ∀ w, w < K → v ∈ succs w → w = u ∨ w ∈ out := by
                intro w hwK hwnbr
                have := hall w hwK hwnbr
                rcases List.mem_append.mp this with h | h
                · exact Or.inr h
                · exact Or.inl (List.mem_singleton.mp h)
              have hcnt := (inNbr_count succs K out v u k1.of_append_left
                (fun w hw => k2 w (List.mem_append_left _ hw)) huK hunotout
                  hunbr).mpr hallu0
              have hind1 : ind v = 1 := by
                have := k3 v hvK
                omega
              rw [hmemsplit v]
              right
              rw [happ, List.mem_filter, decide_eq_true_eq]
              exact ⟨hunbr, by omega⟩
        · intro j hj u huK hunbr
          rw [List.length_append, List.length_singleton] at hj
          by_cases hjl : j < out.length
          · obtain ⟨i, hi, hieq⟩ := k5 j hjl u huK (by
              rwa [List.getD_append _ _ _ _ hjl] at hunbr)
            refine ⟨i, hi, ?_⟩
            rw [List.getD_append _ _ _ _ (by omega)]
            exact hieq
          · have hjeq : j = out.length := by omega
            subst hjeq
            have hu0get : (out ++ [u0]).getD out.length 0 = u0 :=
              getD_snoc_len out u0 0
            rw [hu0get] at hunbr
            have huout : u ∈ out := (k4 u0 hu0K).mp hu0mem u huK hunbr
            obtain ⟨i, hi, hieq⟩ := mem_getD_of_mem out u huout
            refine ⟨i, by omega, ?_⟩
            rw [List.getD_append _ _ _ _ hi]
            exact hieq
      obtain ⟨res, indf, hrun, ⟨ext, hext⟩, hfin⟩ :=
        ih (q ++ appended) (out ++ [u0]) ind2 hinv'
          (by rw [List.length_append, List.length_singleton]; omega)
      refine ⟨res, indf, heq ▸ hrun, ⟨[u0] ++ ext, ?_⟩, hfin⟩
      rw [hext, List.append_assoc]

theorem indeg0_eq_zero_iff (succs : Nat → List Nat) (K v : Nat) :
    indeg0 succs K v = 0 ↔ ∀ u, u < K → v ∉ succs u := by
  rw [indeg0, Nat.cast_eq_zero, List.length_eq_zero, List.filter_eq_nil]
  constructor
  · intro h u huK hv
    exact h u (List.mem_range.mpr huK) (decide_eq_true hv)
  · intro h u hu hv
    exact h u (List.mem_range.mp hu) (of_decide_eq_true hv)

/-- The invariant holds at the start of Kahn's loop. -/
theorem kahnInv_init (succs : Nat → List Nat) (K : Nat) :
    KahnInv succs K ((List.range K).filter (fun i => indeg0 succs K i = 0)) []
      (fun v => indeg0 succs K v) := by
  refine ⟨?_, ?_, ?_, ?_, ?_⟩
  · rw [List.nil_append]
    exact (List.nodup_range K).filter _
  · intro v hv
    rw [List.nil_append, List.mem_filter] at hv
    exact List.mem_range.mp hv.1
  · intro v _
    simp
  · intro v hvK
    rw [List.nil_append, List.mem_filter]
    constructor
    · intro h u huK hunbr
      obtain ⟨_, h2⟩ := h
      rw [decide_eq_true_eq] at h2
      exact absurd hunbr ((indeg0_eq_zero_iff succs K v).mp h2 u huK)
    · intro h
      refine ⟨List.mem_range.mpr hvK, ?_⟩
      rw [decide_eq_true_eq, indeg0_eq_zero_iff]
      intro u huK hunbr
      exact absurd (h u huK hunbr) (List.not_mem_nil u)
  · intro j hj
    exact absurd hj (by simp)

/-- If condensation edges strictly decrease, every component id appears in
the final Kahn output. -/
theorem kahn_complete (succs : Nat → List Nat) (K : Nat) (res : List Nat)
    (ind2 : Nat → Int) (hinv : KahnInv succs K [] res ind2)
    (hdec : ∀ a, ∀ b ∈ succs a, b < a) :
    ∀ v, v < K → v ∈ res := by
  obtain ⟨_, _, _, k4, _⟩ := hinv
  have k4r : ∀ v, v < K → (v ∈ res ↔ ∀ u, u < K → v ∈ succs u → u ∈ res) := by
    intro v hv
    have h := k4 v hv
    rwa [List.append_nil] at h
  have main : ∀ d v, K - v ≤ d → v < K → v ∈ res := by
    intro d
    induction d with
    | zero => intro v h1 h2; omega
    | succ d ihd =>
      intro v h1 h2
      refine (k4r v h2).mpr ?_
      intro u huK hunbr
      have : v < u := hdec u v hunbr
      exact ihd u (by omega) huK
  intro v hv
  exact main (K - v) v le_rfl hv

theorem getD_mem_of_lt_gen {α : Type} (l : List α) (d : α) (i : Nat)
    (h : i < l.length) : l.getD i d ∈ l := by
  rw [List.getD_eq_getElem l d h]
  exact l.getElem_mem h

theorem sccSuccs_bounded (g : Nat → List Nat) (n N : Nat) (comps : List Block) :
    ∀ u, ∀ v ∈ sccSuccs g n N comps u, v < comps.length := by
  intro u v hv
  obtain ⟨_, w, _, _, _, hw2s, _⟩ :=
    (sccEdges_mem g n N comps u v).mp ((sccSuccs_mem g n N comps u v).mp hv)
  exact (v2s_some_inv n comps w v hw2s).1

/-- `_topological_sort_sccs` always returns normally, and every output block
is one of the input blocks (a cycle in the condensation would merely be
dropped, not reported). -/
theorem topoSortSccs_total (g : Nat → List Nat) (n N : Nat)
    (comps : List Block) :
    ∃ l, topoSortSccs g n N comps = some l ∧ ∀ b ∈ l, b ∈ comps := by
  set K := comps.length with hK
  set sccG := sccSuccs g n N comps with hsccG
  obtain ⟨res, ind2, hrun, _, hfin⟩ := kahnLoop_spec sccG K
    (fun u => nodup_sortedSet _) (sccSuccs_bounded g n N comps) (K + 1)
    ((List.range K).filter (fun i => indeg0 sccG K i = 0)) []
    (fun v => indeg0 sccG K v) (kahnInv_init sccG K) (by simp)
  refine ⟨res.map (fun i => comps.getD i ([], [])), ?_, ?_⟩
  · rw [topoSortSccs]
    show (match kahnLoop sccG (K + 1)
        ((List.range K).filter (fun i => indeg0 sccG K i = 0)) []
        (fun v => indeg0 sccG K v) with
      | none => none
      | some order => some (order.map (fun i => comps.getD i ([], [])))) =
      some (res.map (fun i => comps.getD i ([], [])))
    rw [hrun]
  · intro b hb
    rw [List.mem_map] at hb
    obtain ⟨i, hi, hib⟩ := hb
    obtain ⟨_, f2, _, _, _⟩ := hfin
    have hiK : i < K := f2 i (by rw [List.append_nil]; exact hi)
    rw [← hib]
    exact getD_mem_of_lt_gen comps ([], []) i hiK

/-- Under decreasing condensation edges (as delivered by the Tarjan run),
`_topological_sort_sccs` emits every block exactly once, in an order where
the source component of any condensation edge comes strictly earlier. -/
theorem topoSortSccs_order (g : Nat → List Nat) (n N : Nat)
    (comps : List Block)
    (hdec : ∀ a b, (a, b) ∈ sccEdges g n N comps → b < a) :
    ∃ order : List Nat, topoSortSccs g n N comps =
        some (order.map (fun i => comps.getD i ([], []))) ∧
      order.Nodup ∧ (∀ i ∈ order, i < comps.length) ∧
      (∀ i, i < comps.length → i ∈ order) ∧
      (∀ j, j < order.length → ∀ a, a < comps.length →
        (a, order.getD j 0) ∈ sccEdges g n N comps →
        ∃ i, i < j ∧ order.getD i 0 = a) := by
  set K := comps.length with hK
  set sccG := sccSuccs g n N comps with hsccG
  obtain ⟨res, ind2, hrun, _, hfin⟩ := kahnLoop_spec sccG K
    (fun u => nodup_sortedSet _) (sccSuccs_bounded g n N comps) (K + 1)
    ((List.range K).filter (fun i => indeg0 sccG K i = 0)) []
    (fun v => indeg0 sccG K v) (kahnInv_init sccG K) (by simp)
  have hcomplete := kahn_complete sccG K res ind2 hfin
    (fun a b hb => hdec a b ((sccSuccs_mem g n N comps a b).mp hb))
  obtain ⟨f1, f2, _, _, f5⟩ := hfin
  refine ⟨res, ?_, ?_, ?_, hcomplete, ?_⟩
  · rw [topoSortSccs]
    show (match kahnLoop sccG (K + 1)
        ((List.range K).filter (fun i => indeg0 sccG K i = 0)) []
        (fun v => indeg0 sccG K v) with
      | none => none
      | some order => some (order.map (fun i => comps.getD i ([], [])))) =
      some (res.map (fun i => comps.getD i ([], [])))
    rw [hrun]
  · rw [List.append_nil] at f1
    exact f1
  · intro i hi
    exact f2 i (by rw [List.append_nil]; exact hi)
  · intro j hj a haK hedge
    exact f5 j hj a haK ((sccSuccs_mem g n N comps a (res.getD j 0)).mpr hedge)

theorem nodup_getD_inj (l : List Nat) (hnd : l.Nodup) (i j : Nat)
    (hi : i < l.length) (hj : j < l.length) (h : l.getD i 0 = l.getD j 0) :
    i = j := by
  rw [List.getD_eq_getElem l 0 hi, List.getD_eq_getElem l 0 hj] at h
  exact hnd.getElem_inj_iff.mp h

theorem getD_map_of_lt {α β : Type} (f : α → β) (l : List α) (i : Nat)
    (h : i < l.length) (d : β) (d2 : α) :
    (l.map f).getD i d = f (l.getD i d2) := by
  rw [List.getD_eq_getElem _ d (by rw [List.length_map]; exact h),
    List.getElem_map, List.getD_eq_getElem l d2 h]

/-- `find_sccs` on an abstract adjacency: it succeeds and returns an ordered
list of blocks that uniquely covers the vertices, is well formed, and is
topologically consistent. -/
theorem tjFindSccs_spec (g : Nat → List Nat) (n m : Nat)
    (Hg : ∀ x, ∀ y ∈ g x, y < n + m) :
    ∃ blocks : List Block, tjFindSccs g n m = some blocks ∧
      (∀ x, x < n + m → ∃ k, k < blocks.length ∧
        inComp n (blocks.getD k ([], [])) x ∧
        ∀ j, j < blocks.length → inComp n (blocks.getD j ([], [])) x →
          j = k) ∧
      (∀ k, k < blocks.length → BlockWF n (n + m) (blocks.getD k ([], []))) ∧
      (∀ i j x y, i < blocks.length → j < blocks.length →
        inComp n (blocks.getD i ([], [])) x → y ∈ g x →
        inComp n (blocks.getD j ([], [])) y → i ≤ j) := by
  obtain ⟨s', hrun, hcover, hbound, hclosure, hwf⟩ :=
    tjRun_final g n (n + m) Hg
  set comps := s'.comps with hcomps
  set K := comps.length with hK
  have huniq : ∀ x, ∀ k j, k < K → j < K →
      inComp n (comps.getD k ([], [])) x → inComp n (comps.getD j ([], [])) x →
      j = k := by
    intro x k j hk hj hkx hjx
    have hxN : x < n + m := hbound k hk x hkx
    obtain ⟨k0, _, _, hu⟩ := hcover x hxN
    rw [hu k hk hkx, hu j hj hjx]
  have hdec : ∀ a b, (a, b) ∈ sccEdges g n (n + m) comps → b < a :=
    sccEdges_decreasing g n (n + m) comps hclosure huniq
  obtain ⟨order, hsort, hnd, hbnd, hcomp, htopo⟩ :=
    topoSortSccs_order g n (n + m) comps hdec
  set blocks := order.map (fun i => comps.getD i ([], [])) with hblocks
  have hlen : blocks.length = order.length := List.length_map _ _
  have hget : ∀ k, k < order.length →
      blocks.getD k ([], []) = comps.getD (order.getD k 0) ([], []) := by
    intro k hk
    exact getD_map_of_lt _ order k hk ([], []) 0
  have hgetK : ∀ k, k < order.length → order.getD k 0 < K := by
    intro k hk
    exact hbnd _ (getD_mem_of_lt order k hk)
  refine ⟨blocks, ?_, ?_, ?_, ?_⟩
  · rw [tjFindSccs]
    show (match tjLoop g n (n + m) (List.range (n + m)) tjInit with
      | none => none
      | some s => topoSortSccs g n (n + m) s.comps) = some blocks
    rw [hrun]
    exact hsort
  · intro x hx
    obtain ⟨k0, hk0, hk0x, hu⟩ := hcover x hx
    obtain ⟨i, hi, hieq⟩ := mem_getD_of_mem order k0 (hcomp k0 hk0)
    refine ⟨i, by rw [hlen]; exact hi, ?_, ?_⟩
    · rw [hget i hi, hieq]
      exact hk0x
    · intro j hj hjx
      rw [hlen] at hj
      rw [hget j hj] at hjx
      have : order.getD j 0 = k0 := hu _ (hgetK j hj) hjx
      exact nodup_getD_inj order hnd j i hj hi (by rw [this, hieq])
  · intro k hk
    rw [hlen] at hk
    rw [hget k hk]
    exact hwf _ (hgetK k hk)
  · intro i j x y hi hj hix hy hjy
    rw [hlen] at hi hj
    rw [hget i hi] at hix
    rw [hget j hj] at hjy
    set a := order.getD i 0 with ha
    set b := order.getD j 0 with hb
    have haK : a < K := hgetK i hi
    have hbK : b < K := hgetK j hj
    by_cases hab : a = b
    · have : i = j := nodup_getD_inj order hnd i j hi hj (by rw [← ha, ← hb, hab])
      omega
    · have hxN : x < n + m := hbound a haK x hix
      have hv2sx : v2s n comps x = some a :=
        v2s_eq_some n comps x a haK hix (fun j2 hj2 hj2x => huniq x a j2 haK hj2 hix hj2x)
      have hv2sy : v2s n comps y = some b :=
        v2s_eq_some n comps y b hbK hjy (fun j2 hj2 hj2y => huniq y b j2 hbK hj2 hjy hj2y)
      have hedge : (a, b) ∈ sccEdges g n (n + m) comps :=
        (sccEdges_mem g n (n + m) comps a b).mpr ⟨x, y, hxN, hy, hv2sx, hv2sy, hab⟩
      obtain ⟨i2, hi2, hi2eq⟩ := htopo j hj a haK hedge
      have : i2 = i := nodup_getD_inj order hnd i2 i (by omega) hi (by rw [hi2eq])
      omega

/-! ### `solve`: reachability-set facts used by the assembly -/

theorem matching_fst_unique (matching : List (Nat × Nat))
    (h : (matching.map Prod.fst).Nodup) (p q : Nat × Nat) (hp : p ∈ matching)
    (hq : q ∈ matching) (heq : p.1 = q.1) : p = q :=
  List.inj_on_of_nodup_map h hp hq heq

theorem matching_snd_unique (matching : List (Nat × Nat))
    (h : (matching.map Prod.snd).Nodup) (p q : Nat × Nat) (hp : p ∈ matching)
    (hq : q ∈ matching) (heq : p.2 = q.2) : p = q :=
  List.inj_on_of_nodup_map h hp hq heq

/-- Reached V∞ vertices are in range. -/
theorem vinfReach_lt (mat : List (List Int)) (matching : List (Nat × Nat))
    (hRect : Rect mat)
    (hRange : ∀ p ∈ matching, p.1 < mat.length ∧ p.2 < (mat.headD []).length) :
    ∀ x, VinfReach mat matching x →
      Sum.elim (· < mat.length) (· < (mat.headD []).length) x := by
  intro x h
  induction h with
  | seed r hr _ => exact hr
  | col r c _ hentry _ _ =>
    show c < (mat.headD []).length
    by_contra hc
    exact hentry (entry_eq_zero_right mat r c hRect (Nat.le_of_not_lt hc))
  | row c r _ hmem _ => exact (hRange _ hmem).1

/-- Reached V0 vertices are in range. -/
theorem v0Reach_lt (mat : List (List Int)) (matching : List (Nat × Nat))
    (hRange : ∀ p ∈ matching, p.1 < mat.length ∧ p.2 < (mat.headD []).length) :
    ∀ x, V0Reach mat matching x →
      Sum.elim (· < mat.length) (· < (mat.headD []).length) x := by
  intro x h
  induction h with
  | seed c hc _ => exact hc
  | row c r _ hentry _ _ =>
    show r < mat.length
    by_contra hr
    exact hentry (entry_eq_zero_row mat r c (Nat.le_of_not_lt hr))
  | col r c _ hmem _ => exact (hRange _ hmem).2

/-- A matched column in V0 pulls its row into V0 (uses that no column is
matched twice). -/
theorem v0Reach_col_inv (mat : List (List Int)) (matching : List (Nat × Nat))
    (hsnd : (matching.map Prod.snd).Nodup) (r c : Nat) (hm : (r, c) ∈ matching)
    (h : V0Reach mat matching (Sum.inr c)) :
    V0Reach mat matching (Sum.inl r) := by
  cases h with
  | seed _ hc hnc =>
    exact absurd (List.mem_map.mpr ⟨(r, c), hm, rfl⟩) hnc
  | col r2 _ hreach hm2 =>
    have : (r2, c) = (r, c) := matching_snd_unique matching hsnd _ _ hm2 hm rfl
    have hr : r2 = r := congrArg Prod.fst this
    exact hr ▸ hreach

/-- A matched row in V∞ pulls its column into V∞ (uses that no row is
matched twice). -/
theorem vinfReach_row_inv (mat : List (List Int)) (matching : List (Nat × Nat))
    (hfst : (matching.map Prod.fst).Nodup) (r c : Nat) (hm : (r, c) ∈ matching)
    (h : VinfReach mat matching (Sum.inl r)) :
    VinfReach mat matching (Sum.inr c) := by
  cases h with
  | seed _ _ hnr =>
    exact absurd (List.mem_map.mpr ⟨(r, c), hm, rfl⟩) hnr
  | row c2 _ hreach hm2 =>
    have : (r, c2) = (r, c) := matching_fst_unique matching hfst _ _ hm2 hm rfl
    have hc : c2 = c := congrArg Prod.snd this
    exact hc ▸ hreach

/-- A row that survives both removals is matched, and its partner column
survives too. -/
theorem survivor_row (mat : List (List Int)) (matching : List (Nat × Nat))
    (hVM : ValidMatching mat matching) (r : Nat) (hr : r < mat.length)
    (h0 : ¬ V0Reach mat matching (Sum.inl r))
    (hinf : ¬ VinfReach mat matching (Sum.inl r)) :
    ∃ c, (r, c) ∈ matching ∧ c < (mat.headD []).length ∧
      ¬ V0Reach mat matching (Sum.inr c) ∧
      ¬ VinfReach mat matching (Sum.inr c) := by
  have hrm : r ∈ matchedRows matching := by
    by_contra hnm
    exact hinf (VinfReach.seed r hr hnm)
  obtain ⟨p, hp, hpr⟩ := List.mem_map.mp hrm
  have hm : (r, p.2) ∈ matching := by
    have : (p.1, p.2) = p := rfl
    rw [← hpr, this]
    exact hp
  refine ⟨p.2, hm, (hVM.1 p hp).2, ?_, ?_⟩
  · intro hc0
    exact h0 (v0Reach_col_inv mat matching hVM.2.2 r p.2 hm hc0)
  · intro hcinf
    exact hinf (VinfReach.row p.2 r hcinf hm)

/-- A column that survives both removals is matched, and its partner row
survives too. -/
theorem survivor_col (mat : List (List Int)) (matching : List (Nat × Nat))
    (hVM : ValidMatching mat matching) (c : Nat)
    (hc : c < (mat.headD []).length)
    (h0 : ¬ V0Reach mat matching (Sum.inr c))
    (hinf : ¬ VinfReach mat matching (Sum.inr c)) :
    ∃ r, (r, c) ∈ matching ∧ r < mat.length ∧
      ¬ V0Reach mat matching (Sum.inl r) ∧
      ¬ VinfReach mat matching (Sum.inl r) := by
  have hcm : c ∈ matchedCols matching := by
    by_contra hnm
    exact h0 (V0Reach.seed c hc hnm)
  obtain ⟨p, hp, hpc⟩ := List.mem_map.mp hcm
  have hm : (p.1, c) ∈ matching := by
    have : (p.1, p.2) = p := rfl
    rw [← hpc, this]
    exact hp
  refine ⟨p.1, hm, (hVM.1 p hp).1, ?_, ?_⟩
  · intro hr0
    exact h0 (V0Reach.col p.1 c hr0 hm)
  · intro hrinf
    exact hinf (vinfReach_row_inv mat matching hVM.2.1 p.1 c hm hrinf)

theorem mem_dmRemRows (mat : List (List Int)) (v0R vinfR : List Nat) (r : Nat) :
    r ∈ dmRemRows mat v0R vinfR ↔ r < mat.length ∧ r ∉ v0R ++ vinfR := by
  simp [dmRemRows, List.mem_filter, List.mem_range]

theorem mem_dmRemCols (mat : List (List Int)) (v0C vinfC : List Nat) (c : Nat) :
    c ∈ dmRemCols mat v0C vinfC ↔
      c < (mat.headD []).length ∧ c ∉ v0C ++ vinfC := by
  simp [dmRemCols, List.mem_filter, List.mem_range]

theorem dmRemRows_nodup (mat : List (List Int)) (v0R vinfR : List Nat) :
    (dmRemRows mat v0R vinfR).Nodup := (List.nodup_range _).filter _

theorem dmRemCols_nodup (mat : List (List Int)) (v0C vinfC : List Nat) :
    (dmRemCols mat v0C vinfC).Nodup := (List.nodup_range _).filter _

/-- `findIdx?` on a duplicate-free list finds exactly the position of the
element. -/
theorem findIdx_nodup_iff (l : List Nat) (hnd : l.Nodup) (x i : Nat) :
    l.findIdx? (fun y => y = x) = some i ↔ i < l.length ∧ l.getD i 0 = x := by
  rw [List.findIdx?_eq_some_iff_getElem]
  constructor
  · rintro ⟨h, h1, _⟩
    refine ⟨h, ?_⟩
    rw [List.getD_eq_getElem l 0 h]
    exact of_decide_eq_true h1
  · rintro ⟨h, hget⟩
    rw [List.getD_eq_getElem l 0 h] at hget
    refine ⟨h, decide_eq_true hget, ?_⟩
    intro j hji hc
    have hgj : l[j] = x := of_decide_eq_true hc
    have : j = i := hnd.getElem_inj_iff.mp (by rw [hgj, hget])
    omega

theorem findIdx_of_mem (l : List Nat) (x : Nat) (h : x ∈ l) :
    ∃ i, l.findIdx? (fun y => y = x) = some i := by
  have : ∃ y, y ∈ l ∧ (fun y => decide (y = x)) y := ⟨x, h, by simp⟩
  exact ⟨l.findIdx _, List.findIdx?_eq_some_of_exists this⟩

theorem reindexMatching_go (removeRows removeCols remRows remCols : List Nat) :
    ∀ (ms : List (Nat × Nat)) (acc : List (Nat × Nat)),
      (∀ p ∈ ms, p.1 ∉ removeRows → p.1 ∈ remRows) →
      (∀ p ∈ ms, p.2 ∉ removeCols → p.2 ∈ remCols) →
      ∃ l, (ms.foldl
          (fun acc p =>
            match acc with
            | none => none
            | some l =>
              if p.1 ∉ removeRows ∧ p.2 ∉ removeCols then
                match remRows.findIdx? (fun x => x = p.1),
                    remCols.findIdx? (fun x => x = p.2) with
                | some a, some b => some (l ++ [(a, b)])
                | _, _ => none
              else some l)
          (some acc)) = some (acc ++ l) ∧
        ∀ a b, (a, b) ∈ l ↔ ∃ r c, (r, c) ∈ ms ∧ r ∉ removeRows ∧
          c ∉ removeCols ∧ remRows.findIdx? (fun x => x = r) = some a ∧
          remCols.findIdx? (fun x => x = c) = some b := by
  intro ms
  induction ms with
  | nil =>
    intro acc _ _
    refine ⟨[], by simp, ?_⟩
    intro a b
    simp
  | cons p ms ih =>
    intro acc h1 h2
    by_cases hsurv : p.1 ∉ removeRows ∧ p.2 ∉ removeCols
    · obtain ⟨a0, ha0⟩ :=
        findIdx_of_mem remRows p.1 (h1 p (List.mem_cons_self _ _) hsurv.1)
      obtain ⟨b0, hb0⟩ :=
        findIdx_of_mem remCols p.2 (h2 p (List.mem_cons_self _ _) hsurv.2)
      obtain ⟨l2, hl2, hiff2⟩ := ih (acc ++ [(a0, b0)])
        (fun q hq => h1 q (List.mem_cons_of_mem _ hq))
        (fun q hq => h2 q (List.mem_cons_of_mem _ hq))
      refine ⟨(a0, b0) :: l2, ?_, ?_⟩
      · have harg : (match (some acc : Option (List (Nat × Nat))) with
            | none => (none : Option (List (Nat × Nat)))
            | some l =>
              if p.1 ∉ removeRows ∧ p.2 ∉ removeCols then
                match remRows.findIdx? (fun x => x = p.1),
                    remCols.findIdx? (fun x => x = p.2) with
                | some a, some b => some (l ++ [(a, b)])
                | _, _ => none
              else some l) = some (acc ++ [(a0, b0)]) := by
          show (if p.1 ∉ removeRows ∧ p.2 ∉ removeCols then
              match remRows.findIdx? (fun x => x = p.1),
                  remCols.findIdx? (fun x => x = p.2) with
              | some a, some b => some (acc ++ [(a, b)])
              | _, _ => none
            else some acc) = some (acc ++ [(a0, b0)])
          rw [if_pos hsurv, ha0, hb0]
        rw [List.foldl_cons, harg, hl2, List.append_assoc, List.singleton_append]
      · intro a b
        rw [List.mem_cons]
        constructor
        · rintro (heq | hmem)
          · have ha : a = a0 := congrArg Prod.fst heq
            have hb : b = b0 := congrArg Prod.snd heq
            refine ⟨p.1, p.2, ?_, hsurv.1, hsurv.2, ha ▸ ha0, hb ▸ hb0⟩
            have : (p.1, p.2) = p := rfl
            rw [this]
            exact List.mem_cons_self _ _
          · obtain ⟨r, c, hrc, hr, hc, hfa, hfb⟩ := (hiff2 a b).mp hmem
            exact ⟨r, c, List.mem_cons_of_mem _ hrc, hr, hc, hfa, hfb⟩
        · rintro ⟨r, c, hrc, hr, hc, hfa, hfb⟩
          rcases List.mem_cons.mp hrc with heq | hmem
          · have hr1 : p.1 = r := (congrArg Prod.fst heq).symm
            have hc1 : p.2 = c := (congrArg Prod.snd heq).symm
            rw [← hr1] at hfa
            rw [← hc1] at hfb
            rw [ha0] at hfa
            rw [hb0] at hfb
            left
            rw [Prod.ext_iff]
            exact ⟨(Option.some.inj hfa).symm, (Option.some.inj hfb).symm⟩
          · right
            exact (hiff2 a b).mpr ⟨r, c, hmem, hr, hc, hfa, hfb⟩
    · obtain ⟨l2, hl2, hiff2⟩ := ih acc
        (fun q hq => h1 q (List.mem_cons_of_mem _ hq))
        (fun q hq => h2 q (List.mem_cons_of_mem _ hq))
      refine ⟨l2, ?_, ?_⟩
      · have harg : (match (some acc : Option (List (Nat × Nat))) with
            | none => (none : Option (List (Nat × Nat)))
            | some l =>
              if p.1 ∉ removeRows ∧ p.2 ∉ removeCols then
                match remRows.findIdx? (fun x => x = p.1),
                    remCols.findIdx? (fun x => x = p.2) with
                | some a, some b => some (l ++ [(a, b)])
                | _, _ => none
              else some l) = some acc := by
          show (if p.1 ∉ removeRows ∧ p.2 ∉ removeCols then
              match remRows.findIdx? (fun x => x = p.1),
                  remCols.findIdx? (fun x => x = p.2) with
              | some a, some b => some (acc ++ [(a, b)])
              | _, _ => none
            else some acc) = some acc
          rw [if_neg hsurv]
        rw [List.foldl_cons, harg, hl2]
      · intro a b
        rw [hiff2 a b]
        constructor
        · rintro ⟨r, c, hrc, hr, hc, hfa, hfb⟩
          exact ⟨r, c, List.mem_cons_of_mem _ hrc, hr, hc, hfa, hfb⟩
        · rintro ⟨r, c, hrc, hr, hc, hfa, hfb⟩
          rcases List.mem_cons.mp hrc with heq | hmem
          · exfalso
            have hr1 : p.1 = r := (congrArg Prod.fst heq).symm
            have hc1 : p.2 = c := (congrArg Prod.snd heq).symm
            exact hsurv ⟨hr1 ▸ hr, hc1 ▸ hc⟩
          · exact ⟨r, c, hmem, hr, hc, hfa, hfb⟩

/-- `remaining_matching` is computed without a `KeyError`, and its pairs are
exactly the surviving matching pairs written in remaining-index
coordinates. -/
theorem reindexMatching_post (matching : List (Nat × Nat))
    (removeRows removeCols remRows remCols : List Nat)
    (hnd1 : remRows.Nodup) (hnd2 : remCols.Nodup)
    (h1 : ∀ p ∈ matching, p.1 ∉ removeRows → p.1 ∈ remRows)
    (h2 : ∀ p ∈ matching, p.2 ∉ removeCols → p.2 ∈ remCols) :
    ∃ l, reindexMatching matching removeRows removeCols remRows remCols =
        some l ∧
      ∀ a b, (a, b) ∈ l ↔ a < remRows.length ∧ b < remCols.length ∧
        (remRows.getD a 0, remCols.getD b 0) ∈ matching ∧
        remRows.getD a 0 ∉ removeRows ∧ remCols.getD b 0 ∉ removeCols := by
  obtain ⟨l, hl, hiff⟩ :=
    reindexMatching_go removeRows removeCols remRows remCols matching [] h1 h2
  refine ⟨l, ?_, ?_⟩
  · rw [reindexMatching, hl, List.nil_append]
  · intro a b
    rw [hiff a b]
    constructor
    · rintro ⟨r, c, hrc, hr, hc, hfa, hfb⟩
      obtain ⟨hal, hag⟩ := (findIdx_nodup_iff remRows hnd1 r a).mp hfa
      obtain ⟨hbl, hbg⟩ := (findIdx_nodup_iff remCols hnd2 c b).mp hfb
      rw [hag, hbg]
      exact ⟨hal, hbl, hrc, hr, hc⟩
    · rintro ⟨hal, hbl, hrc, hr, hc⟩
      exact ⟨remRows.getD a 0, remCols.getD b 0, hrc, hr, hc,
        (findIdx_nodup_iff remRows hnd1 _ a).mpr ⟨hal, rfl⟩,
        (findIdx_nodup_iff remCols hnd2 _ b).mpr ⟨hbl, rfl⟩⟩

/-- Unfolding `solve` in the branch where `remaining_matching` is
non-empty. -/
theorem dmSolve_eq_pos (st : DMState) (v0R v0C vinfR vinfC : List Nat)
    (remMatch : List (Nat × Nat)) (comps : List Block) (dec : List Block)
    (h0 : findV0 st.matrix st.matching = some (v0R, v0C))
    (hinf : findVinf st.matrix st.matching = some (vinfR, vinfC))
    (hre : reindexMatching st.matching (v0R ++ vinfR) (v0C ++ vinfC)
      (dmRemRows st.matrix v0R vinfR) (dmRemCols st.matrix v0C vinfC) =
      some remMatch)
    (hne : remMatch ≠ [])
    (hscc : findSccs
      (dmRemMat st.matrix (dmRemRows st.matrix v0R vinfR)
        (dmRemCols st.matrix v0C vinfC))
      remMatch (dmRemRows st.matrix v0R vinfR).length
      (dmRemCols st.matrix v0C vinfC).length = some comps)
    (hdec : dec =
      (if decide (v0R ≠ [] ∨ v0C ≠ []) then
        [((sortedSet v0R, sortedSet v0C) : Block)] else []) ++
      comps.map (dmSccMap (dmRemRows st.matrix v0R vinfR)
        (dmRemCols st.matrix v0C vinfC)) ++
      (if decide (vinfR ≠ [] ∨ vinfC ≠ []) then
        [((sortedSet vinfR, sortedSet vinfC) : Block)] else [])) :
    dmSolve st = some
      ({ st with
          decomposition := some dec
          has_v0 := decide (v0R ≠ [] ∨ v0C ≠ [])
          has_vinf := decide (vinfR ≠ [] ∨ vinfC ≠ []) }, dec) := by
  subst hdec
  simp only [dmRemRows, dmRemCols, dmRemMat] at hre hscc
  simp only [dmSolve, h0, hinf, hre, hscc, dmRemRows, dmRemCols, dmRemMat,
    dmSccMap, ne_eq, hne, not_false_eq_true, ite_true, if_true]
  rfl

/-- Unfolding `solve` in the branch where `remaining_matching` is empty:
no SCC computation happens. -/
theorem dmSolve_eq_nil (st : DMState) (v0R v0C vinfR vinfC : List Nat)
    (dec : List Block)
    (h0 : findV0 st.matrix st.matching = some (v0R, v0C))
    (hinf : findVinf st.matrix st.matching = some (vinfR, vinfC))
    (hre : reindexMatching st.matching (v0R ++ vinfR) (v0C ++ vinfC)
      (dmRemRows st.matrix v0R vinfR) (dmRemCols st.matrix v0C vinfC) =
      some [])
    (hdec : dec =
      (if decide (v0R ≠ [] ∨ v0C ≠ []) then
        [((sortedSet v0R, sortedSet v0C) : Block)] else []) ++
      (if decide (vinfR ≠ [] ∨ vinfC ≠ []) then
        [((sortedSet vinfR, sortedSet vinfC) : Block)] else [])) :
    dmSolve st = some
      ({ st with
          decomposition := some dec
          has_v0 := decide (v0R ≠ [] ∨ v0C ≠ [])
          has_vinf := decide (vinfR ≠ [] ∨ vinfC ≠ []) }, dec) := by
  subst hdec
  simp only [dmRemRows, dmRemCols] at hre
  simp only [dmSolve, h0, hinf, hre, ne_eq, not_true_eq_false, ite_false,
    if_false, List.append_nil, List.nil_append]

theorem mem_getD_of_mem_gen {α : Type} (l : List α) (d : α) (u : α)
    (h : u ∈ l) : ∃ i, i < l.length ∧ l.getD i d = u := by
  obtain ⟨i, hi, hget⟩ := List.getElem_of_mem h
  refine ⟨i, hi, ?_⟩
  rw [List.getD_eq_getElem l d hi]
  exact hget

theorem sum_map_eq_zero {α : Type} (g : α → Nat) (L : List α)
    (h : ∀ b ∈ L, g b = 0) : (L.map g).sum = 0 := by
  refine List.sum_eq_zero ?_
  intro x hx
  obtain ⟨b, hb, rfl⟩ := List.mem_map.mp hx
  exact h b hb

theorem sum_map_eq_one {α : Type} (d : α) (g : α → Nat) :
    ∀ (L : List α) (k : Nat), k < L.length → g (L.getD k d) = 1 →
      (∀ j, j < L.length → j ≠ k → g (L.getD j d) = 0) →
      (L.map g).sum = 1 := by
  intro L
  induction L with
  | nil =>
    intro k hk
    exact absurd hk (by simp)
  | cons a L ih =>
    intro k hk h1 h0
    rw [List.map_cons, List.sum_cons]
    cases k with
    | zero =>
      have hga : g a = 1 := h1
      have hz : (L.map g).sum = 0 := by
        refine sum_map_eq_zero g L ?_
        intro b hb
        obtain ⟨j, hj, hjb⟩ := mem_getD_of_mem_gen L d b hb
        have := h0 (j + 1) (by rw [List.length_cons]; omega) (by omega)
        rw [← hjb]
        exact this
      omega
    | succ k =>
      have hga : g a = 0 := h0 0 (by rw [List.length_cons]; omega) (by omega)
      have htl : (L.map g).sum = 1 := by
        refine ih k (by rw [List.length_cons] at hk; omega) h1 ?_
        intro j hj hjk
        exact h0 (j + 1) (by rw [List.length_cons]; omega) (by omega)
      omega

/-- Counting an original index in a block mapped back through the
duplicate-free `remaining` list. -/
theorem count_map_getD (rem : List Nat) (hnd : rem.Nodup) (a : Nat)
    (ha : a < rem.length) :
    ∀ (l : List Nat), (∀ i ∈ l, i < rem.length) → l.Nodup →
      (l.map (fun i => rem.getD i 0)).count (rem.getD a 0) =
        if a ∈ l then 1 else 0 := by
  intro l
  induction l with
  | nil =>
    intro _ _
    simp
  | cons i l ih =>
    intro hbnd hlnd
    rw [List.map_cons, List.count_cons]
    have htl := ih (fun j hj => hbnd j (List.mem_cons_of_mem _ hj))
      hlnd.of_cons
    by_cases hia : i = a
    · subst hia
      have hnotl : i ∉ l := (List.nodup_cons.mp hlnd).1
      rw [htl, if_neg hnotl, if_pos (List.mem_cons_self _ _)]
      simp
    · have hne : rem.getD i 0 ≠ rem.getD a 0 := by
        intro hc
        exact hia (nodup_getD_inj rem hnd i a
          (hbnd i (List.mem_cons_self _ _)) ha hc)
      rw [htl]
      have hbeq : (rem.getD i 0 == rem.getD a 0) = false := by
        rw [beq_eq_false_iff_ne]
        exact hne
      rw [hbeq]
      by_cases hal : a ∈ l
      · rw [if_pos hal, if_pos (List.mem_cons_of_mem _ hal)]
        simp
      · rw [if_neg hal, if_neg (fun h =>
          (List.mem_cons.mp h).elim (fun h2 => hia h2.symm) hal)]
        simp

theorem count_eq_zero_of_not_target (rem : List Nat) (r : Nat)
    (hr : r ∉ rem) (l : List Nat) (hbnd : ∀ i ∈ l, i < rem.length) :
    (l.map (fun i => rem.getD i 0)).count r = 0 := by
  rw [List.count_eq_zero]
  intro hc
  obtain ⟨i, hi, hieq⟩ := List.mem_map.mp hc
  exact hr (hieq ▸ getD_mem_of_lt rem i (hbnd i hi))

theorem sccAdj_bounded (mat : List (List Int)) (ve : List (Nat × Nat))
    (n m : Nat) (hve : ∀ p ∈ ve, p.1 < n ∧ p.2 < m) :
    ∀ v, ∀ y ∈ sccAdj mat ve n m v, y < n + m := by
  intro v y hy
  rw [sccAdj] at hy
  by_cases h1 : v < n
  · rw [if_pos h1] at hy
    rcases List.mem_append.mp hy with h | h
    · obtain ⟨p, hp, rfl⟩ := List.mem_map.mp h
      have := (hve p (List.mem_filter.mp hp).1).2
      omega
    · obtain ⟨c, hc, rfl⟩ := List.mem_map.mp h
      have := List.mem_range.mp (List.mem_filter.mp hc).1
      omega
  · rw [if_neg h1] at hy
    by_cases h2 : v < n + m
    · rw [if_pos h2] at hy
      obtain ⟨p, hp, rfl⟩ := List.mem_map.mp hy
      have := (hve p (List.mem_filter.mp hp).1).1
      omega
    · rw [if_neg h2] at hy
      exact absurd hy (List.not_mem_nil y)

/-- A matching edge gives the forward arc `r → c + n` of the residual
graph. -/
theorem sccAdj_match_fwd (mat : List (List Int)) (ve : List (Nat × Nat))
    (n m : Nat) (a b : Nat) (hab : (a, b) ∈ ve) (ha : a < n) :
    b + n ∈ sccAdj mat ve n m a := by
  rw [sccAdj, if_pos ha]
  refine List.mem_append_left _ ?_
  rw [List.mem_map]
  exact ⟨(a, b), List.mem_filter.mpr ⟨hab, by simp⟩, rfl⟩

/-- A matching edge gives the backward arc `c + n → r` of the residual
graph. -/
theorem sccAdj_match_bwd (mat : List (List Int)) (ve : List (Nat × Nat))
    (n m : Nat) (a b : Nat) (hab : (a, b) ∈ ve) (hb : b < m) :
    a ∈ sccAdj mat ve n m (b + n) := by
  rw [sccAdj, if_neg (by omega), if_pos (by omega)]
  rw [List.mem_map]
  exact ⟨(a, b), List.mem_filter.mpr ⟨hab, by simp⟩, rfl⟩

/-- The master run of `solve`: both reachability passes succeed and agree
with alternating reachability, the assembled decomposition is returned, and
the core blocks (in original coordinates) uniquely cover exactly the
surviving vertices and keep matched surviving pairs together. -/
theorem dmSolve_run (st : DMState) (hRect : Rect st.matrix)
    (hVM : ValidMatching st.matrix st.matching) :
    ∃ v0R v0C vinfR vinfC sccBlocks dec,
      findV0 st.matrix st.matching = some (v0R, v0C) ∧
      V0Post st.matrix st.matching v0R v0C ∧
      findVinf st.matrix st.matching = some (vinfR, vinfC) ∧
      VinfPost st.matrix st.matching vinfR vinfC ∧
      dec = (if decide (v0R ≠ [] ∨ v0C ≠ []) then
          [((sortedSet v0R, sortedSet v0C) : Block)] else []) ++ sccBlocks ++
        (if decide (vinfR ≠ [] ∨ vinfC ≠ []) then
          [((sortedSet vinfR, sortedSet vinfC) : Block)] else []) ∧
      dmSolve st = some
        ({ st with
            decomposition := some dec
            has_v0 := decide (v0R ≠ [] ∨ v0C ≠ [])
            has_vinf := decide (vinfR ≠ [] ∨ vinfC ≠ []) }, dec) ∧
      (∀ b ∈ sccBlocks,
        (∀ r ∈ b.1, r < st.matrix.length ∧ r ∉ v0R ++ vinfR) ∧
        (∀ c ∈ b.2, c < (st.matrix.headD []).length ∧ c ∉ v0C ++ vinfC)) ∧
      (∀ r, r < st.matrix.length → r ∉ v0R ++ vinfR →
        rowCountD sccBlocks r = 1) ∧
      (∀ r, r ∉ dmRemRows st.matrix v0R vinfR → rowCountD sccBlocks r = 0) ∧
      (∀ c, c < (st.matrix.headD []).length → c ∉ v0C ++ vinfC →
        colCountD sccBlocks c = 1) ∧
      (∀ c, c ∉ dmRemCols st.matrix v0C vinfC → colCountD sccBlocks c = 0) ∧
      (∀ r c, (r, c) ∈ st.matching → r ∉ v0R ++ vinfR → c ∉ v0C ++ vinfC →
        ∃ k, k < sccBlocks.length ∧ r ∈ (sccBlocks.getD k ([], [])).1 ∧
          c ∈ (sccBlocks.getD k ([], [])).2) := by
  obtain ⟨v0R, v0C, h0run, h0post⟩ := findV0_post st.matrix st.matching hVM.1
  obtain ⟨vinfR, vinfC, hirun, hipost⟩ :=
    findVinf_post st.matrix st.matching hRect hVM.1
  have hmemR : ∀ r, r ∈ dmRemRows st.matrix v0R vinfR ↔
      r < st.matrix.length ∧ r ∉ v0R ++ vinfR := mem_dmRemRows _ _ _
  have hmemC : ∀ c, c ∈ dmRemCols st.matrix v0C vinfC ↔
      c < (st.matrix.headD []).length ∧ c ∉ v0C ++ vinfC := mem_dmRemCols _ _ _
  have hsplitR : ∀ r, r ∉ v0R ++ vinfR →
      ¬ V0Reach st.matrix st.matching (Sum.inl r) ∧
      ¬ VinfReach st.matrix st.matching (Sum.inl r) := by
    intro r h
    rw [List.mem_append] at h
    push_neg at h
    exact ⟨fun hr => h.1 ((h0post.1 r).mpr hr),
      fun hr => h.2 ((hipost.1 r).mpr hr)⟩
  have hsplitC : ∀ c, c ∉ v0C ++ vinfC →
      ¬ V0Reach st.matrix st.matching (Sum.inr c) ∧
      ¬ VinfReach st.matrix st.matching (Sum.inr c) := by
    intro c h
    rw [List.mem_append] at h
    push_neg at h
    exact ⟨fun hc => h.1 ((h0post.2 c).mpr hc),
      fun hc => h.2 ((hipost.2 c).mpr hc)⟩
  have hjoinC : ∀ c, ¬ V0Reach st.matrix st.matching (Sum.inr c) →
      ¬ VinfReach st.matrix st.matching (Sum.inr c) → c ∉ v0C ++ vinfC := by
    intro c h1 h2 hc
    rcases List.mem_append.mp hc with h | h
    · exact h1 ((h0post.2 c).mp h)
    · exact h2 ((hipost.2 c).mp h)
  have hjoinR : ∀ r, ¬ V0Reach st.matrix st.matching (Sum.inl r) →
      ¬ VinfReach st.matrix st.matching (Sum.inl r) → r ∉ v0R ++ vinfR := by
    intro r h1 h2 hr
    rcases List.mem_append.mp hr with h | h
    · exact h1 ((h0post.1 r).mp h)
    · exact h2 ((hipost.1 r).mp h)
  obtain ⟨remMatch, hre, hreiff⟩ := reindexMatching_post st.matching
    (v0R ++ vinfR) (v0C ++ vinfC) (dmRemRows st.matrix v0R vinfR)
    (dmRemCols st.matrix v0C vinfC) (dmRemRows_nodup _ _ _)
    (dmRemCols_nodup _ _ _)
    (fun p hp hnp => (hmemR p.1).mpr ⟨(hVM.1 p hp).1, hnp⟩)
    (fun p hp hnp => (hmemC p.2).mpr ⟨(hVM.1 p hp).2, hnp⟩)
  have hsurvpair : ∀ r c, (r, c) ∈ st.matching → r ∉ v0R ++ vinfR →
      c ∉ v0C ++ vinfC →
      ∃ a b, (a, b) ∈ remMatch ∧
        a < (dmRemRows st.matrix v0R vinfR).length ∧
        b < (dmRemCols st.matrix v0C vinfC).length ∧
        (dmRemRows st.matrix v0R vinfR).getD a 0 = r ∧
        (dmRemCols st.matrix v0C vinfC).getD b 0 = c := by
    intro r c hm hnr hnc
    have hrmem : r ∈ dmRemRows st.matrix v0R vinfR :=
      (hmemR r).mpr ⟨(hVM.1 _ hm).1, hnr⟩
    have hcmem : c ∈ dmRemCols st.matrix v0C vinfC :=
      (hmemC c).mpr ⟨(hVM.1 _ hm).2, hnc⟩
    obtain ⟨a, ha, hag⟩ := mem_getD_of_mem _ r hrmem
    obtain ⟨b, hb, hbg⟩ := mem_getD_of_mem _ c hcmem
    refine ⟨a, b, (hreiff a b).mpr ⟨ha, hb, ?_, ?_, ?_⟩, ha, hb, hag, hbg⟩
    · rw [hag, hbg]; exact hm
    · rw [hag]; exact hnr
    · rw [hbg]; exact hnc
  by_cases hnil : remMatch = []
  · have hnoR : ∀ r, r < st.matrix.length → r ∉ v0R ++ vinfR → False := by
      intro r hrn hnr
      obtain ⟨hn0, hninf⟩ := hsplitR r hnr
      obtain ⟨c, hm, _, hc0, hcinf⟩ :=
        survivor_row st.matrix st.matching hVM r hrn hn0 hninf
      obtain ⟨a, b, habmem, _⟩ :=
        hsurvpair r c hm hnr (hjoinC c hc0 hcinf)
      rw [hnil] at habmem
      exact absurd habmem (List.not_mem_nil _)
    have hnoC : ∀ c, c < (st.matrix.headD []).length → c ∉ v0C ++ vinfC →
        False := by
      intro c hcm hnc
      obtain ⟨h0c, hinfc⟩ := hsplitC c hnc
      obtain ⟨r, hm, _, hr0, hrinf⟩ :=
        survivor_col st.matrix st.matching hVM c hcm h0c hinfc
      obtain ⟨a, b, habmem, _⟩ :=
        hsurvpair r c hm (hjoinR r hr0 hrinf) hnc
      rw [hnil] at habmem
      exact absurd habmem (List.not_mem_nil _)
    rw [hnil] at hre
    refine ⟨v0R, v0C, vinfR, vinfC, [],
      (if decide (v0R ≠ [] ∨ v0C ≠ []) then
        [((sortedSet v0R, sortedSet v0C) : Block)] else []) ++ ([] : List Block) ++
      (if decide (vinfR ≠ [] ∨ vinfC ≠ []) then
        [((sortedSet vinfR, sortedSet vinfC) : Block)] else []),
      h0run, h0post, hirun, hipost, rfl, ?_, ?_, ?_, ?_, ?_, ?_, ?_⟩
    · exact dmSolve_eq_nil st v0R v0C vinfR vinfC _ h0run hirun hre
        (by rw [List.append_nil])
    · intro b hb
      exact absurd hb (List.not_mem_nil b)
    · intro r h1 h2
      exact absurd (hnoR r h1 h2) not_false
    · intro r _
      rfl
    · intro c h1 h2
      exact absurd (hnoC c h1 h2) not_false
    · intro c _
      rfl
    · intro r c hm hnr hnc
      obtain ⟨a, b, habmem, _⟩ := hsurvpair r c hm hnr hnc
      rw [hnil] at habmem
      exact absurd habmem (List.not_mem_nil _)
  · have hbound : ∀ p ∈ remMatch, p.1 < (dmRemRows st.matrix v0R vinfR).length ∧
        p.2 < (dmRemCols st.matrix v0C vinfC).length := by
      intro p hp
      have hp2 : (p.1, p.2) ∈ remMatch := hp
      obtain ⟨h1, h2, _, _, _⟩ := (hreiff p.1 p.2).mp hp2
      exact ⟨h1, h2⟩
    obtain ⟨comps, hsccrun, hcover, hwf, htopo⟩ :=
      tjFindSccs_spec
        (sccAdj (dmRemMat st.matrix (dmRemRows st.matrix v0R vinfR)
            (dmRemCols st.matrix v0C vinfC))
          remMatch (dmRemRows st.matrix v0R vinfR).length
          (dmRemCols st.matrix v0C vinfC).length)
        (dmRemRows st.matrix v0R vinfR).length
        (dmRemCols st.matrix v0C vinfC).length
        (sccAdj_bounded _ _ _ _ hbound)
    have hfind : findSccs
        (dmRemMat st.matrix (dmRemRows st.matrix v0R vinfR)
          (dmRemCols st.matrix v0C vinfC))
        remMatch (dmRemRows st.matrix v0R vinfR).length
        (dmRemCols st.matrix v0C vinfC).length = some comps := hsccrun
    have hwfblocks : ∀ b0 ∈ comps,
        (∀ i ∈ b0.1, i < (dmRemRows st.matrix v0R vinfR).length) ∧
        (∀ j ∈ b0.2, j < (dmRemCols st.matrix v0C vinfC).length) ∧
        b0.1.Nodup ∧ b0.2.Nodup := by
      intro b0 hb0
      obtain ⟨k, hk, hkeq⟩ := mem_getD_of_mem_gen comps ([], []) b0 hb0
      obtain ⟨w1, w2, w3, w4⟩ := hwf k hk
      rw [hkeq] at w1 w2 w3 w4
      refine ⟨w1, ?_, w3, w4⟩
      intro j hj
      have := w2 j hj
      omega
    refine ⟨v0R, v0C, vinfR, vinfC,
      comps.map (dmSccMap (dmRemRows st.matrix v0R vinfR)
        (dmRemCols st.matrix v0C vinfC)), _,
      h0run, h0post, hirun, hipost, rfl, ?_, ?_, ?_, ?_, ?_, ?_, ?_⟩
    · exact dmSolve_eq_pos st v0R v0C vinfR vinfC remMatch comps _
        h0run hirun hre hnil hfind rfl
    · intro b hb
      obtain ⟨b0, hb0, rfl⟩ := List.mem_map.mp hb
      obtain ⟨w1, w2, _, _⟩ := hwfblocks b0 hb0
      constructor
      · intro r hr
        obtain ⟨i, hi, rfl⟩ := List.mem_map.mp hr
        exact (hmemR _).mp (getD_mem_of_lt _ i (w1 i hi))
      · intro c hc
        obtain ⟨j, hj, rfl⟩ := List.mem_map.mp hc
        exact (hmemC _).mp (getD_mem_of_lt _ j (w2 j hj))
    · intro r hrn hnr
      have hrmem : r ∈ dmRemRows st.matrix v0R vinfR := (hmemR r).mpr ⟨hrn, hnr⟩
      obtain ⟨a, ha, hag⟩ := mem_getD_of_mem _ r hrmem
      obtain ⟨k, hk, hkin, hkuniq⟩ := hcover a (by omega)
      have hain : a ∈ (comps.getD k ([], [])).1 := by
        rcases hkin with h | ⟨h1, _⟩
        · exact h
        · omega
      rw [rowCountD, List.map_map]
      refine sum_map_eq_one ([], []) _ comps k hk ?_ ?_
      · show ((comps.getD k ([], [])).1.map
            (fun i => (dmRemRows st.matrix v0R vinfR).getD i 0)).count r = 1
        rw [← hag, count_map_getD _ (dmRemRows_nodup _ _ _) a ha _
          (hwf k hk).1 (hwf k hk).2.2.1, if_pos hain]
      · intro j hj hjk
        show ((comps.getD j ([], [])).1.map
            (fun i => (dmRemRows st.matrix v0R vinfR).getD i 0)).count r = 0
        rw [← hag, count_map_getD _ (dmRemRows_nodup _ _ _) a ha _
          (hwf j hj).1 (hwf j hj).2.2.1, if_neg]
        intro hain2
        exact hjk (hkuniq j hj (Or.inl hain2))
    · intro r hr
      rw [rowCountD, List.map_map]
      refine sum_map_eq_zero _ comps ?_
      intro b0 hb0
      show (b0.1.map (fun i => (dmRemRows st.matrix v0R vinfR).getD i 0)).count
        r = 0
      exact count_eq_zero_of_not_target _ r hr _ (hwfblocks b0 hb0).1
    · intro c hcm hnc
      have hcmem : c ∈ dmRemCols st.matrix v0C vinfC := (hmemC c).mpr ⟨hcm, hnc⟩
      obtain ⟨b, hb, hbg⟩ := mem_getD_of_mem _ c hcmem
      obtain ⟨k, hk, hkin, hkuniq⟩ :=
        hcover (b + (dmRemRows st.matrix v0R vinfR).length) (by omega)
      have hbin : b ∈ (comps.getD k ([], [])).2 := by
        rcases hkin with h | ⟨_, h2⟩
        · have := (hwf k hk).1 _ h
          omega
        · have heq : b + (dmRemRows st.matrix v0R vinfR).length -
              (dmRemRows st.matrix v0R vinfR).length = b := by omega
          rw [heq] at h2
          exact h2
      rw [colCountD, List.map_map]
      refine sum_map_eq_one ([], []) _ comps k hk ?_ ?_
      · show ((comps.getD k ([], [])).2.map
            (fun j => (dmRemCols st.matrix v0C vinfC).getD j 0)).count c = 1
        rw [← hbg, count_map_getD _ (dmRemCols_nodup _ _ _) b hb _
          (fun j hj => by have := (hwf k hk).2.1 j hj; omega)
          (hwf k hk).2.2.2, if_pos hbin]
      · intro j hj hjk
        show ((comps.getD j ([], [])).2.map
            (fun i => (dmRemCols st.matrix v0C vinfC).getD i 0)).count c = 0
        rw [← hbg, count_map_getD _ (dmRemCols_nodup _ _ _) b hb _
          (fun i hi => by have := (hwf j hj).2.1 i hi; omega)
          (hwf j hj).2.2.2, if_neg]
        intro hbin2
        refine hjk (hkuniq j hj (Or.inr ⟨by omega, ?_⟩))
        have heq : b + (dmRemRows st.matrix v0R vinfR).length -
            (dmRemRows st.matrix v0R vinfR).length = b := by omega
        rw [heq]
        exact hbin2
    · intro c hc
      rw [colCountD, List.map_map]
      refine sum_map_eq_zero _ comps ?_
      intro b0 hb0
      show (b0.2.map (fun j => (dmRemCols st.matrix v0C vinfC).getD j 0)).count
        c = 0
      exact count_eq_zero_of_not_target _ c hc _ (hwfblocks b0 hb0).2.1
    · intro r c hm hnr hnc
      obtain ⟨a, b, habmem, ha, hb, hag, hbg⟩ := hsurvpair r c hm hnr hnc
      have harc1 := sccAdj_match_fwd
        (dmRemMat st.matrix (dmRemRows st.matrix v0R vinfR)
          (dmRemCols st.matrix v0C vinfC)) remMatch
        (dmRemRows st.matrix v0R vinfR).length
        (dmRemCols st.matrix v0C vinfC).length a b habmem ha
      have harc2 := sccAdj_match_bwd
        (dmRemMat st.matrix (dmRemRows st.matrix v0R vinfR)
          (dmRemCols st.matrix v0C vinfC)) remMatch
        (dmRemRows st.matrix v0R vinfR).length
        (dmRemCols st.matrix v0C vinfC).length a b habmem hb
      obtain ⟨ka, hka, hkain, hkauniq⟩ := hcover a (by omega)
      obtain ⟨kb, hkb, hkbin, hkbuniq⟩ :=
        hcover (b + (dmRemRows st.matrix v0R vinfR).length) (by omega)
      have h1 : ka ≤ kb := htopo ka kb a _ hka hkb hkain harc1 hkbin
      have h2 : kb ≤ ka := htopo kb ka _ a hkb hka hkbin harc2 hkain
      have hkk : kb = ka := by omega
      subst hkk
      have hain : a ∈ (comps.getD kb ([], [])).1 := by
        rcases hkain with h | ⟨h1, _⟩
        · exact h
        · omega
      have hbin : b ∈ (comps.getD kb ([], [])).2 := by
        rcases hkbin with h | ⟨_, h2⟩
        · have := (hwf kb hkb).1 _ h
          omega
        · have heq : b + (dmRemRows st.matrix v0R vinfR).length -
              (dmRemRows st.matrix v0R vinfR).length = b := by omega
          rw [heq] at h2
          exact h2
      refine ⟨kb, ?_, ?_, ?_⟩
      · rw [List.length_map]
        exact hkb
      · rw [getD_map_of_lt _ comps kb hkb ([], []) ([], [])]
        show r ∈ (comps.getD kb ([], [])).1.map
          (fun i => (dmRemRows st.matrix v0R vinfR).getD i 0)
        rw [List.mem_map]
        exact ⟨a, hain, hag⟩
      · rw [getD_map_of_lt _ comps kb hkb ([], []) ([], [])]
        show c ∈ (comps.getD kb ([], [])).2.map
          (fun j => (dmRemCols st.matrix v0C vinfC).getD j 0)
        rw [List.mem_map]
        exact ⟨b, hbin, hbg⟩

/-! ### Claim theorems -/

/-- C10: `solve` never modifies its inputs: whatever invocation of `solve`
succeeds, the matrix and the matching held by the decomposer afterwards are
element-for-element (indeed structurally) equal to their values before the
call. -/
theorem dm_C10 (st st2 : DMState) (dec : List Block)
    (h : dmSolve st = some (st2, dec)) :
    st2.matrix = st.matrix ∧ st2.matching = st.matching := by
  rw [dmSolve] at h
  simp only [] at h
  repeat' split at h
  all_goals first
    | (exfalso; simp at h; done)
    | (have h2 := Option.some.inj h
       have hst : _ = st2 := congrArg Prod.fst h2
       rw [← hst]
       exact ⟨rfl, rfl⟩)

/-- C10 witness: a concrete successful run of `solve` keeps the inputs. -/
theorem dm_C10_witness :
    dmSolve (dmInit [[1]] [(0, 0)]) = some
      ({ matrix := [[1]], matching := [(0, 0)],
         decomposition := some [([0], [0])],
         has_v0 := false, has_vinf := false }, [([0], [0])]) ∧
    ({ matrix := [[1]], matching := [(0, 0)],
       decomposition := some [([0], [0])],
       has_v0 := false, has_vinf := false } : DMState).matrix =
        (dmInit [[1]] [(0, 0)]).matrix ∧
    ({ matrix := [[1]], matching := [(0, 0)],
       decomposition := some [([0], [0])],
       has_v0 := false, has_vinf := false } : DMState).matching =
        (dmInit [[1]] [(0, 0)]).matching :=
  ⟨by decide,
   (dm_C10 (dmInit [[1]] [(0, 0)])
     { matrix := [[1]], matching := [(0, 0)],
       decomposition := some [([0], [0])],
       has_v0 := false, has_vinf := false } [([0], [0])] (by decide)).1,
   (dm_C10 (dmInit [[1]] [(0, 0)])
     { matrix := [[1]], matching := [(0, 0)],
       decomposition := some [([0], [0])],
       has_v0 := false, has_vinf := false } [([0], [0])] (by decide)).2⟩

/-- C5 counterexample: a condensation with a 2-cycle (both `(0,1)` and
`(1,0)` are condensation edges) makes `_topological_sort_sccs` return
normally with every block silently dropped (`some []`), not an error. -/
theorem dm_C5_cex :
    topoSortSccs (fun v => if v = 0 then [1] else if v = 1 then [0] else [])
      1 2 [([0], []), ([], [0])] = some [] ∧
    (0, 1) ∈ sccEdges
      (fun v => if v = 0 then [1] else if v = 1 then [0] else [])
      1 2 [([0], []), ([], [0])] ∧
    (1, 0) ∈ sccEdges
      (fun v => if v = 0 then [1] else if v = 1 then [0] else [])
      1 2 [([0], []), ([], [0])] := by decide

/-- C5 (amended): the topological-sort step never fails and never raises:
for every input it returns normally, and every output block is one of the
input blocks (on a cyclic condensation, blocks are silently dropped rather
than reported as an internal-invariant error). -/
theorem dm_C5 (g : Nat → List Nat) (n N : Nat) (comps : List Block) :
    ∃ l, topoSortSccs g n N comps = some l ∧ ∀ b ∈ l, b ∈ comps :=
  topoSortSccs_total g n N comps

/-- C6 counterexample: calling the presentation methods before `solve` does
not fail: both return normally after printing the not-solved notice. -/
theorem dm_C6_cex :
    printSummary (dmInit [[1]] []) = some [notSolvedMsg] ∧
    printCompact (dmInit [[1]] []) = some [notSolvedMsg] :=
  ⟨rfl, rfl⟩

/-- C6 (amended): whenever `solve` has not completed
(`decomposition is None`), `print_summary` and `print_compact` print the
notice and return normally — they neither raise a `NotSolvedError` nor
print a summary. -/
theorem dm_C6 (st : DMState) (h : st.decomposition = none) :
    printSummary st = some [notSolvedMsg] ∧
    printCompact st = some [notSolvedMsg] := by
  constructor
  · rw [printSummary, h]
  · rw [printCompact, h]

/-- C6 witness: the freshly constructed object has no decomposition, and
both presentation methods return the notice. -/
theorem dm_C6_witness :
    (dmInit [[1]] []).decomposition = none ∧
    (printSummary (dmInit [[1]] []) = some [notSolvedMsg] ∧
     printCompact (dmInit [[1]] []) = some [notSolvedMsg]) :=
  ⟨rfl, dm_C6 (dmInit [[1]] []) rfl⟩

/-- C4 counterexample: on `matrix = [[1,0],[1,1]]`, `matching = [(1,0)]`,
`solve` returns a decomposition with a non-empty V0 (`has_v0 = true`) and
two blocks, contradicting the claimed "V0 empty, single V∞ block". -/
theorem dm_C4_cex :
    ∃ st2 dec, dmSolve (dmInit [[1, 0], [1, 1]] [(1, 0)]) = some (st2, dec) ∧
      st2.has_v0 = true ∧ dec.length = 2 :=
  ⟨{ matrix := [[1, 0], [1, 1]], matching := [(1, 0)],
     decomposition := some [([0, 1], [0, 1]), ([0, 1], [0, 1])],
     has_v0 := true, has_vinf := true },
   [([0, 1], [0, 1]), ([0, 1], [0, 1])], by decide, rfl, rfl⟩

/-- C4 (amended): on this input V∞ is rows `{0,1}` and columns `{0,1}` as
claimed, but V0 is the full vertex set as well (column 1 is unmatched, and
the alternating search from it reaches everything), so the decomposition is
the V0 block followed by the V∞ block, with no core blocks. -/
theorem dm_C4 :
    dmSolve (dmInit [[1, 0], [1, 1]] [(1, 0)]) = some
      ({ matrix := [[1, 0], [1, 1]], matching := [(1, 0)],
         decomposition := some [([0, 1], [0, 1]), ([0, 1], [0, 1])],
         has_v0 := true, has_vinf := true },
       [([0, 1], [0, 1]), ([0, 1], [0, 1])]) := by decide

/-- C2: `_find_Vinf` returns exactly the set of rows and columns reachable
from the unmatched rows by alternating non-matching (row→col) and matching
(col→row) edges, and any exhaustive traversal — any seed order and any
adequate fuel — produces the same sets, so the result is independent of the
stack-versus-queue discipline. -/
theorem dm_C2 (mat : List (List Int)) (matching : List (Nat × Nat))
    (hRect : Rect mat)
    (hRange : ∀ p ∈ matching, p.1 < mat.length ∧ p.2 < (mat.headD []).length) :
    ∃ R C, findVinf mat matching = some (R, C) ∧
      VinfPost mat matching R C ∧
      ∀ seeds fuel,
        (∀ x, x ∈ seeds ↔ x < mat.length ∧ x ∉ matchedRows matching) →
        vinfMeasure matching mat.length (mat.headD []).length seeds [] <
          fuel →
        ∃ R2 C2, vinfLoop mat matching (mat.headD []).length fuel seeds [] []
            = some (R2, C2) ∧
          (∀ r, r ∈ R2 ↔ r ∈ R) ∧ (∀ c, c ∈ C2 ↔ c ∈ C) := by
  obtain ⟨R, C, hrun, hpost⟩ := findVinf_post mat matching hRect hRange
  refine ⟨R, C, hrun, hpost, ?_⟩
  intro seeds fuel hseeds hfuel
  obtain ⟨R2, C2, hrun2, hpost2⟩ :=
    vinfLoop_seeds mat matching hRect hRange seeds hseeds fuel hfuel
  exact ⟨R2, C2, hrun2,
    fun r => (hpost2.1 r).trans ((hpost.1 r).symm),
    fun c => (hpost2.2 c).trans ((hpost.2 c).symm)⟩

/-- C2 witness: the theorem applies to the concrete input
`[[1,0],[1,1]]` with matching `[(1,0)]`. -/
theorem dm_C2_witness :
    Rect [[1, 0], [1, 1]] ∧
    (∀ p ∈ [((1 : Nat), (0 : Nat))],
      p.1 < ([[1, 0], [1, 1]] : List (List Int)).length ∧
      p.2 < (([[1, 0], [1, 1]] : List (List Int)).headD []).length) ∧
    ∃ R C, findVinf [[1, 0], [1, 1]] [(1, 0)] = some (R, C) ∧
      VinfPost [[1, 0], [1, 1]] [(1, 0)] R C ∧
      ∀ seeds fuel,
        (∀ x, x ∈ seeds ↔ x < ([[1, 0], [1, 1]] : List (List Int)).length ∧
          x ∉ matchedRows [(1, 0)]) →
        vinfMeasure [(1, 0)] ([[1, 0], [1, 1]] : List (List Int)).length
          (([[1, 0], [1, 1]] : List (List Int)).headD []).length seeds [] <
          fuel →
        ∃ R2 C2, vinfLoop [[1, 0], [1, 1]] [(1, 0)]
            (([[1, 0], [1, 1]] : List (List Int)).headD []).length fuel seeds
            [] [] = some (R2, C2) ∧
          (∀ r, r ∈ R2 ↔ r ∈ R) ∧ (∀ c, c ∈ C2 ↔ c ∈ C) :=
  ⟨by unfold Rect; decide, by decide,
   dm_C2 [[1, 0], [1, 1]] [(1, 0)] (by unfold Rect; decide) (by decide)⟩

/-- C3: in the ordered block list produced by `find_sccs`, a residual-graph
arc from a vertex of the block at position `i` to a vertex of the block at
position `j` forces `i ≤ j`: the source component never appears strictly
after the target component. -/
theorem dm_C3 (mat : List (List Int)) (ve : List (Nat × Nat)) (n m : Nat)
    (hve : ∀ p ∈ ve, p.1 < n ∧ p.2 < m) :
    ∃ blocks, findSccs mat ve n m = some blocks ∧
      ∀ i j x y, i < blocks.length → j < blocks.length →
        inComp n (blocks.getD i ([], [])) x → y ∈ sccAdj mat ve n m x →
        inComp n (blocks.getD j ([], [])) y → i ≤ j := by
  obtain ⟨blocks, hrun, _, _, htopo⟩ :=
    tjFindSccs_spec (sccAdj mat ve n m) n m (sccAdj_bounded mat ve n m hve)
  exact ⟨blocks, hrun,
    fun i j x y hi hj hx hy hyc => htopo i j x y hi hj hx hy hyc⟩

/-- C3 witness: the theorem applies to the concrete residual graph of
`[[1]]` with valid edge `(0,0)`. -/
theorem dm_C3_witness :
    (∀ p ∈ [((0 : Nat), (0 : Nat))], p.1 < 1 ∧ p.2 < 1) ∧
    ∃ blocks, findSccs [[1]] [(0, 0)] 1 1 = some blocks ∧
      ∀ i j x y, i < blocks.length → j < blocks.length →
        inComp 1 (blocks.getD i ([], [])) x →
        y ∈ sccAdj [[1]] [(0, 0)] 1 1 x →
        inComp 1 (blocks.getD j ([], [])) y → i ≤ j :=
  ⟨by decide, dm_C3 [[1]] [(0, 0)] 1 1 (by decide)⟩

/-- C8: with a square shape and a matching that saturates every row and
every column, both reachability passes return empty sets and `solve` marks
neither a V0 nor a V∞ block, so the decomposition consists solely of core
SCC blocks. -/
theorem dm_C8 (st : DMState) (hRect : Rect st.matrix)
    (hVM : ValidMatching st.matrix st.matching)
    (hsq : st.matrix.length = (st.matrix.headD []).length)
    (hrows : ∀ r, r < st.matrix.length → r ∈ matchedRows st.matching)
    (hcols : ∀ c, c < (st.matrix.headD []).length →
      c ∈ matchedCols st.matching) :
    findV0 st.matrix st.matching = some ([], []) ∧
    findVinf st.matrix st.matching = some ([], []) ∧
    ∃ st2 dec, dmSolve st = some (st2, dec) ∧ st2.has_v0 = false ∧
      st2.has_vinf = false := by
  have hnoVinf : ∀ x, ¬ VinfReach st.matrix st.matching x := by
    intro x h
    induction h with
    | seed r hr hnr => exact hnr (hrows r hr)
    | col _ _ _ _ _ ih => exact ih
    | row _ _ _ _ ih => exact ih
  have hnoV0 : ∀ x, ¬ V0Reach st.matrix st.matching x := by
    intro x h
    induction h with
    | seed c hc hnc => exact hnc (hcols c hc)
    | row _ _ _ _ _ ih => exact ih
    | col _ _ _ _ ih => exact ih
  obtain ⟨v0R, v0C, vinfR, vinfC, sccBlocks, dec, h0run, h0post, hirun,
    hipost, hdec, hsolve, _⟩ := dmSolve_run st hRect hVM
  have hv0R : v0R = [] := List.eq_nil_iff_forall_not_mem.mpr
    (fun r hr => hnoV0 _ ((h0post.1 r).mp hr))
  have hv0C : v0C = [] := List.eq_nil_iff_forall_not_mem.mpr
    (fun c hc => hnoV0 _ ((h0post.2 c).mp hc))
  have hviR : vinfR = [] := List.eq_nil_iff_forall_not_mem.mpr
    (fun r hr => hnoVinf _ ((hipost.1 r).mp hr))
  have hviC : vinfC = [] := List.eq_nil_iff_forall_not_mem.mpr
    (fun c hc => hnoVinf _ ((hipost.2 c).mp hc))
  subst hv0R hv0C hviR hviC
  refine ⟨h0run, hirun,
    { st with
        decomposition := some dec
        has_v0 := decide (([] : List Nat) ≠ [] ∨ ([] : List Nat) ≠ [])
        has_vinf := decide (([] : List Nat) ≠ [] ∨ ([] : List Nat) ≠ []) },
    dec, hsolve, rfl, rfl⟩

/-- C8 witness: the perfect matching `[(0,0)]` on `[[1]]`. -/
theorem dm_C8_witness :
    Rect (dmInit [[1]] [(0, 0)]).matrix ∧
    ValidMatching (dmInit [[1]] [(0, 0)]).matrix
      (dmInit [[1]] [(0, 0)]).matching ∧
    (dmInit [[1]] [(0, 0)]).matrix.length =
      ((dmInit [[1]] [(0, 0)]).matrix.headD []).length ∧
    (∀ r, r < (dmInit [[1]] [(0, 0)]).matrix.length →
      r ∈ matchedRows (dmInit [[1]] [(0, 0)]).matching) ∧
    (∀ c, c < ((dmInit [[1]] [(0, 0)]).matrix.headD []).length →
      c ∈ matchedCols (dmInit [[1]] [(0, 0)]).matching) ∧
    (findV0 (dmInit [[1]] [(0, 0)]).matrix
        (dmInit [[1]] [(0, 0)]).matching = some ([], []) ∧
      findVinf (dmInit [[1]] [(0, 0)]).matrix
        (dmInit [[1]] [(0, 0)]).matching = some ([], []) ∧
      ∃ st2 dec, dmSolve (dmInit [[1]] [(0, 0)]) = some (st2, dec) ∧
        st2.has_v0 = false ∧ st2.has_vinf = false) :=
  ⟨by unfold Rect; decide, by unfold ValidMatching; decide, by decide,
   by decide, by decide,
   dm_C8 (dmInit [[1]] [(0, 0)]) (by unfold Rect; decide)
     (by unfold ValidMatching; decide) (by decide) (by decide) (by decide)⟩

/-- C9: after removing the V0 and V∞ rows and columns, every remaining row
and column is matched and its partner also remains; the restricted matching
is empty exactly when no vertices remain, so the `if remaining_matching:`
guard never silently drops surviving vertices. -/
theorem dm_C9 (st : DMState) (hRect : Rect st.matrix)
    (hVM : ValidMatching st.matrix st.matching) :
    ∃ v0R v0C vinfR vinfC remMatch,
      findV0 st.matrix st.matching = some (v0R, v0C) ∧
      findVinf st.matrix st.matching = some (vinfR, vinfC) ∧
      reindexMatching st.matching (v0R ++ vinfR) (v0C ++ vinfC)
        (dmRemRows st.matrix v0R vinfR) (dmRemCols st.matrix v0C vinfC) =
        some remMatch ∧
      (∀ r ∈ dmRemRows st.matrix v0R vinfR, ∃ c, (r, c) ∈ st.matching ∧
        c ∈ dmRemCols st.matrix v0C vinfC) ∧
      (∀ c ∈ dmRemCols st.matrix v0C vinfC, ∃ r, (r, c) ∈ st.matching ∧
        r ∈ dmRemRows st.matrix v0R vinfR) ∧
      (remMatch = [] ↔ dmRemRows st.matrix v0R vinfR = [] ∧
        dmRemCols st.matrix v0C vinfC = []) := by
  obtain ⟨v0R, v0C, h0run, h0post⟩ := findV0_post st.matrix st.matching hVM.1
  obtain ⟨vinfR, vinfC, hirun, hipost⟩ :=
    findVinf_post st.matrix st.matching hRect hVM.1
  have hsplitR : ∀ r, r ∉ v0R ++ vinfR →
      ¬ V0Reach st.matrix st.matching (Sum.inl r) ∧
      ¬ VinfReach st.matrix st.matching (Sum.inl r) := by
    intro r h
    rw [List.mem_append] at h
    push_neg at h
    exact ⟨fun hr => h.1 ((h0post.1 r).mpr hr),
      fun hr => h.2 ((hipost.1 r).mpr hr)⟩
  have hsplitC : ∀ c, c ∉ v0C ++ vinfC →
      ¬ V0Reach st.matrix st.matching (Sum.inr c) ∧
      ¬ VinfReach st.matrix st.matching (Sum.inr c) := by
    intro c h
    rw [List.mem_append] at h
    push_neg at h
    exact ⟨fun hc => h.1 ((h0post.2 c).mpr hc),
      fun hc => h.2 ((hipost.2 c).mpr hc)⟩
  have hjoinC : ∀ c, ¬ V0Reach st.matrix st.matching (Sum.inr c) →
      ¬ VinfReach st.matrix st.matching (Sum.inr c) → c ∉ v0C ++ vinfC := by
    intro c h1 h2 hc
    rcases List.mem_append.mp hc with h | h
    · exact h1 ((h0post.2 c).mp h)
    · exact h2 ((hipost.2 c).mp h)
  have hjoinR : ∀ r, ¬ V0Reach st.matrix st.matching (Sum.inl r) →
      ¬ VinfReach st.matrix st.matching (Sum.inl r) → r ∉ v0R ++ vinfR := by
    intro r h1 h2 hr
    rcases List.mem_append.mp hr with h | h
    · exact h1 ((h0post.1 r).mp h)
    · exact h2 ((hipost.1 r).mp h)
  obtain ⟨remMatch, hre, hreiff⟩ := reindexMatching_post st.matching
    (v0R ++ vinfR) (v0C ++ vinfC) (dmRemRows st.matrix v0R vinfR)
    (dmRemCols st.matrix v0C vinfC) (dmRemRows_nodup _ _ _)
    (dmRemCols_nodup _ _ _)
    (fun p hp hnp => (mem_dmRemRows _ _ _ _).mpr ⟨(hVM.1 p hp).1, hnp⟩)
    (fun p hp hnp => (mem_dmRemCols _ _ _ _).mpr ⟨(hVM.1 p hp).2, hnp⟩)
  have hrowsurv : ∀ r ∈ dmRemRows st.matrix v0R vinfR,
      ∃ c, (r, c) ∈ st.matching ∧ c ∈ dmRemCols st.matrix v0C vinfC := by
    intro r hr
    obtain ⟨hrn, hnr⟩ := (mem_dmRemRows _ _ _ _).mp hr
    obtain ⟨hn0, hninf⟩ := hsplitR r hnr
    obtain ⟨c, hm, hcm, hc0, hcinf⟩ :=
      survivor_row st.matrix st.matching hVM r hrn hn0 hninf
    exact ⟨c, hm, (mem_dmRemCols _ _ _ _).mpr ⟨hcm, hjoinC c hc0 hcinf⟩⟩
  have hcolsurv : ∀ c ∈ dmRemCols st.matrix v0C vinfC,
      ∃ r, (r, c) ∈ st.matching ∧ r ∈ dmRemRows st.matrix v0R vinfR := by
    intro c hc
    obtain ⟨hcm, hnc⟩ := (mem_dmRemCols _ _ _ _).mp hc
    obtain ⟨h0c, hinfc⟩ := hsplitC c hnc
    obtain ⟨r, hm, hrn, hr0, hrinf⟩ :=
      survivor_col st.matrix st.matching hVM c hcm h0c hinfc
    exact ⟨r, hm, (mem_dmRemRows _ _ _ _).mpr ⟨hrn, hjoinR r hr0 hrinf⟩⟩
  refine ⟨v0R, v0C, vinfR, vinfC, remMatch, h0run, hirun, hre, hrowsurv,
    hcolsurv, ?_, ?_⟩
  · intro hnil
    constructor
    · rw [List.eq_nil_iff_forall_not_mem]
      intro r hr
      obtain ⟨c, hm, hc⟩ := hrowsurv r hr
      obtain ⟨hrn, hnr⟩ := (mem_dmRemRows _ _ _ _).mp hr
      obtain ⟨hcm, hnc⟩ := (mem_dmRemCols _ _ _ _).mp hc
      obtain ⟨a, ha, hag⟩ := mem_getD_of_mem _ r hr
      obtain ⟨b, hb, hbg⟩ := mem_getD_of_mem _ c hc
      have : (a, b) ∈ remMatch := (hreiff a b).mpr
        ⟨ha, hb, by rw [hag, hbg]; exact hm, by rw [hag]; exact hnr,
         by rw [hbg]; exact hnc⟩
      rw [hnil] at this
      exact absurd this (List.not_mem_nil _)
    · rw [List.eq_nil_iff_forall_not_mem]
      intro c hc
      obtain ⟨r, hm, hr⟩ := hcolsurv c hc
      obtain ⟨hrn, hnr⟩ := (mem_dmRemRows _ _ _ _).mp hr
      obtain ⟨hcm, hnc⟩ := (mem_dmRemCols _ _ _ _).mp hc
      obtain ⟨a, ha, hag⟩ := mem_getD_of_mem _ r hr
      obtain ⟨b, hb, hbg⟩ := mem_getD_of_mem _ c hc
      have : (a, b) ∈ remMatch := (hreiff a b).mpr
        ⟨ha, hb, by rw [hag, hbg]; exact hm, by rw [hag]; exact hnr,
         by rw [hbg]; exact hnc⟩
      rw [hnil] at this
      exact absurd this (List.not_mem_nil _)
  · rintro ⟨hrows, _⟩
    rw [List.eq_nil_iff_forall_not_mem]
    intro p hp
    have hp2 : (p.1, p.2) ∈ remMatch := hp
    obtain ⟨ha, _, _, _, _⟩ := (hreiff p.1 p.2).mp hp2
    rw [hrows] at ha
    exact absurd ha (by simp)

/-- C9 witness: the concrete perfect-matching input `[[1]]`, `[(0,0)]`. -/
theorem dm_C9_witness :
    Rect (dmInit [[1]] [(0, 0)]).matrix ∧
    ValidMatching (dmInit [[1]] [(0, 0)]).matrix
      (dmInit [[1]] [(0, 0)]).matching ∧
    ∃ v0R v0C vinfR vinfC remMatch,
      findV0 (dmInit [[1]] [(0, 0)]).matrix
        (dmInit [[1]] [(0, 0)]).matching = some (v0R, v0C) ∧
      findVinf (dmInit [[1]] [(0, 0)]).matrix
        (dmInit [[1]] [(0, 0)]).matching = some (vinfR, vinfC) ∧
      reindexMatching (dmInit [[1]] [(0, 0)]).matching (v0R ++ vinfR)
        (v0C ++ vinfC)
        (dmRemRows (dmInit [[1]] [(0, 0)]).matrix v0R vinfR)
        (dmRemCols (dmInit [[1]] [(0, 0)]).matrix v0C vinfC) =
        some remMatch ∧
      (∀ r ∈ dmRemRows (dmInit [[1]] [(0, 0)]).matrix v0R vinfR,
        ∃ c, (r, c) ∈ (dmInit [[1]] [(0, 0)]).matching ∧
          c ∈ dmRemCols (dmInit [[1]] [(0, 0)]).matrix v0C vinfC) ∧
      (∀ c ∈ dmRemCols (dmInit [[1]] [(0, 0)]).matrix v0C vinfC,
        ∃ r, (r, c) ∈ (dmInit [[1]] [(0, 0)]).matching ∧
          r ∈ dmRemRows (dmInit [[1]] [(0, 0)]).matrix v0R vinfR) ∧
      (remMatch = [] ↔
        dmRemRows (dmInit [[1]] [(0, 0)]).matrix v0R vinfR = [] ∧
        dmRemCols (dmInit [[1]] [(0, 0)]).matrix v0C vinfC = []) :=
  ⟨by unfold Rect; decide, by unfold ValidMatching; decide,
   dm_C9 (dmInit [[1]] [(0, 0)]) (by unfold Rect; decide)
     (by unfold ValidMatching; decide)⟩

/-- C7: for every valid input and every pair `(r, c)` of the matching, the
decomposition returned by `solve` has a block containing both row `r` and
column `c` (the V0 block, a core SCC block, or the V∞ block). -/
theorem dm_C7 (st : DMState) (hRect : Rect st.matrix)
    (hVM : ValidMatching st.matrix st.matching) :
    ∃ st2 dec, dmSolve st = some (st2, dec) ∧
      ∀ r c, (r, c) ∈ st.matching →
        ∃ k, k < dec.length ∧ r ∈ (dec.getD k ([], [])).1 ∧
          c ∈ (dec.getD k ([], [])).2 := by
  obtain ⟨v0R, v0C, vinfR, vinfC, sccBlocks, dec, h0run, h0post, hirun,
    hipost, hdec, hsolve, _, _, _, _, _, hsame⟩ := dmSolve_run st hRect hVM
  refine ⟨_, dec, hsolve, ?_⟩
  intro r c hm
  by_cases hc0 : c ∈ v0C
  · have hr0 : r ∈ v0R := (h0post.1 r).mpr
      (v0Reach_col_inv st.matrix st.matching hVM.2.2 r c hm
        ((h0post.2 c).mp hc0))
    have hAv : (if decide (v0R ≠ [] ∨ v0C ≠ []) then
        [((sortedSet v0R, sortedSet v0C) : Block)] else []) =
        [((sortedSet v0R, sortedSet v0C) : Block)] :=
      if_pos (decide_eq_true (Or.inr (List.ne_nil_of_mem hc0)))
    refine ⟨0, ?_, ?_, ?_⟩
    · rw [hdec, hAv]
      simp
    · rw [hdec, hAv]
      show r ∈ ((((sortedSet v0R, sortedSet v0C) : Block) ::
        (sccBlocks ++ _)).getD 0 ([], [])).1
      rw [List.getD_cons_zero]
      exact (mem_sortedSet r v0R).mpr hr0
    · rw [hdec, hAv]
      show c ∈ ((((sortedSet v0R, sortedSet v0C) : Block) ::
        (sccBlocks ++ _)).getD 0 ([], [])).2
      rw [List.getD_cons_zero]
      exact (mem_sortedSet c v0C).mpr hc0
  · by_cases hcinf : c ∈ vinfC
    · have hrinf : r ∈ vinfR := (hipost.1 r).mpr
        (VinfReach.row c r ((hipost.2 c).mp hcinf) hm)
      have hBv : (if decide (vinfR ≠ [] ∨ vinfC ≠ []) then
          [((sortedSet vinfR, sortedSet vinfC) : Block)] else []) =
          [((sortedSet vinfR, sortedSet vinfC) : Block)] :=
        if_pos (decide_eq_true (Or.inr (List.ne_nil_of_mem hcinf)))
      have hdec2 : dec = ((if decide (v0R ≠ [] ∨ v0C ≠ []) then
          [((sortedSet v0R, sortedSet v0C) : Block)] else []) ++ sccBlocks) ++
          [((sortedSet vinfR, sortedSet vinfC) : Block)] := by
        rw [hdec, hBv]
      refine ⟨((if decide (v0R ≠ [] ∨ v0C ≠ []) then
          [((sortedSet v0R, sortedSet v0C) : Block)] else []) ++
          sccBlocks).length, ?_, ?_, ?_⟩
      · rw [hdec2]
        simp
      · rw [hdec2, getD_snoc_len]
        exact (mem_sortedSet r vinfR).mpr hrinf
      · rw [hdec2, getD_snoc_len]
        exact (mem_sortedSet c vinfC).mpr hcinf
    · have hnc : c ∉ v0C ++ vinfC := by
        rw [List.mem_append]
        push_neg
        exact ⟨hc0, hcinf⟩
      have hnr : r ∉ v0R ++ vinfR := by
        rw [List.mem_append]
        push_neg
        constructor
        · intro hr0
          exact hc0 ((h0post.2 c).mpr
            (V0Reach.col r c ((h0post.1 r).mp hr0) hm))
        · intro hrinf
          exact hcinf ((hipost.2 c).mpr
            (vinfReach_row_inv st.matrix st.matching hVM.2.1 r c hm
              ((hipost.1 r).mp hrinf)))
      obtain ⟨k, hk, hkr, hkc⟩ := hsame r c hm hnr hnc
      set A := (if decide (v0R ≠ [] ∨ v0C ≠ []) then
        [((sortedSet v0R, sortedSet v0C) : Block)] else []) with hA
      set B := (if decide (vinfR ≠ [] ∨ vinfC ≠ []) then
        [((sortedSet vinfR, sortedSet vinfC) : Block)] else []) with hB
      have hget : dec.getD (A.length + k) ([], []) =
          sccBlocks.getD k ([], []) := by
        rw [hdec]
        rw [List.getD_append _ _ _ _ (by rw [List.length_append]; omega)]
        rw [List.getD_append_right _ _ _ _ (by omega)]
        congr 1
        omega
      refine ⟨A.length + k, ?_, ?_, ?_⟩
      · rw [hdec, List.length_append, List.length_append]
        omega
      · rw [hget]
        exact hkr
      · rw [hget]
        exact hkc

/-- C7 witness: the matched pair `(0,0)` of the input `[[1]]` lands in one
common block. -/
theorem dm_C7_witness :
    Rect (dmInit [[1]] [(0, 0)]).matrix ∧
    ValidMatching (dmInit [[1]] [(0, 0)]).matrix
      (dmInit [[1]] [(0, 0)]).matching ∧
    ∃ st2 dec, dmSolve (dmInit [[1]] [(0, 0)]) = some (st2, dec) ∧
      ∀ r c, (r, c) ∈ (dmInit [[1]] [(0, 0)]).matching →
        ∃ k, k < dec.length ∧ r ∈ (dec.getD k ([], [])).1 ∧
          c ∈ (dec.getD k ([], [])).2 :=
  ⟨by unfold Rect; decide, by unfold ValidMatching; decide,
   dm_C7 (dmInit [[1]] [(0, 0)]) (by unfold Rect; decide)
     (by unfold ValidMatching; decide)⟩

theorem rowCountD_append (l1 l2 : List Block) (r : Nat) :
    rowCountD (l1 ++ l2) r = rowCountD l1 r + rowCountD l2 r := by
  rw [rowCountD, rowCountD, rowCountD, List.map_append, List.sum_append]

theorem colCountD_append (l1 l2 : List Block) (c : Nat) :
    colCountD (l1 ++ l2) c = colCountD l1 c + colCountD l2 c := by
  rw [colCountD, colCountD, colCountD, List.map_append, List.sum_append]

/-- Row occurrences contributed by the optional boundary block. -/
theorem count_ifblock_row (v0R v0C : List Nat) (r : Nat) :
    rowCountD (if decide (v0R ≠ [] ∨ v0C ≠ []) then
      [((sortedSet v0R, sortedSet v0C) : Block)] else []) r =
    if r ∈ v0R then 1 else 0 := by
  by_cases h : v0R ≠ [] ∨ v0C ≠ []
  · rw [if_pos (decide_eq_true h)]
    have h2 : rowCountD [((sortedSet v0R, sortedSet v0C) : Block)] r =
        (sortedSet v0R).count r := by
      simp [rowCountD]
    rw [h2, count_sortedSet]
  · push_neg at h
    obtain ⟨h1, h2⟩ := h
    subst h1
    subst h2
    rfl

/-- Column occurrences contributed by the optional boundary block. -/
theorem count_ifblock_col (v0R v0C : List Nat) (c : Nat) :
    colCountD (if decide (v0R ≠ [] ∨ v0C ≠ []) then
      [((sortedSet v0R, sortedSet v0C) : Block)] else []) c =
    if c ∈ v0C then 1 else 0 := by
  by_cases h : v0R ≠ [] ∨ v0C ≠ []
  · rw [if_pos (decide_eq_true h)]
    have h2 : colCountD [((sortedSet v0R, sortedSet v0C) : Block)] c =
        (sortedSet v0C).count c := by
      simp [colCountD]
    rw [h2, count_sortedSet]
  · push_neg at h
    obtain ⟨h1, h2⟩ := h
    subst h1
    subst h2
    rfl

/-- C1 counterexample: on `[[1]]` with the empty matching, row 0 (and
column 0) appears in two blocks of the returned decomposition — both in V0
and in V∞ — so the row lists do not partition `{0..n-1}`. -/
theorem dm_C1_cex :
    ∃ st2 dec, dmSolve (dmInit [[1]] []) = some (st2, dec) ∧
      rowCountD dec 0 = 2 ∧ colCountD dec 0 = 2 :=
  ⟨{ matrix := [[1]], matching := [],
     decomposition := some [([0], [0]), ([0], [0])],
     has_v0 := true, has_vinf := true },
   [([0], [0]), ([0], [0])], by decide, by decide, by decide⟩

/-- C1 (amended): when the matching is valid and the computed V0 and V∞
reachability sets are disjoint (as maximum matchings guarantee), the
decomposition partitions the indices: every row index below `n` occurs in
exactly one block row list and no other index occurs at all; likewise for
columns. -/
theorem dm_C1 (st : DMState) (hRect : Rect st.matrix)
    (hVM : ValidMatching st.matrix st.matching)
    (hdisj : ∀ x, ¬(V0Reach st.matrix st.matching x ∧
      VinfReach st.matrix st.matching x)) :
    ∃ st2 dec, dmSolve st = some (st2, dec) ∧
      (∀ r, rowCountD dec r = if r < st.matrix.length then 1 else 0) ∧
      (∀ c, colCountD dec c =
        if c < (st.matrix.headD []).length then 1 else 0) := by
  obtain ⟨v0R, v0C, vinfR, vinfC, sccBlocks, dec, h0run, h0post, hirun,
    hipost, hdec, hsolve, hblk, hrow1, hrow0, hcol1, hcol0, _⟩ :=
    dmSolve_run st hRect hVM
  refine ⟨_, dec, hsolve, ?_, ?_⟩
  · intro r
    rw [hdec, rowCountD_append, rowCountD_append, count_ifblock_row,
      count_ifblock_row]
    by_cases hrn : r < st.matrix.length
    · rw [if_pos hrn]
      by_cases h0 : r ∈ v0R
      · have hninf : r ∉ vinfR := fun hinf =>
          hdisj (Sum.inl r) ⟨(h0post.1 r).mp h0, (hipost.1 r).mp hinf⟩
        have hscc : rowCountD sccBlocks r = 0 := hrow0 r (fun hmem =>
          ((mem_dmRemRows _ _ _ _).mp hmem).2 (List.mem_append_left _ h0))
        rw [if_pos h0, if_neg hninf, hscc]
      · by_cases hinf : r ∈ vinfR
        · have hscc : rowCountD sccBlocks r = 0 := hrow0 r (fun hmem =>
            ((mem_dmRemRows _ _ _ _).mp hmem).2
              (List.mem_append_right _ hinf))
          rw [if_neg h0, if_pos hinf, hscc]
        · have hnr : r ∉ v0R ++ vinfR := by
            rw [List.mem_append]
            push_neg
            exact ⟨h0, hinf⟩
          rw [if_neg h0, if_neg hinf, hrow1 r hrn hnr]
    · rw [if_neg hrn]
      have h0 : r ∉ v0R := fun h =>
        hrn (v0Reach_lt st.matrix st.matching hVM.1 (Sum.inl r)
          ((h0post.1 r).mp h))
      have hinf : r ∉ vinfR := fun h =>
        hrn (vinfReach_lt st.matrix st.matching hRect hVM.1 (Sum.inl r)
          ((hipost.1 r).mp h))
      have hscc : rowCountD sccBlocks r = 0 := hrow0 r (fun hmem =>
        hrn ((mem_dmRemRows _ _ _ _).mp hmem).1)
      rw [if_neg h0, if_neg hinf, hscc]
  · intro c
    rw [hdec, colCountD_append, colCountD_append, count_ifblock_col,
      count_ifblock_col]
    by_cases hcm : c < (st.matrix.headD []).length
    · rw [if_pos hcm]
      by_cases h0 : c ∈ v0C
      · have hninf : c ∉ vinfC := fun hinf =>
          hdisj (Sum.inr c) ⟨(h0post.2 c).mp h0, (hipost.2 c).mp hinf⟩
        have hscc : colCountD sccBlocks c = 0 := hcol0 c (fun hmem =>
          ((mem_dmRemCols _ _ _ _).mp hmem).2 (List.mem_append_left _ h0))
        rw [if_pos h0, if_neg hninf, hscc]
      · by_cases hinf : c ∈ vinfC
        · have hscc : colCountD sccBlocks c = 0 := hcol0 c (fun hmem =>
            ((mem_dmRemCols _ _ _ _).mp hmem).2
              (List.mem_append_right _ hinf))
          rw [if_neg h0, if_pos hinf, hscc]
        · have hnc : c ∉ v0C ++ vinfC := by
            rw [List.mem_append]
            push_neg
            exact ⟨h0, hinf⟩
          rw [if_neg h0, if_neg hinf, hcol1 c hcm hnc]
    · rw [if_neg hcm]
      have h0 : c ∉ v0C := fun h =>
        hcm (v0Reach_lt st.matrix st.matching hVM.1 (Sum.inr c)
          ((h0post.2 c).mp h))
      have hinf : c ∉ vinfC := fun h =>
        hcm (vinfReach_lt st.matrix st.matching hRect hVM.1 (Sum.inr c)
          ((hipost.2 c).mp h))
      have hscc : colCountD sccBlocks c = 0 := hcol0 c (fun hmem =>
        hcm ((mem_dmRemCols _ _ _ _).mp hmem).1)
      rw [if_neg h0, if_neg hinf, hscc]

/-- C1 witness: on the perfectly matched `[[1]]`, `[(0,0)]` the V0/V∞ sets
are disjoint (both empty) and the decomposition partitions the indices. -/
theorem dm_C1_witness :
    Rect (dmInit [[1]] [(0, 0)]).matrix ∧
    ValidMatching (dmInit [[1]] [(0, 0)]).matrix
      (dmInit [[1]] [(0, 0)]).matching ∧
    (∀ x, ¬(V0Reach (dmInit [[1]] [(0, 0)]).matrix
        (dmInit [[1]] [(0, 0)]).matching x ∧
      VinfReach (dmInit [[1]] [(0, 0)]).matrix
        (dmInit [[1]] [(0, 0)]).matching x)) ∧
    ∃ st2 dec, dmSolve (dmInit [[1]] [(0, 0)]) = some (st2, dec) ∧
      (∀ r, rowCountD dec r =
        if r < (dmInit [[1]] [(0, 0)]).matrix.length then 1 else 0) ∧
      (∀ c, colCountD dec c =
        if c < ((dmInit [[1]] [(0, 0)]).matrix.headD []).length then 1
        else 0) := by
  have hdisj : ∀ x, ¬(V0Reach (dmInit [[1]] [(0, 0)]).matrix
      (dmInit [[1]] [(0, 0)]).matching x ∧
    VinfReach (dmInit [[1]] [(0, 0)]).matrix
      (dmInit [[1]] [(0, 0)]).matching x) := by
    intro x hx
    have h := hx.2
    clear hx
    induction h with
    | seed r hr hnr =>
      have hr1 : r < 1 := hr
      have hr0 : r = 0 := by omega
      subst hr0
      exact hnr (by decide)
    | col _ _ _ _ _ ih => exact ih
    | row _ _ _ _ ih => exact ih
  exact ⟨by unfold Rect; decide, by unfold ValidMatching; decide, hdisj,
    dm_C1 (dmInit [[1]] [(0, 0)]) (by unfold Rect; decide)
      (by unfold ValidMatching; decide) hdisj⟩

end DM
